import Mathlib

/-!
# error-chain: a linked chain of errors taking part in the `errors.Is` protocol

A shallow embedding of `chain.go` (package `chain`).

The Go program works on heap objects through pointers: `*link` nodes whose
`next` field is written by `Add`, and `*ErrorChain` objects whose `head` and
`tail` fields are written by `Add` and which `Unwrap` allocates.  The embedding
therefore passes an explicit `Heap` around.  An address is an index into the
heap, a Go pointer is an `Option Nat` (`none` is `nil`), and a method with a
pointer receiver takes the heap and the receiver's address.

Go's `error` interface is modelled by the dynamic types that occur in the
repository: `*errors.errorString` (from `errors.New`), `*testError`
(chain_test.go), `*myError` (_example/main.go), `*fmt.wrapError` (from
`fmt.Errorf` with `%w`) and `*ErrorChain` itself.  Each value carries the
address of the object it points to; Go's `==` on two interface values compares
dynamic type and address.

A run that dereferences `nil` ends in `Fault.nilDereference`; recursion through
errors that contain chains is bounded by a fuel argument and ends in
`Fault.outOfFuel` when the fuel is used up.

`Add` and `Unwrap` change the heap and return the new one.  `errors.Is` and
`Error()` write no field; the chain objects that the walk of `errors.Is`
allocates through `Unwrap` are used inside the walk and cannot be reached once
it has returned, so `errors.Is` returns its answer only.  `errors.IsRun` is the
same function with the heap handed on and returned; it gives the same answer
(`errors.IsRun_of_Is`) and is what the claim about non-mutating reads is
stated on.  `ErrorChain.Errors` returns the elements of the slice;
`ErrorChain.ErrorsSlice` is the same loop with the nil-ness of the slice kept.
-/

/-- The ways in which a run of the embedded program stops without a result. -/
inductive Fault where
  | nilDereference
  | invalidAddress
  | outOfFuel
deriving DecidableEq, Repr

deriving instance DecidableEq for Except

/-- The non-nil values of Go's `error` interface that the repository builds.
`p` is the address of the object the value points to. -/
inductive GoError where
  | errorString (p : Nat) (s : String)
  | testError (p : Nat) (code : Int)
  | myError (p : Nat) (code : Int)
  | wrapError (p : Nat) (msg : String) (err : GoError)
  | errorChain (p : Nat)
deriving DecidableEq, Repr

/-- A value of Go's `error` interface; `none` is the nil interface. -/
abbrev error := Option GoError

/-- The `link` struct of chain.go: `err error; next *link`. -/
structure link where
  err : error
  next : Option Nat
deriving DecidableEq, Repr

/-- The `ErrorChain` struct of chain.go: `head *link; tail *link`. -/
structure ErrorChain where
  head : Option Nat
  tail : Option Nat
deriving DecidableEq, Repr

/-- The heap: the allocated `link` objects and the allocated `ErrorChain`
objects, each addressed by its index. -/
structure Heap where
  links : List link
  chains : List ErrorChain
deriving DecidableEq, Repr

namespace Heap

/-- Read the `ErrorChain` object behind a receiver address. -/
def chain (h : Heap) (e : Nat) : Except Fault ErrorChain :=
  match h.chains[e]? with
  | some c => .ok c
  | none => .error .invalidAddress

/-- Dereference a `*link`: `nil` faults. -/
def link (h : Heap) (p : Option Nat) : Except Fault link :=
  match p with
  | none => .error .nilDereference
  | some a =>
    match h.links[a]? with
    | some l => .ok l
    | none => .error .invalidAddress

/-- The assignment `p.next = n` through a `*link` p: `nil` faults. -/
def setNext (h : Heap) (p : Option Nat) (n : Option Nat) : Except Fault Heap :=
  match p with
  | none => .error .nilDereference
  | some a =>
    match h.links[a]? with
    | some l => .ok { h with links := h.links.set a { l with next := n } }
    | none => .error .invalidAddress

/-- The allocation `&link{err: err}`: the new object's address and the heap
that holds it. -/
def allocLink (h : Heap) (err : error) : Nat × Heap :=
  (h.links.length, { h with links := h.links ++ [{ err := err, next := none }] })

/-- The allocation `&ErrorChain{head: hd, tail: tl}`. -/
def allocChain (h : Heap) (hd tl : Option Nat) : Nat × Heap :=
  (h.chains.length, { h with chains := h.chains ++ [{ head := hd, tail := tl }] })

/-- The assignments to the fields of the `ErrorChain` object at address e. -/
def setChain (h : Heap) (e : Nat) (c : ErrorChain) : Heap :=
  { h with chains := h.chains.set e c }

end Heap

namespace GoError

/-- Go's `==` on two non-nil interface values of the modelled dynamic types
(all pointer types): same dynamic type and same address. -/
def same : GoError → GoError → Bool
  | .errorString p _, .errorString q _ => p == q
  | .testError p _, .testError q _ => p == q
  | .myError p _, .myError q _ => p == q
  | .wrapError p _ _, .wrapError q _ _ => p == q
  | .errorChain p, .errorChain q => p == q
  | _, _ => false

end GoError

/-- The method `(*testError).Is` of chain_test.go: the target must be a
`*testError` with the same code. -/
def testError.Is (code : Int) (target : error) : Bool :=
  match target with
  | some (.testError _ c) => code == c
  | _ => false

/-- The method `(*myError).Is` of _example/main.go: the target must be a
`*myError` with the same code. -/
def myError.Is (code : Int) (target : error) : Bool :=
  match target with
  | some (.myError _ c) => code == c
  | _ => false

namespace ErrorChain

/-- `func (e *ErrorChain) Error() string { return e.head.err.Error() }`.
`callError` is the dynamic dispatch of `Error()` on the stored value. -/
def Error (callError : error → Except Fault String) (h : Heap) (e : Nat) :
    Except Fault String :=
  match h.chain e with
  | .error f => .error f
  | .ok c =>
    match h.link c.head with
    | .error f => .error f
    | .ok l => callError l.err

/-- `func (e *ErrorChain) Unwrap() error`: nil when the head has no next link,
otherwise a newly allocated `ErrorChain` with the head advanced by one link and
the receiver's tail. -/
def Unwrap (h : Heap) (e : Nat) : Except Fault (error × Heap) :=
  match h.chain e with
  | .error f => .error f
  | .ok c =>
    match h.link c.head with
    | .error f => .error f
    | .ok l =>
      if l.next = none then .ok (none, h)
      else
        let (ec, h1) := h.allocChain l.next c.tail
        .ok (some (.errorChain ec), h1)

/-- `func (e *ErrorChain) Is(target error) bool { return errors.Is(e.head.err, target) }`.
`errorsIs` is the library function `errors.Is`. -/
def Is (errorsIs : Heap → error → error → Except Fault Bool) (h : Heap) (e : Nat)
    (target : error) : Except Fault Bool :=
  match h.chain e with
  | .error f => .error f
  | .ok c =>
    match h.link c.head with
    | .error f => .error f
    | .ok l => errorsIs h l.err target

/-- `func (e *ErrorChain) Add(err error)`. -/
def Add (h : Heap) (e : Nat) (err : error) : Except Fault Heap :=
  match h.chain e with
  | .error f => .error f
  | .ok c =>
    let (l, h1) := h.allocLink err
    if c.head = none then
      .ok (h1.setChain e { head := some l, tail := some l })
    else
      match h1.setNext c.tail (some l) with
      | .error f => .error f
      | .ok h2 => .ok (h2.setChain e { c with tail := some l })

/-- The loop of `Errors`: `for l != nil { errs = append(errs, l.err); l = l.next }`.
The fuel bounds the number of iterations. -/
def Errors.loop (links : List link) : Nat → Option Nat → List error → Except Fault (List error)
  | _, none, errs => .ok errs
  | 0, some _, _ => .error .outOfFuel
  | fuel + 1, some a, errs =>
    match links[a]? with
    | none => .error .invalidAddress
    | some l => Errors.loop links fuel l.next (errs ++ [l.err])

/-- `func (e *ErrorChain) Errors() []error`.  The loop is given as many
iterations as the heap has links: a walk that needs more visits some link
twice, and the Go loop then never ends. -/
def Errors (h : Heap) (e : Nat) : Except Fault (List error) :=
  match h.chain e with
  | .error f => .error f
  | .ok c => Errors.loop h.links h.links.length c.head []

end ErrorChain

/-- Dynamic dispatch of the `Error()` method on an interface value. -/
def error.Error : Nat → Heap → error → Except Fault String
  | _, _, none => .error .nilDereference
  | _, _, some (.errorString _ s) => .ok s
  | _, _, some (.testError _ code) => .ok (toString code)
  | _, _, some (.myError _ code) => .ok (toString code)
  | _, _, some (.wrapError _ msg _) => .ok msg
  | 0, _, some (.errorChain _) => .error .outOfFuel
  | fuel + 1, h, some (.errorChain p) => ErrorChain.Error (error.Error fuel h) h p

/-- The library function `errors.Is(err, target)`: with a nil target it
compares `err` with nil; otherwise it loops: return true when `err == target`,
return true when `err` has an `Is` method and `err.Is(target)` holds, replace
`err` by `err.Unwrap()` when it has an `Unwrap` method, and return false when
there is none or it yields nil. -/
def errors.Is : Nat → Heap → error → error → Except Fault Bool
  | _, _, none, target => .ok (target == none)
  | _, _, some _, none => .ok false
  | 0, _, some _, some _ => .error .outOfFuel
  | fuel + 1, h, some err, some target =>
    if err.same target then .ok true
    else
      match err with
      | .errorString _ _ => .ok false
      | .testError _ code => .ok (testError.Is code (some target))
      | .myError _ code => .ok (myError.Is code (some target))
      | .wrapError _ _ inner => errors.Is fuel h (some inner) (some target)
      | .errorChain p =>
        match ErrorChain.Is (errors.Is fuel) h p (some target) with
        | .error f => .error f
        | .ok true => .ok true
        | .ok false =>
          match ErrorChain.Unwrap h p with
          | .error f => .error f
          | .ok (none, _) => .ok false
          | .ok (some next, h1) => errors.Is fuel h1 (some next) (some target)

/-- The calls `e.Add(e1); ...; e.Add(en)` in this order. -/
def ErrorChain.AddAll (h : Heap) (e : Nat) : List error → Except Fault Heap
  | [] => .ok h
  | err :: rest =>
    match ErrorChain.Add h e err with
    | .error f => .error f
    | .ok h1 => ErrorChain.AddAll h1 e rest

/-- The heap after `ec := &ErrorChain{}` in an otherwise empty program. -/
def Heap.fresh : Heap := { links := [], chains := [{ head := none, tail := none }] }

/-- The links met from the pointer p by following `next`: their addresses and
the errors they hold, in this order.  The walk ends at a nil `next`. -/
inductive Chained (links : List link) : Option Nat → List Nat → List error → Prop where
  | nil : Chained links none [] []
  | cons {a : Nat} {l : link} {as : List Nat} {es : List error} :
      links[a]? = some l → Chained links l.next as es →
      Chained links (some a) (a :: as) (l.err :: es)

/-- The addresses of the links met from p by following `next`, when the walk
ends at nil within fuel links. -/
def linksFrom (links : List link) : Nat → Option Nat → Option (List Nat)
  | _, none => some []
  | 0, some _ => none
  | fuel + 1, some a =>
    match links[a]? with
    | none => none
    | some l =>
      match linksFrom links fuel l.next with
      | none => none
      | some as => some (a :: as)

/-- The chain invariant of the data model: the walk from `head` ends, and
`tail` is the last link it meets (nil exactly when `head` is nil). -/
def ErrorChain.invariant (h : Heap) (c : ErrorChain) : Prop :=
  match linksFrom h.links h.links.length c.head with
  | none => False
  | some path => c.tail = path.getLast?

instance (h : Heap) (c : ErrorChain) : Decidable (ErrorChain.invariant h c) := by
  unfold ErrorChain.invariant
  split <;> infer_instance

/-- The invariant of the `ErrorChain` object at address e. -/
def Heap.invariantAt (h : Heap) (e : Nat) : Prop :=
  match h.chains[e]? with
  | none => False
  | some c => ErrorChain.invariant h c

instance (h : Heap) (e : Nat) : Decidable (Heap.invariantAt h e) := by
  unfold Heap.invariantAt
  split <;> infer_instance

/-- The walk `for err != nil { err = err.Unwrap() }` from the chain at e: the
addresses of the chains that the calls of `Unwrap` return before nil. -/
def ErrorChain.unwrapAll : Nat → Heap → Nat → Except Fault (List Nat × Heap)
  | 0, _, _ => .error .outOfFuel
  | fuel + 1, h, e =>
    match ErrorChain.Unwrap h e with
    | .error f => .error f
    | .ok (none, h1) => .ok ([], h1)
    | .ok (some (.errorChain q), h1) =>
      match ErrorChain.unwrapAll fuel h1 q with
      | .error f => .error f
      | .ok (qs, h2) => .ok (q :: qs, h2)
    | .ok (some _, _) => .error .invalidAddress

/-- The number of calls of `Unwrap` that the same walk makes, the one that
returns nil included. -/
def ErrorChain.unwrapCalls : Nat → Heap → Nat → Except Fault Nat
  | 0, _, _ => .error .outOfFuel
  | fuel + 1, h, e =>
    match ErrorChain.Unwrap h e with
    | .error f => .error f
    | .ok (none, _) => .ok 1
    | .ok (some (.errorChain q), h1) =>
      match ErrorChain.unwrapCalls fuel h1 q with
      | .error f => .error f
      | .ok n => .ok (n + 1)
    | .ok (some _, _) => .error .invalidAddress

/-- A call of a state-changing public operation. -/
inductive Op where
  | new
  | add (e : Nat) (err : error)
  | unwrap (e : Nat)
deriving DecidableEq, Repr

/-- Run one call: `&ErrorChain{}`, `e.Add(err)` or `e.Unwrap()`. -/
def Op.run (h : Heap) : Op → Except Fault Heap
  | .new => .ok (h.allocChain none none).2
  | .add e err => ErrorChain.Add h e err
  | .unwrap e =>
    match ErrorChain.Unwrap h e with
    | .error f => .error f
    | .ok (_, h1) => .ok h1

/-- Run a sequence of calls from left to right. -/
def Op.runAll (h : Heap) : List Op → Except Fault Heap
  | [] => .ok h
  | op :: rest =>
    match op.run h with
    | .error f => .error f
    | .ok h1 => Op.runAll h1 rest

/-- The heap of a program that has allocated nothing yet. -/
def Heap.empty : Heap := { links := [], chains := [] }

/-- The chain pointers inside an error value all lie below n. -/
def GoError.validBelow (n : Nat) : GoError → Bool
  | .errorString _ _ => true
  | .testError _ _ => true
  | .myError _ _ => true
  | .wrapError _ _ inner => inner.validBelow n
  | .errorChain p => decide (p < n)

/-- An interface value whose chain pointers all lie below n; nil is one. -/
def error.validBelow (n : Nat) : error → Bool
  | none => true
  | some g => g.validBelow n

/-- No link holds a pointer to an `ErrorChain` object that is not allocated. -/
def Heap.errsValid (h : Heap) : Prop :=
  ∀ l ∈ h.links, error.validBelow h.chains.length l.err = true

instance (h : Heap) : Decidable (Heap.errsValid h) := by
  unfold Heap.errsValid
  infer_instance

/-- An error value that holds no pointer to an `ErrorChain`. -/
def GoError.plain : GoError → Bool
  | .errorString _ _ => true
  | .testError _ _ => true
  | .myError _ _ => true
  | .wrapError _ _ inner => inner.plain
  | .errorChain _ => false

/-- The errors reached from x by calling its own `Unwrap` again and again,
x itself first. -/
def GoError.causes : GoError → List GoError
  | .wrapError p msg inner => .wrapError p msg inner :: inner.causes
  | x => [x]

/-- The answer of the own `Is` method of a plain error value; false for a type
without one. -/
def GoError.ownIs : GoError → error → Bool
  | .testError _ code, target => testError.Is code target
  | .myError _ code, target => myError.Is code target
  | _, _ => false

/-- The match that the specification describes for one error and a non-nil
target: the error or one of its causes is the target itself or accepts it with
its own `Is` method. -/
def GoError.matchesTarget (x t : GoError) : Bool :=
  x.causes.any (fun y => y.same t || y.ownIs (some t))

/-- Every chain object satisfies the invariant and no link is met from two
chain objects. -/
def Heap.separated (h : Heap) : Prop :=
  ∀ (e : Nat) (c : ErrorChain), h.chains[e]? = some c →
    ∃ as es, Chained h.links c.head as es ∧ c.tail = as.getLast? ∧
      ∀ (e2 : Nat) (c2 : ErrorChain) (as2 : List Nat) (es2 : List error), e2 ≠ e →
        h.chains[e2]? = some c2 → Chained h.links c2.head as2 es2 → ∀ a ∈ as, a ∉ as2

/-- The call allocates a chain or appends to one: it is not an `Unwrap`. -/
def Op.builds : Op → Bool
  | .unwrap _ => false
  | _ => true

/-- The heap of `someFunction` in _example/main.go after its two calls of
`Add`: `errors.New("some error")` and `fmt.Errorf("wrap it up %w", &myError{code: 12})`. -/
def exampleHeap : Heap :=
  { links := [⟨some (.errorString 1 "some error"), some 1⟩,
              ⟨some (.wrapError 2 "wrap it up 12" (.myError 3 12)), none⟩],
    chains := [⟨some 0, some 1⟩] }

/-- The heap of the scenario `[A, B, C]`: three links and one chain object. -/
def abcHeap : Heap :=
  { links := [⟨some (.errorString 1 "A"), some 1⟩, ⟨some (.errorString 2 "B"), some 2⟩,
              ⟨some (.errorString 3 "C"), none⟩],
    chains := [⟨some 0, some 2⟩] }

/-- The heap of the test case "Simple wrapped" of `TestErrorChain_Is`: one link
holding `fmt.Errorf("test wrap %w", &testError{code: 1})`, the tail not set. -/
def wrappedHeap : Heap :=
  { links := [⟨some (.wrapError 1 "test wrap 1" (.testError 2 1)), none⟩],
    chains := [⟨some 0, none⟩] }

/-- A chain that holds itself: `c := &ErrorChain{}; c.Add(c); c.Add(B)`. -/
def selfHeap : Heap :=
  { links := [⟨some (.errorChain 0), some 1⟩, ⟨some (.errorString 1 "B"), none⟩],
    chains := [⟨some 0, some 1⟩] }

/-- Every `next` pointer leads to an allocated link, and every chain object
with a head has its head and its tail at allocated links. -/
def Heap.tailsSet (h : Heap) : Prop :=
  (∀ (a : Nat) l (b : Nat), h.links[a]? = some l → l.next = some b →
    b < h.links.length) ∧
  ∀ (e : Nat) (c : ErrorChain), h.chains[e]? = some c → c.head ≠ none →
    (∃ a, c.head = some a ∧ a < h.links.length) ∧ (∃ t, c.tail = some t ∧ t < h.links.length)

/-- A Go slice as far as its nil-ness goes: `none` is the nil slice and
`some xs` a non-nil slice with the elements xs, so `some []` is `[]error{}`. -/
abbrev Slice (α : Type) := Option (List α)

/-- Go's `append(s, x)` with one element: the result is never nil. -/
def Slice.append {α : Type} : Slice α → α → Slice α
  | none, x => some [x]
  | some xs, x => some (xs ++ [x])

/-- The loop of `Errors` on a slice value. -/
def ErrorChain.ErrorsSlice.loop (links : List link) :
    Nat → Option Nat → Slice error → Except Fault (Slice error)
  | _, none, errs => .ok errs
  | 0, some _, _ => .error .outOfFuel
  | fuel + 1, some a, errs =>
    match links[a]? with
    | none => .error .invalidAddress
    | some l => ErrorChain.ErrorsSlice.loop links fuel l.next (errs.append l.err)

/-- `func (e *ErrorChain) Errors() []error` with the nil-ness of the returned
slice kept: `errs := []error{}` is the non-nil empty slice. -/
def ErrorChain.ErrorsSlice (h : Heap) (e : Nat) : Except Fault (Slice error) :=
  match h.chain e with
  | .error f => .error f
  | .ok c => ErrorChain.ErrorsSlice.loop h.links h.links.length c.head (some [])

/-- Two chain objects over the links of the fixture of `TestErrorChain_Errors`:
one with the tail set and one, as in the fixture, with the tail left nil. -/
def fixtureHeap : Heap :=
  { links := [⟨some (.errorString 1 "1"), some 1⟩, ⟨some (.errorString 2 "2"), some 2⟩,
              ⟨some (.errorString 3 "3"), none⟩],
    chains := [⟨some 0, some 2⟩, ⟨some 0, none⟩] }

/-- The method `Is` as a run that hands on the heap of the call of `errors.Is`
it makes: the same body as `ErrorChain.Is`, for a library function that returns
its heap. -/
def ErrorChain.IsRun (errorsIs : Heap → error → error → Except Fault (Bool × Heap))
    (h : Heap) (e : Nat) (target : error) : Except Fault (Bool × Heap) :=
  match h.chain e with
  | .error f => .error f
  | .ok c =>
    match h.link c.head with
    | .error f => .error f
    | .ok l => errorsIs h l.err target

/-- The library function `errors.Is` as a run that returns the heap it leaves
behind, the chain objects that its calls of `Unwrap` allocated included. -/
def errors.IsRun : Nat → Heap → error → error → Except Fault (Bool × Heap)
  | _, h, none, target => .ok (target == none, h)
  | _, h, some _, none => .ok (false, h)
  | 0, _, some _, some _ => .error .outOfFuel
  | fuel + 1, h, some err, some target =>
    if err.same target then .ok (true, h)
    else
      match err with
      | .errorString _ _ => .ok (false, h)
      | .testError _ code => .ok (testError.Is code (some target), h)
      | .myError _ code => .ok (myError.Is code (some target), h)
      | .wrapError _ _ inner => errors.IsRun fuel h (some inner) (some target)
      | .errorChain p =>
        match ErrorChain.IsRun (errors.IsRun fuel) h p (some target) with
        | .error f => .error f
        | .ok (true, h1) => .ok (true, h1)
        | .ok (false, h1) =>
          match ErrorChain.Unwrap h1 p with
          | .error f => .error f
          | .ok (none, h2) => .ok (false, h2)
          | .ok (some next, h2) => errors.IsRun fuel h2 (some next) (some target)

/-- The heap h2 holds every object of h unchanged: the same links, and the
chain objects of h followed by newly allocated ones. -/
def Heap.keptIn (h h2 : Heap) : Prop :=
  h2.links = h.links ∧ List.IsPrefix h.chains h2.chains

instance (h h2 : Heap) : Decidable (Heap.keptIn h h2) := by
  unfold Heap.keptIn
  infer_instance

/-- A chain whose first error is an empty chain: `c := &ErrorChain{}`,
`g := &ErrorChain{}`, `c.Add(g)`, `c.Add(&testError{code: 7})`. -/
def emptyInsideHeap : Heap :=
  { links := [⟨some (.errorChain 1), some 1⟩, ⟨some (.testError 5 7), none⟩],
    chains := [⟨some 0, some 1⟩, ⟨none, none⟩] }

/-- A chain whose only error is another chain, which holds `errors.New("A")` and
`&testError{code: 7}`. -/
def nestedHeap : Heap :=
  { links := [⟨some (.errorChain 1), none⟩, ⟨some (.errorString 1 "A"), some 2⟩,
              ⟨some (.testError 2 7), none⟩],
    chains := [⟨some 0, some 0⟩, ⟨some 1, some 2⟩] }

/-- A chain whose head error is a chain that holds a chain returned by the
receiver's `Unwrap`: `c := &ErrorChain{}`, `g := &ErrorChain{}`,
`g.Add(errors.New("A"))`, `c.Add(g)`, `c.Add(&testError{code: code})`,
`v := c.Unwrap()`, `g.Add(v)`. -/
def viewInsideHeap (code : Int) : Heap :=
  { links := [⟨some (.errorString 1 "A"), some 3⟩, ⟨some (.errorChain 1), some 2⟩,
              ⟨some (.testError 2 code), none⟩, ⟨some (.errorChain 2), none⟩],
    chains := [⟨some 1, some 2⟩, ⟨some 0, some 3⟩, ⟨some 2, some 2⟩] }

/-- A chain whose head error is a chain with a link of its own:
`g.Add(errors.New("A"))`, `c.Add(g)`, `c.Add(&testError{code: 7})`. -/
def chainHeadHeap : Heap :=
  { links := [⟨some (.errorString 1 "A"), none⟩, ⟨some (.errorChain 1), some 2⟩,
              ⟨some (.testError 2 7), none⟩],
    chains := [⟨some 1, some 2⟩, ⟨some 0, some 0⟩] }

/-- A chain whose first error is a chain that holds a view on the receiver's
tail link: `c`, `d`, `g := &ErrorChain{}`, `c.Add(d)`,
`c.Add(&testError{code: 7})`, `c.Add(errors.New("Z"))`, `u := c.Unwrap()`,
`f := u.Unwrap()`, `d.Add(f)`.  The chain g stays empty. -/
def sharedTailHeap : Heap :=
  { links := [⟨some (.errorChain 1), some 1⟩, ⟨some (.testError 5 7), some 2⟩,
              ⟨some (.errorString 6 "Z"), none⟩, ⟨some (.errorChain 4), none⟩],
    chains := [⟨some 0, some 2⟩, ⟨some 3, some 3⟩, ⟨none, none⟩, ⟨some 1, some 2⟩,
               ⟨some 2, some 2⟩] }

/-- A chain with an `Add` made on the chain that its `Unwrap` returned:
`c.Add(errors.New("A"))`, `c.Add(errors.New("B"))`, `s := c.Unwrap()`,
`s.Add(&testError{code: 7})`. -/
def grownViewHeap : Heap :=
  { links := [⟨some (.errorString 1 "A"), some 1⟩, ⟨some (.errorString 2 "B"), some 2⟩,
              ⟨some (.testError 3 7), none⟩],
    chains := [⟨some 0, some 1⟩, ⟨some 1, some 2⟩] }

/-- The links that an error reaches in a heap: the head link of a chain that
the error is or wraps, the link after a reached link, and the links that an
error stored in a reached link reaches. -/
inductive Reaches (h : Heap) : GoError → Nat → Prop where
  | wrap {p : Nat} {msg : String} {inner : GoError} {a : Nat} :
      Reaches h inner a → Reaches h (.wrapError p msg inner) a
  | head {p : Nat} {c : ErrorChain} {a : Nat} :
      h.chains[p]? = some c → c.head = some a → Reaches h (.errorChain p) a
  | next {g : GoError} {a b : Nat} {l : link} :
      Reaches h g a → h.links[a]? = some l → l.next = some b → Reaches h g b
  | stored {g g2 : GoError} {a b : Nat} {l : link} :
      Reaches h g a → h.links[a]? = some l → l.err = some g2 → Reaches h g2 b →
      Reaches h g b

/-! ## Walks along the links -/

theorem Chained.functional {links : List link} {p : Option Nat} {as as2 : List Nat}
    {es es2 : List error} (h1 : Chained links p as es) (h2 : Chained links p as2 es2) :
    as = as2 ∧ es = es2 := by
  induction h1 generalizing as2 es2 with
  | nil => cases h2; exact ⟨rfl, rfl⟩
  | cons hl _ ih =>
    cases h2 with
    | cons hl2 hc2 =>
      rw [hl] at hl2
      cases hl2
      obtain ⟨ha, he⟩ := ih hc2
      subst ha; subst he
      exact ⟨rfl, rfl⟩

theorem Chained.length_eq {links : List link} {p : Option Nat} {as : List Nat}
    {es : List error} (h1 : Chained links p as es) : es.length = as.length := by
  induction h1 with
  | nil => rfl
  | cons _ _ ih => simp [ih]

theorem Chained.lt_length {links : List link} {p : Option Nat} {as : List Nat}
    {es : List error} (h1 : Chained links p as es) : ∀ a ∈ as, a < links.length := by
  induction h1 with
  | nil => simp
  | cons hl _ ih =>
    intro b hb
    rcases List.mem_cons.1 hb with rfl | hb
    · by_contra hcon
      rw [List.getElem?_eq_none (by omega)] at hl
      cases hl
    · exact ih b hb

theorem Chained.suffix_of_mem {links : List link} {p : Option Nat} {as : List Nat}
    {es : List error} (h1 : Chained links p as es) :
    ∀ b ∈ as, ∃ as2 es2, Chained links (some b) as2 es2 ∧ as2.length ≤ as.length := by
  induction h1 with
  | nil => simp
  | cons hl hc ih =>
    intro b hb
    rcases List.mem_cons.1 hb with rfl | hb
    · exact ⟨_, _, Chained.cons hl hc, le_refl _⟩
    · obtain ⟨as2, es2, h2, hlen⟩ := ih b hb
      exact ⟨as2, es2, h2, by simp; omega⟩

theorem Chained.nodup {links : List link} {p : Option Nat} {as : List Nat}
    {es : List error} (h1 : Chained links p as es) : as.Nodup := by
  induction h1 with
  | nil => exact List.nodup_nil
  | @cons a l as es hl hc ih =>
    refine List.nodup_cons.2 ⟨?_, ih⟩
    intro hmem
    obtain ⟨as2, es2, h2, hlen⟩ := hc.suffix_of_mem a hmem
    have := (Chained.functional h2 (Chained.cons hl hc)).1
    subst this
    simp at hlen

theorem Chained.length_le {links : List link} {p : Option Nat} {as : List Nat}
    {es : List error} (h1 : Chained links p as es) : as.length ≤ links.length := by
  have hsub : as ⊆ List.range links.length := by
    intro a ha
    exact List.mem_range.2 (h1.lt_length a ha)
  have := (List.subperm_of_subset h1.nodup hsub).length_le
  simpa using this

theorem Errors.loop_of_chained {links : List link} {p : Option Nat} {as : List Nat}
    {es : List error} (h1 : Chained links p as es) :
    ∀ (fuel : Nat) (acc : List error), as.length ≤ fuel →
      ErrorChain.Errors.loop links fuel p acc = .ok (acc ++ es) := by
  induction h1 with
  | nil => intro fuel acc _; cases fuel <;> simp [ErrorChain.Errors.loop]
  | cons hl _ ih =>
    intro fuel acc hf
    cases fuel with
    | zero => simp at hf
    | succ n =>
      simp only [ErrorChain.Errors.loop, hl]
      rw [ih n _ (by simpa using hf)]
      simp

theorem Errors.chained_of_loop {links : List link} :
    ∀ (fuel : Nat) (p : Option Nat) (acc r : List error),
      ErrorChain.Errors.loop links fuel p acc = .ok r →
      ∃ as es, Chained links p as es ∧ r = acc ++ es := by
  intro fuel
  induction fuel with
  | zero =>
    intro p acc r h
    cases p with
    | none => simp [ErrorChain.Errors.loop] at h; exact ⟨[], [], Chained.nil, by simp [h]⟩
    | some a => simp [ErrorChain.Errors.loop] at h
  | succ n ih =>
    intro p acc r h
    cases p with
    | none => simp [ErrorChain.Errors.loop] at h; exact ⟨[], [], Chained.nil, by simp [h]⟩
    | some a =>
      simp only [ErrorChain.Errors.loop] at h
      cases hl : links[a]? with
      | none => simp [hl] at h
      | some l =>
        simp only [hl] at h
        obtain ⟨as, es, hc, hr⟩ := ih _ _ _ h
        exact ⟨a :: as, l.err :: es, Chained.cons hl hc, by simp [hr]⟩

theorem linksFrom_of_chained {links : List link} {p : Option Nat} {as : List Nat}
    {es : List error} (h1 : Chained links p as es) :
    ∀ (fuel : Nat), as.length ≤ fuel → linksFrom links fuel p = some as := by
  induction h1 with
  | nil => intro fuel _; cases fuel <;> simp [linksFrom]
  | cons hl _ ih =>
    intro fuel hf
    cases fuel with
    | zero => simp at hf
    | succ n =>
      simp only [linksFrom, hl]
      rw [ih n (by simpa using hf)]

theorem chained_of_linksFrom {links : List link} :
    ∀ (fuel : Nat) (p : Option Nat) (as : List Nat),
      linksFrom links fuel p = some as → ∃ es, Chained links p as es := by
  intro fuel
  induction fuel with
  | zero =>
    intro p as h
    cases p with
    | none => simp [linksFrom] at h; subst h; exact ⟨[], Chained.nil⟩
    | some a => simp [linksFrom] at h
  | succ n ih =>
    intro p as h
    cases p with
    | none => simp [linksFrom] at h; subst h; exact ⟨[], Chained.nil⟩
    | some a =>
      simp only [linksFrom] at h
      cases hl : links[a]? with
      | none => simp [hl] at h
      | some l =>
        simp only [hl] at h
        cases hr : linksFrom links n l.next with
        | none => simp [hr] at h
        | some as2 =>
          simp only [hr, Option.some.injEq] at h
          subst h
          obtain ⟨es, hc⟩ := ih _ _ hr
          exact ⟨l.err :: es, Chained.cons hl hc⟩

theorem Chained.next_of_cons {links : List link} {q : Option Nat} {as : List Nat}
    {es : List error} (h1 : Chained links q as es) :
    (as = [] ↔ q = none) := by
  cases h1 <;> simp

theorem Chained.last_next {links : List link} {p : Option Nat} {as : List Nat}
    {es : List error} (h1 : Chained links p as es) :
    ∀ t, as.getLast? = some t → ∃ lt, links[t]? = some lt ∧ lt.next = none := by
  induction h1 with
  | nil => simp
  | @cons a l as es hl hc ih =>
    intro t ht
    cases as with
    | nil =>
      simp at ht
      subst ht
      exact ⟨l, hl, hc.next_of_cons.1 rfl⟩
    | cons b rest =>
      rw [List.getLast?_cons_cons] at ht
      exact ih t ht

theorem Chained.snoc {links : List link} {p : Option Nat} {as : List Nat}
    {es : List error} (h1 : Chained links p as es) (x : error) :
    ∀ t lt, as.getLast? = some t → links[t]? = some lt →
      Chained ((links ++ [(⟨x, none⟩ : link)]).set t ⟨lt.err, some links.length⟩) p
        (as ++ [links.length]) (es ++ [x]) := by
  induction h1 with
  | nil => simp
  | @cons a l as es hl hc ih =>
    intro t lt ht hlt
    have htlt : t < links.length := by
      by_contra hcon
      rw [List.getElem?_eq_none (by omega)] at hlt
      cases hlt
    have hnew : ((links ++ [(⟨x, none⟩ : link)]).set t ⟨lt.err, some links.length⟩)[links.length]? =
          some ⟨x, none⟩ := by
      rw [List.getElem?_set_ne (by omega)]
      exact List.getElem?_concat_length links _
    cases as with
    | nil =>
      have hn := hc.next_of_cons.1 rfl
      simp at ht
      subst ht
      rw [hl] at hlt
      cases hlt
      have hself : ((links ++ [(⟨x, none⟩ : link)]).set a ⟨l.err, some links.length⟩)[a]? =
          some ⟨l.err, some links.length⟩ := by
        rw [List.getElem?_set_self (by simp; omega)]
      have h2 : Chained ((links ++ [(⟨x, none⟩ : link)]).set a ⟨l.err, some links.length⟩)
          (some links.length) [links.length] [x] :=
        Chained.cons hnew Chained.nil
      have hes : es = [] := by
        have := hc.length_eq
        simpa using this
      subst hes
      have h3 := Chained.cons hself h2
      exact h3
    | cons b rest =>
      rw [List.getLast?_cons_cons] at ht
      have hrec := ih t lt ht hlt
      obtain ⟨lt2, hlt2, hnone⟩ := hc.last_next t ht
      rw [hlt] at hlt2
      cases hlt2
      have hne : t ≠ a := by
        intro heq
        subst heq
        rw [hl] at hlt
        cases hlt
        have := hc.next_of_cons.2 hnone
        cases this
      have hal : a < links.length := by
        by_contra hcon
        rw [List.getElem?_eq_none (by omega)] at hl
        cases hl
      have hkeep : ((links ++ [(⟨x, none⟩ : link)]).set t ⟨lt.err, some links.length⟩)[a]? = some l := by
        rw [List.getElem?_set_ne hne, List.getElem?_append_left hal]
        exact hl
      have := Chained.cons hkeep hrec
      simpa using this

/-- What `Add` does to the heap when the receiver is empty. -/
theorem ErrorChain.Add_empty {h : Heap} {e : Nat} {c : ErrorChain} (x : error)
    (hc : h.chains[e]? = some c) (hh : c.head = none) :
    ErrorChain.Add h e x = .ok
      { links := h.links ++ [⟨x, none⟩],
        chains := h.chains.set e ⟨some h.links.length, some h.links.length⟩ } := by
  simp [ErrorChain.Add, Heap.chain, hc, hh, Heap.allocLink, Heap.setChain]

/-- What `Add` does to the heap when the receiver has a head and a valid tail. -/
theorem ErrorChain.Add_nonempty {h : Heap} {e : Nat} {c : ErrorChain} {t : Nat} {lt : link}
    (x : error) (hc : h.chains[e]? = some c) (hh : c.head ≠ none) (ht : c.tail = some t)
    (hlt : h.links[t]? = some lt) :
    ErrorChain.Add h e x = .ok
      { links := (h.links ++ [(⟨x, none⟩ : link)]).set t ⟨lt.err, some h.links.length⟩,
        chains := h.chains.set e ⟨c.head, some h.links.length⟩ } := by
  have htl : t < h.links.length := by
    by_contra hcon
    rw [List.getElem?_eq_none (by omega)] at hlt
    cases hlt
  simp [ErrorChain.Add, Heap.chain, hc, hh, Heap.allocLink, Heap.setChain, Heap.setNext, ht,
    List.getElem?_append_left htl, hlt]

theorem ErrorChain.Errors_of_chained {h : Heap} {e : Nat} {c : ErrorChain} {as : List Nat}
    {es : List error} (hc : h.chains[e]? = some c) (hp : Chained h.links c.head as es) :
    ErrorChain.Errors h e = .ok es := by
  simp only [ErrorChain.Errors, Heap.chain, hc]
  rw [Errors.loop_of_chained hp _ _ hp.length_le]
  simp

theorem ErrorChain.chained_of_Errors {h : Heap} {e : Nat} {es : List error}
    (hE : ErrorChain.Errors h e = .ok es) :
    ∃ c as, h.chains[e]? = some c ∧ Chained h.links c.head as es := by
  simp only [ErrorChain.Errors, Heap.chain] at hE
  cases hc : h.chains[e]? with
  | none => simp [hc] at hE
  | some c =>
    simp only [hc] at hE
    obtain ⟨as, es2, hp, hr⟩ := Errors.chained_of_loop _ _ _ _ hE
    simp at hr
    subst hr
    exact ⟨c, as, rfl, hp⟩

theorem ErrorChain.Unwrap_last {h : Heap} {e : Nat} {c : ErrorChain} {a : Nat} {x : error}
    (hc : h.chains[e]? = some c) (hp : Chained h.links c.head [a] [x]) :
    ErrorChain.Unwrap h e = .ok (none, h) := by
  generalize hq : c.head = q at hp
  cases hp with
  | cons hl hrest =>
    have hn := hrest.next_of_cons.1 rfl
    simp [ErrorChain.Unwrap, Heap.chain, hc, hq, Heap.link, hl, hn]

theorem ErrorChain.Unwrap_more {h : Heap} {e : Nat} {c : ErrorChain} {a b : Nat}
    {as : List Nat} {x : error} {es : List error}
    (hc : h.chains[e]? = some c) (hp : Chained h.links c.head (a :: b :: as) (x :: es)) :
    ErrorChain.Unwrap h e = .ok (some (.errorChain h.chains.length),
        { links := h.links, chains := h.chains ++ [⟨some b, c.tail⟩] }) ∧
      Chained h.links (some b) (b :: as) es := by
  generalize hq : c.head = q at hp
  cases hp with
  | @cons _ l _ _ hl hrest =>
    generalize hn : l.next = r at hrest
    cases hrest with
    | cons hl2 hrest2 =>
      refine ⟨?_, Chained.cons hl2 hrest2⟩
      simp [ErrorChain.Unwrap, Heap.chain, hc, hq, Heap.link, hl, hn, Heap.allocChain]

theorem ErrorChain.unwrapAll_spec : ∀ (as : List Nat) (es : List error) (h : Heap) (e : Nat)
    (c : ErrorChain), h.chains[e]? = some c → Chained h.links c.head as es → as ≠ [] →
    ∃ qs h2, (∀ fuel, as.length ≤ fuel → ErrorChain.unwrapAll fuel h e = .ok (qs, h2)) ∧
      h2.links = h.links ∧ (∃ cs, h2.chains = h.chains ++ cs) ∧ qs.length + 1 = as.length ∧
      ∀ k, k < qs.length → ∃ q ck, qs[k]? = some q ∧ h2.chains[q]? = some ck ∧
        Chained h.links ck.head (as.drop (k + 1)) (es.drop (k + 1)) ∧ ck.tail = c.tail := by
  intro as
  induction as with
  | nil => intro es h e c _ _ hne; exact absurd rfl hne
  | cons a rest ih =>
    intro es h e c hc hp _
    cases rest with
    | nil =>
      have hes : ∃ x, es = [x] := by
        have := hp.length_eq
        match es, this with
        | [x], _ => exact ⟨x, rfl⟩
      obtain ⟨x, rfl⟩ := hes
      refine ⟨[], h, ?_, rfl, ⟨[], by simp⟩, by simp, by simp⟩
      intro fuel hf
      cases fuel with
      | zero => simp at hf
      | succ n => simp [ErrorChain.unwrapAll, ErrorChain.Unwrap_last hc hp]
    | cons b rest2 =>
      have hes : ∃ x es2, es = x :: es2 := by
        have := hp.length_eq
        match es, this with
        | x :: es2, _ => exact ⟨x, es2, rfl⟩
      obtain ⟨x, es2, rfl⟩ := hes
      obtain ⟨hU, hp2⟩ := ErrorChain.Unwrap_more hc hp
      have hc1 : ({ links := h.links, chains := h.chains ++ [⟨some b, c.tail⟩] } : Heap).chains[h.chains.length]? =
          some ⟨some b, c.tail⟩ := by
        simp
      obtain ⟨qs, h2, hrun, hlinks, ⟨cs, hcs⟩, hlen, hk⟩ :=
        ih es2 { links := h.links, chains := h.chains ++ [⟨some b, c.tail⟩] } h.chains.length
          ⟨some b, c.tail⟩ hc1 hp2 (by simp)
      refine ⟨h.chains.length :: qs, h2, ?_, hlinks, ⟨[⟨some b, c.tail⟩] ++ cs, by simp [hcs]⟩,
        by simp [hlen], ?_⟩
      · intro fuel hf
        cases fuel with
        | zero => simp at hf
        | succ n =>
          simp only [ErrorChain.unwrapAll, hU]
          rw [hrun n (by simpa using hf)]
      · intro k hklt
        cases k with
        | zero =>
          refine ⟨h.chains.length, ⟨some b, c.tail⟩, by simp, ?_, by simpa using hp2, rfl⟩
          rw [hcs]
          show (h.chains ++ [⟨some b, c.tail⟩] ++ cs)[h.chains.length]? = _
          rw [List.getElem?_append_left (by simp)]
          exact List.getElem?_concat_length _ _
        | succ k =>
          obtain ⟨q, ck, hq, hck, hch, htl⟩ := hk k (by simpa using hklt)
          exact ⟨q, ck, by simpa using hq, hck, by simpa using hch, htl⟩

theorem Heap.invariantAt_iff {h : Heap} {e : Nat} :
    h.invariantAt e ↔ ∃ c as es, h.chains[e]? = some c ∧ Chained h.links c.head as es ∧
      c.tail = as.getLast? := by
  unfold Heap.invariantAt
  cases hc : h.chains[e]? with
  | none => simp
  | some c =>
    simp only [ErrorChain.invariant]
    cases hl : linksFrom h.links h.links.length c.head with
    | none =>
      simp only [false_iff, not_exists, not_and]
      intro c2 as es hc2 hp
      cases hc2
      rw [linksFrom_of_chained hp _ hp.length_le] at hl
      cases hl
    | some path =>
      obtain ⟨es, hp⟩ := chained_of_linksFrom _ _ _ hl
      constructor
      · intro ht
        exact ⟨c, path, es, rfl, hp, ht⟩
      · rintro ⟨c2, as, es2, hc2, hp2, ht⟩
        cases hc2
        rw [(Chained.functional hp hp2).1]
        exact ht

theorem ErrorChain.Add_spec {h : Heap} {e : Nat} {c : ErrorChain} {as : List Nat}
    {es : List error} (x : error) (hc : h.chains[e]? = some c)
    (hp : Chained h.links c.head as es) (ht : c.tail = as.getLast?) :
    ∃ h2 c2, ErrorChain.Add h e x = .ok h2 ∧ h2.chains[e]? = some c2 ∧
      Chained h2.links c2.head (as ++ [h.links.length]) (es ++ [x]) ∧
      c2.tail = some h.links.length ∧
      h2.chains.length = h.chains.length ∧ h2.links.length = h.links.length + 1 ∧
      (∀ q, q ≠ e → h2.chains[q]? = h.chains[q]?) ∧
      (c.head ≠ none → c2.head = c.head) ∧
      (∀ (a : Nat) (l : link), h.links[a]? = some l → ∃ l2 : link, h2.links[a]? = some l2 ∧ l2.err = l.err ∧
        (l.next ≠ none → l2.next = l.next)) := by
  have he : e < h.chains.length := by
    by_contra hcon
    rw [List.getElem?_eq_none (by omega)] at hc
    cases hc
  cases as with
  | nil =>
    have hh : c.head = none := hp.next_of_cons.1 rfl
    have hes : es = [] := by
      have := hp.length_eq
      simpa using this
    subst hes
    refine ⟨_, ⟨some h.links.length, some h.links.length⟩, ErrorChain.Add_empty x hc hh, ?_, ?_,
      rfl, by simp, by simp, ?_, ?_, ?_⟩
    · simp [he]
    · exact Chained.cons (l := ⟨x, none⟩) (List.getElem?_concat_length _ _) Chained.nil
    · intro q hq
      simp [List.getElem?_set_ne (Ne.symm hq)]
    · intro hne; exact absurd hh hne
    · intro a l hl
      have hal : a < h.links.length := by
        by_contra hcon
        rw [List.getElem?_eq_none (by omega)] at hl
        cases hl
      exact ⟨l, by simp [List.getElem?_append_left hal, hl], rfl, fun _ => rfl⟩
  | cons a rest =>
    have hh : c.head ≠ none := by
      intro hcon
      have := hp.next_of_cons.2 hcon
      cases this
    obtain ⟨t, hlast⟩ : ∃ t, (a :: rest).getLast? = some t := by
      cases hg : (a :: rest).getLast? with
      | none => simp at hg
      | some t => exact ⟨t, rfl⟩
    obtain ⟨lt, hlt, hnone⟩ := hp.last_next t hlast
    have htl : t < h.links.length := by
      by_contra hcon
      rw [List.getElem?_eq_none (by omega)] at hlt
      cases hlt
    refine ⟨_, ⟨c.head, some h.links.length⟩,
      ErrorChain.Add_nonempty x hc hh (ht.trans hlast) hlt, ?_, ?_, rfl, by simp, by simp, ?_, ?_, ?_⟩
    · simp [he]
    · exact hp.snoc x t lt hlast hlt
    · intro q hq
      simp [List.getElem?_set_ne (Ne.symm hq)]
    · intro _; rfl
    · intro b l hl
      have hbl : b < h.links.length := by
        by_contra hcon
        rw [List.getElem?_eq_none (by omega)] at hl
        cases hl
      by_cases hbt : b = t
      · subst hbt
        rw [hl] at hlt
        cases hlt
        refine ⟨⟨lt.err, some h.links.length⟩, ?_, rfl, fun hn => absurd hnone hn⟩
        simp only
        rw [List.getElem?_set_self (by simp; omega)]
      · refine ⟨l, ?_, rfl, fun _ => rfl⟩
        simp only
        rw [List.getElem?_set_ne (Ne.symm hbt), List.getElem?_append_left hbl]
        exact hl

theorem ErrorChain.AddAll_spec : ∀ (xs : List error) (h : Heap) (e : Nat) (c : ErrorChain)
    (as : List Nat) (es : List error), h.chains[e]? = some c →
    Chained h.links c.head as es → c.tail = as.getLast? →
    ∃ h2 c2 bs, ErrorChain.AddAll h e xs = .ok h2 ∧ h2.chains[e]? = some c2 ∧
      Chained h2.links c2.head (as ++ bs) (es ++ xs) ∧ c2.tail = (as ++ bs).getLast? ∧
      bs.length = xs.length := by
  intro xs
  induction xs with
  | nil =>
    intro h e c as es hc hp ht
    exact ⟨h, c, [], rfl, hc, by simpa using hp, by simpa using ht, rfl⟩
  | cons x rest ih =>
    intro h e c as es hc hp ht
    obtain ⟨h1, c1, hadd, hc1, hp1, ht1, _⟩ := ErrorChain.Add_spec x hc hp ht
    obtain ⟨h2, c2, bs, hrun, hc2, hp2, ht2, hlen⟩ :=
      ih h1 e c1 _ _ hc1 hp1 (by simp [ht1])
    refine ⟨h2, c2, h.links.length :: bs, ?_, hc2, by simpa using hp2, by simpa using ht2,
      by simp [hlen]⟩
    simp only [ErrorChain.AddAll, hadd]
    exact hrun

/-- The step of `errors.Is` at a chain pointer: identity, the chain's `Is`
(which is `errors.Is` on the head error), then `Unwrap`. -/
theorem errors.Is_chain_step (fuel : Nat) (h : Heap) (p : Nat) (t : GoError) :
    errors.Is (fuel + 1) h (some (.errorChain p)) (some t) =
      if (GoError.errorChain p).same t then .ok true
      else
        match h.chains[p]? with
        | none => .error .invalidAddress
        | some c =>
          match c.head with
          | none => .error .nilDereference
          | some a =>
            match h.links[a]? with
            | none => .error .invalidAddress
            | some l =>
              match errors.Is fuel h l.err (some t) with
              | .error f => .error f
              | .ok true => .ok true
              | .ok false =>
                if l.next = none then .ok false
                else errors.Is fuel { links := h.links, chains := h.chains ++ [⟨l.next, c.tail⟩] }
                  (some (.errorChain h.chains.length)) (some t) := by
  rw [errors.Is]
  split
  · rfl
  · simp only [ErrorChain.Is, Heap.chain, Heap.link, ErrorChain.Unwrap, Heap.allocChain]
    cases h.chains[p]? with
    | none => rfl
    | some c =>
      obtain ⟨hd, tl⟩ := c
      cases hd with
      | none => rfl
      | some a =>
        simp only
        cases h.links[a]? with
        | none => rfl
        | some l =>
          simp only
          cases errors.Is fuel h l.err (some t) with
          | error f => rfl
          | ok b =>
            cases b with
            | true => rfl
            | false =>
              simp only
              by_cases hn : l.next = none
              · simp [hn]
              · simp [hn]

theorem errors.Is_mono : ∀ (fuel : Nat) (h : Heap) (x t : error) (b : Bool),
    errors.Is fuel h x t = .ok b → errors.Is (fuel + 1) h x t = .ok b := by
  intro fuel
  induction fuel with
  | zero =>
    intro h x t b hb
    cases x with
    | none => simpa [errors.Is] using hb
    | some g =>
      cases t with
      | none => simpa [errors.Is] using hb
      | some tg => simp [errors.Is] at hb
  | succ n ih =>
    intro h x t b hb
    cases x with
    | none => simpa [errors.Is] using hb
    | some g =>
      cases t with
      | none => simpa [errors.Is] using hb
      | some tg =>
        cases g with
        | errorString p s => simpa [errors.Is] using hb
        | testError p c => simpa [errors.Is] using hb
        | myError p c => simpa [errors.Is] using hb
        | wrapError p m inner =>
          rw [errors.Is] at hb ⊢
          split
          · rename_i hs; simpa [hs] using hb
          · rename_i hs
            simp only [hs] at hb
            exact ih _ _ _ _ hb
        | errorChain p =>
          rw [errors.Is_chain_step] at hb ⊢
          split
          · rename_i hs; simpa [hs] using hb
          · rename_i hs
            simp only [hs] at hb
            cases hc : h.chains[p]? with
            | none => simp [hc] at hb
            | some c =>
              simp only [hc] at hb ⊢
              cases hh : c.head with
              | none => simp [hh] at hb
              | some a =>
                simp only [hh] at hb ⊢
                cases hl : h.links[a]? with
                | none => simp [hl] at hb
                | some l =>
                  simp only [hl] at hb ⊢
                  cases hi : errors.Is n h l.err (some tg) with
                  | error f => simp [hi] at hb
                  | ok r =>
                    rw [ih _ _ _ _ hi]
                    simp only [hi] at hb
                    cases r with
                    | true => simpa using hb
                    | false =>
                      simp only at hb ⊢
                      by_cases hn : l.next = none
                      · simpa [hn] using hb
                      · simp only [hn, if_false] at hb ⊢
                        exact ih _ _ _ _ hb

theorem errors.Is_mono_le {fuel fuel2 : Nat} {h : Heap} {x t : error} {b : Bool}
    (hb : errors.Is fuel h x t = .ok b) (hle : fuel ≤ fuel2) :
    errors.Is fuel2 h x t = .ok b := by
  induction hle with
  | refl => exact hb
  | step _ ih => exact errors.Is_mono _ _ _ _ _ ih

theorem GoError.same_chain_of_validBelow {N p : Nat} {t : GoError} (ht : t.validBelow N = true)
    (hp : N ≤ p) : (GoError.errorChain p).same t = false := by
  cases t with
  | errorChain q =>
    simp [GoError.validBelow] at ht
    simp [GoError.same]
    omega
  | _ => rfl

/-- The result of `errors.Is` does not depend on the chain objects that a walk
has allocated: two heaps with the same links that agree on the chain objects
below N give the same result, also from two walk-allocated chain objects with
the same fields. -/
theorem errors.Is_sim (N : Nat) : ∀ (fuel : Nat) (h h2 : Heap) (g g2 t : GoError) (b : Bool),
    h.links = h2.links → (∀ q, q < N → h.chains[q]? = h2.chains[q]?) →
    N ≤ h.chains.length → N ≤ h2.chains.length →
    (∀ l ∈ h.links, error.validBelow N l.err = true) → t.validBelow N = true →
    ((g = g2 ∧ g.validBelow N = true) ∨
      (∃ p p2 c, g = .errorChain p ∧ g2 = .errorChain p2 ∧ N ≤ p ∧ N ≤ p2 ∧
        h.chains[p]? = some c ∧ h2.chains[p2]? = some c)) →
    errors.Is fuel h (some g) (some t) = .ok b → errors.Is fuel h2 (some g2) (some t) = .ok b := by
  intro fuel
  induction fuel with
  | zero =>
    intro h h2 g g2 t b _ _ _ _ _ _ _ hb
    simp [errors.Is] at hb
  | succ n ih =>
    intro h h2 g g2 t b hlinks hagree hN hN2 hvalid ht hrel hb
    have key : ∀ (p p2 : Nat) (c : ErrorChain), h.chains[p]? = some c → h2.chains[p2]? = some c →
        (GoError.errorChain p).same t = (GoError.errorChain p2).same t →
        errors.Is (n + 1) h (some (.errorChain p)) (some t) = .ok b →
        errors.Is (n + 1) h2 (some (.errorChain p2)) (some t) = .ok b := by
      intro p p2 c hc hc2 hsame hb
      rw [errors.Is_chain_step] at hb ⊢
      rw [← hsame]
      by_cases hs : (GoError.errorChain p).same t = true
      · rw [if_pos hs] at hb ⊢; exact hb
      · rw [if_neg hs] at hb ⊢
        simp only [hc] at hb
        simp only [hc2, ← hlinks]
        cases hh : c.head with
        | none => simp [hh] at hb
        | some a =>
          simp only [hh] at hb ⊢
          cases hl : h.links[a]? with
          | none => simp [hl] at hb
          | some l =>
            simp only [hl] at hb ⊢
            have hnested : ∀ r, errors.Is n h l.err (some t) = .ok r →
                errors.Is n h2 l.err (some t) = .ok r := by
              intro r hr
              cases hx : l.err with
              | none => rw [hx] at hr; simpa [errors.Is] using hr
              | some x =>
                rw [hx] at hr
                have hxv := hvalid l (List.getElem?_mem hl)
                rw [hx] at hxv
                exact ih h h2 x x t r hlinks hagree hN hN2 hvalid ht (Or.inl ⟨rfl, hxv⟩) hr
            cases hi : errors.Is n h l.err (some t) with
            | error f => simp [hi] at hb
            | ok r =>
              rw [hnested r hi]
              simp only [hi] at hb
              cases r with
              | true => simpa using hb
              | false =>
                simp only at hb ⊢
                by_cases hn : l.next = none
                · simpa [hn] using hb
                · simp only [hn, if_false] at hb ⊢
                  refine ih { links := h.links, chains := h.chains ++ [⟨l.next, c.tail⟩] }
                    { links := h.links, chains := h2.chains ++ [⟨l.next, c.tail⟩] }
                    _ _ t b rfl ?_ (by simp; omega) (by simp; omega) hvalid ht
                    (Or.inr ⟨h.chains.length, h2.chains.length, ⟨l.next, c.tail⟩, rfl, rfl, hN, hN2,
                      ?_, ?_⟩) hb
                  · intro q hq
                    simp only
                    rw [List.getElem?_append_left (by omega), List.getElem?_append_left (by omega)]
                    exact hagree q hq
                  · exact List.getElem?_concat_length _ _
                  · exact List.getElem?_concat_length _ _
    rcases hrel with ⟨rfl, hg⟩ | ⟨p, p2, c, rfl, rfl, hp, hp2, hc, hc2⟩
    · cases g with
      | errorString p s => simpa [errors.Is] using hb
      | testError p c => simpa [errors.Is] using hb
      | myError p c => simpa [errors.Is] using hb
      | wrapError p m inner =>
        rw [errors.Is] at hb ⊢
        split
        · rename_i hs; simpa [hs] using hb
        · rename_i hs
          simp only [hs] at hb
          exact ih h h2 inner inner t b hlinks hagree hN hN2 hvalid ht
            (Or.inl ⟨rfl, by simpa [GoError.validBelow] using hg⟩) hb
      | errorChain p =>
        have hp : p < N := by simpa [GoError.validBelow] using hg
        cases hc : h.chains[p]? with
        | none =>
          rw [errors.Is_chain_step] at hb
          split at hb
          · rename_i hs
            rw [errors.Is_chain_step]
            simpa [hs] using hb
          · simp [hc] at hb
        | some c => exact key p p c hc (by rw [← hagree p hp]; exact hc) rfl hb
    · exact key p p2 c hc hc2
        (by rw [GoError.same_chain_of_validBelow ht hp, GoError.same_chain_of_validBelow ht hp2]) hb

theorem errors.Is_det {f1 f2 : Nat} {h : Heap} {x t : error} {b1 b2 : Bool}
    (h1 : errors.Is f1 h x t = .ok b1) (h2 : errors.Is f2 h x t = .ok b2) : b1 = b2 := by
  have e1 := errors.Is_mono_le h1 (le_max_left f1 f2)
  have e2 := errors.Is_mono_le h2 (le_max_right f1 f2)
  rw [e1] at e2
  cases e2
  rfl

/-- A stored error matches in a heap that a walk has extended exactly as in
the heap the walk started from. -/
theorem errors.Is_extend {h h2 : Heap} {t : GoError} {x : error} {fuel : Nat} {b : Bool}
    (hvalid : h.errsValid) (ht : t.validBelow h.chains.length = true)
    (hx : error.validBelow h.chains.length x = true)
    (hlinks : h2.links = h.links) (hagree : ∀ r, r < h.chains.length → h.chains[r]? = h2.chains[r]?)
    (hlen : h.chains.length ≤ h2.chains.length)
    (hb : errors.Is fuel h x (some t) = .ok b) : errors.Is fuel h2 x (some t) = .ok b := by
  cases x with
  | none => simpa [errors.Is] using hb
  | some g =>
    exact errors.Is_sim h.chains.length fuel h h2 g g t b hlinks.symm hagree (le_refl _) hlen
      hvalid ht (Or.inl ⟨rfl, hx⟩) hb

theorem errors.Is_walk {h : Heap} {t : GoError} (hvalid : h.errsValid)
    (ht : t.validBelow h.chains.length = true) {p : Option Nat} {as : List Nat}
    {es : List error} (hp : Chained h.links p as es) :
    as ≠ [] → (∀ x ∈ es, ∃ fuel b, errors.Is fuel h x (some t) = .ok b) →
    ∀ (h2 : Heap) (q : Nat) (c : ErrorChain), h2.links = h.links →
      (∀ r, r < h.chains.length → h.chains[r]? = h2.chains[r]?) →
      h.chains.length ≤ h2.chains.length → h2.chains[q]? = some c → c.head = p →
      (GoError.errorChain q).same t = false →
      ∃ n b, (∀ fuel, n ≤ fuel → errors.Is fuel h2 (some (.errorChain q)) (some t) = .ok b) ∧
        (b = true ↔ ∃ x ∈ es, ∃ fuel, errors.Is fuel h x (some t) = .ok true) := by
  induction hp with
  | nil => intro hne; exact absurd rfl hne
  | @cons a l as es hl hrest ih =>
    intro _ hterm h2 q c hlinks hagree hlen hc hhead hsame
    obtain ⟨f0, b0, hb0⟩ := hterm l.err (List.mem_cons_self _ _)
    have hxv : error.validBelow h.chains.length l.err = true := hvalid l (List.getElem?_mem hl)
    have hb0h2 : ∀ fuel, f0 ≤ fuel → errors.Is fuel h2 l.err (some t) = .ok b0 := by
      intro fuel hf
      exact errors.Is_mono_le (errors.Is_extend hvalid ht hxv hlinks hagree hlen hb0) hf
    have hstep : ∀ fuel, errors.Is (fuel + 1) h2 (some (.errorChain q)) (some t) =
        match errors.Is fuel h2 l.err (some t) with
        | .error f => .error f
        | .ok true => .ok true
        | .ok false =>
          if l.next = none then .ok false
          else errors.Is fuel { links := h2.links, chains := h2.chains ++ [⟨l.next, c.tail⟩] }
            (some (.errorChain h2.chains.length)) (some t) := by
      intro fuel
      rw [errors.Is_chain_step]
      simp only [hsame, hc, hhead, hlinks, hl]
      rfl
    cases b0 with
    | true =>
      refine ⟨f0 + 1, true, ?_, ?_⟩
      · intro fuel hf
        obtain ⟨k, rfl⟩ : ∃ k, fuel = k + 1 := ⟨fuel - 1, by omega⟩
        rw [hstep, hb0h2 k (by omega)]
      · simp only [true_iff]
        exact ⟨l.err, List.mem_cons_self _ _, f0, hb0⟩
    | false =>
      by_cases hn : l.next = none
      · refine ⟨f0 + 1, false, ?_, ?_⟩
        · intro fuel hf
          obtain ⟨k, rfl⟩ : ∃ k, fuel = k + 1 := ⟨fuel - 1, by omega⟩
          rw [hstep, hb0h2 k (by omega)]
          simp [hn]
        · have has : as = [] := hrest.next_of_cons.2 hn
          have hes : es = [] := by
            have := hrest.length_eq
            rw [has] at this
            simpa using this
          subst hes
          simp only [Bool.false_eq_true, false_iff, not_exists, not_and]
          intro x hx fuel hcon
          simp at hx
          subst hx
          have := errors.Is_det hb0 hcon
          cases this
      · have has : as ≠ [] := fun hcon => hn (hrest.next_of_cons.1 hcon)
        have hterm2 : ∀ x ∈ es, ∃ fuel b, errors.Is fuel h x (some t) = .ok b :=
          fun x hx => hterm x (List.mem_cons_of_mem _ hx)
        obtain ⟨n1, b1, hrun, hiff⟩ := ih has hterm2
          { links := h2.links, chains := h2.chains ++ [⟨l.next, c.tail⟩] } h2.chains.length
          ⟨l.next, c.tail⟩ hlinks
          (by
            intro r hr
            simp only
            rw [List.getElem?_append_left (by omega)]
            exact hagree r hr)
          (by simp; omega) (List.getElem?_concat_length _ _) rfl
          (GoError.same_chain_of_validBelow ht hlen)
        refine ⟨max f0 n1 + 1, b1, ?_, ?_⟩
        · intro fuel hf
          obtain ⟨k, rfl⟩ : ∃ k, fuel = k + 1 := ⟨fuel - 1, by omega⟩
          have hk0 : f0 ≤ k := by omega
          have hk1 : n1 ≤ k := by omega
          rw [hstep, hb0h2 k hk0]
          simp only [hn, if_false]
          exact hrun k hk1
        · rw [hiff]
          constructor
          · rintro ⟨x, hx, hm⟩
            exact ⟨x, List.mem_cons_of_mem _ hx, hm⟩
          · rintro ⟨x, hx, fuel, hm⟩
            rcases List.mem_cons.1 hx with rfl | hx
            · have := errors.Is_det hb0 hm
              cases this
            · exact ⟨x, hx, fuel, hm⟩

theorem ErrorChain.Add_errsValid {h h2 : Heap} {e : Nat} {x : error} (hvalid : h.errsValid)
    (hx : error.validBelow h.chains.length x = true) (hadd : ErrorChain.Add h e x = .ok h2) :
    h2.errsValid ∧ h2.chains.length = h.chains.length := by
  simp only [ErrorChain.Add, Heap.chain, Heap.allocLink, Heap.setChain, Heap.setNext] at hadd
  cases hc : h.chains[e]? with
  | none => simp [hc] at hadd
  | some c =>
    simp only [hc] at hadd
    by_cases hh : c.head = none
    · simp only [hh, if_true, Except.ok.injEq] at hadd
      subst hadd
      refine ⟨?_, by simp⟩
      intro l hl
      simp only [List.length_set] at *
      rcases List.mem_append.1 hl with hl | hl
      · exact hvalid l hl
      · simp at hl; subst hl; exact hx
    · simp only [hh, if_false] at hadd
      cases ht : c.tail with
      | none => simp [ht] at hadd
      | some t =>
        simp only [ht] at hadd
        cases hlt : (h.links ++ [(⟨x, none⟩ : link)])[t]? with
        | none => simp [hlt] at hadd
        | some lt =>
          simp only [hlt, Except.ok.injEq] at hadd
          subst hadd
          refine ⟨?_, by simp⟩
          intro l hl
          simp only [List.length_set] at *
          have hmem : ∀ l2 ∈ h.links ++ [(⟨x, none⟩ : link)],
              error.validBelow h.chains.length l2.err = true := by
            intro l2 hl2
            rcases List.mem_append.1 hl2 with hl2 | hl2
            · exact hvalid l2 hl2
            · simp at hl2; subst hl2; exact hx
          rcases List.mem_or_eq_of_mem_set hl with hl | hl
          · exact hmem l hl
          · subst hl
            exact hmem lt (List.getElem?_mem hlt)

theorem ErrorChain.AddAll_errsValid : ∀ (xs : List error) (h h2 : Heap) (e : Nat),
    h.errsValid → (∀ x ∈ xs, error.validBelow h.chains.length x = true) →
    ErrorChain.AddAll h e xs = .ok h2 → h2.errsValid ∧ h2.chains.length = h.chains.length := by
  intro xs
  induction xs with
  | nil =>
    intro h h2 e hvalid _ hrun
    simp only [ErrorChain.AddAll, Except.ok.injEq] at hrun
    subst hrun
    exact ⟨hvalid, rfl⟩
  | cons x rest ih =>
    intro h h2 e hvalid hxs hrun
    simp only [ErrorChain.AddAll] at hrun
    cases hadd : ErrorChain.Add h e x with
    | error f => simp [hadd] at hrun
    | ok h1 =>
      simp only [hadd] at hrun
      obtain ⟨hv1, hlen1⟩ := ErrorChain.Add_errsValid hvalid (hxs x (List.mem_cons_self _ _)) hadd
      obtain ⟨hv2, hlen2⟩ := ih h1 h2 e hv1
        (fun y hy => by rw [hlen1]; exact hxs y (List.mem_cons_of_mem _ hy)) hrun
      exact ⟨hv2, hlen2.trans hlen1⟩

theorem ErrorChain.unwrapCalls_spec : ∀ (as : List Nat) (es : List error) (h : Heap) (e : Nat)
    (c : ErrorChain), h.chains[e]? = some c → Chained h.links c.head as es → as ≠ [] →
    ∀ fuel, as.length ≤ fuel → ErrorChain.unwrapCalls fuel h e = .ok as.length := by
  intro as
  induction as with
  | nil => intro es h e c _ _ hne; exact absurd rfl hne
  | cons a rest ih =>
    intro es h e c hc hp _ fuel hf
    cases fuel with
    | zero => simp at hf
    | succ n =>
      cases rest with
      | nil =>
        have hes : ∃ x, es = [x] := by
          have := hp.length_eq
          match es, this with
          | [x], _ => exact ⟨x, rfl⟩
        obtain ⟨x, rfl⟩ := hes
        simp [ErrorChain.unwrapCalls, ErrorChain.Unwrap_last hc hp]
      | cons b rest2 =>
        have hes : ∃ x es2, es = x :: es2 := by
          have := hp.length_eq
          match es, this with
          | x :: es2, _ => exact ⟨x, es2, rfl⟩
        obtain ⟨x, es2, rfl⟩ := hes
        obtain ⟨hU, hp2⟩ := ErrorChain.Unwrap_more hc hp
        have hc1 : ({ links := h.links, chains := h.chains ++ [⟨some b, c.tail⟩] } : Heap).chains[h.chains.length]? =
            some ⟨some b, c.tail⟩ := List.getElem?_concat_length _ _
        have := ih es2 { links := h.links, chains := h.chains ++ [⟨some b, c.tail⟩] }
          h.chains.length ⟨some b, c.tail⟩ hc1 hp2 (by simp) n (by simpa using hf)
        simp only [ErrorChain.unwrapCalls, hU, this]
        simp

theorem error.Error_frame {h h2 : Heap}
    (hchains : ∀ (q : Nat) (c : ErrorChain), h.chains[q]? = some c → c.head ≠ none →
      ∃ c2 : ErrorChain, h2.chains[q]? = some c2 ∧ c2.head = c.head)
    (hlinks : ∀ (a : Nat) (l : link), h.links[a]? = some l →
      ∃ l2 : link, h2.links[a]? = some l2 ∧ l2.err = l.err) :
    ∀ (fuel : Nat) (x : error) (s : String), error.Error fuel h x = .ok s →
      error.Error fuel h2 x = .ok s := by
  intro fuel
  induction fuel with
  | zero =>
    intro x s hs
    cases x with
    | none => simp [error.Error] at hs
    | some g =>
      cases g <;> simp_all [error.Error]
  | succ n ih =>
    intro x s hs
    cases x with
    | none => simp [error.Error] at hs
    | some g =>
      cases g with
      | errorChain p =>
        simp only [error.Error, ErrorChain.Error, Heap.chain, Heap.link] at hs ⊢
        cases hc : h.chains[p]? with
        | none => simp [hc] at hs
        | some c =>
          simp only [hc] at hs
          cases hh : c.head with
          | none => simp [hh] at hs
          | some a =>
            simp only [hh] at hs
            cases hl : h.links[a]? with
            | none => simp [hl] at hs
            | some l =>
              simp only [hl] at hs
              obtain ⟨c2, hc2, hh2⟩ := hchains p c hc (by simp [hh])
              obtain ⟨l2, hl2, herr⟩ := hlinks a l hl
              simp only [hc2, hh2, hh, hl2, herr]
              exact ih _ _ hs
      | _ => simpa [error.Error] using hs

theorem errors.Is_plain (h : Heap) (t : GoError) : ∀ (x : GoError), x.plain = true →
    ∀ fuel, x.causes.length ≤ fuel →
      errors.Is fuel h (some x) (some t) = .ok (x.matchesTarget t) := by
  intro x
  induction x with
  | errorString p s =>
    intro _ fuel hf
    obtain ⟨k, rfl⟩ : ∃ k, fuel = k + 1 := ⟨fuel - 1, by simp [GoError.causes] at hf; omega⟩
    simp only [errors.Is, GoError.matchesTarget, GoError.causes, GoError.ownIs, List.any_cons,
      List.any_nil, Bool.or_false]
    cases (GoError.errorString p s).same t <;> simp
  | testError p c =>
    intro _ fuel hf
    obtain ⟨k, rfl⟩ : ∃ k, fuel = k + 1 := ⟨fuel - 1, by simp [GoError.causes] at hf; omega⟩
    simp only [errors.Is, GoError.matchesTarget, GoError.causes, GoError.ownIs, List.any_cons,
      List.any_nil, Bool.or_false]
    cases (GoError.testError p c).same t <;> simp
  | myError p c =>
    intro _ fuel hf
    obtain ⟨k, rfl⟩ : ∃ k, fuel = k + 1 := ⟨fuel - 1, by simp [GoError.causes] at hf; omega⟩
    simp only [errors.Is, GoError.matchesTarget, GoError.causes, GoError.ownIs, List.any_cons,
      List.any_nil, Bool.or_false]
    cases (GoError.myError p c).same t <;> simp
  | wrapError p m inner ih =>
    intro hpl fuel hf
    obtain ⟨k, rfl⟩ : ∃ k, fuel = k + 1 := ⟨fuel - 1, by simp [GoError.causes] at hf; omega⟩
    have hk : inner.causes.length ≤ k := by simp [GoError.causes] at hf; omega
    have hrec := ih (by simpa [GoError.plain] using hpl) k hk
    simp only [errors.Is, GoError.matchesTarget, GoError.causes, GoError.ownIs, List.any_cons,
      Bool.or_false]
    cases (GoError.wrapError p m inner).same t with
    | true => simp
    | false =>
      simp only [Bool.false_eq_true, if_false, Bool.false_or]
      rw [hrec]
      rfl
  | errorChain p => intro hpl; simp [GoError.plain] at hpl

theorem Chained.stable {links links2 : List link} {p : Option Nat} {as : List Nat}
    {es : List error} (hp : Chained links p as es)
    (hsame : ∀ a ∈ as, links2[a]? = links[a]?) : Chained links2 p as es := by
  induction hp with
  | nil => exact Chained.nil
  | @cons a l as es hl _ ih =>
    refine Chained.cons ?_ (ih (fun b hb => hsame b (List.mem_cons_of_mem _ hb)))
    rw [hsame a (List.mem_cons_self _ _)]
    exact hl

theorem ErrorChain.Add_links_frame {h h2 : Heap} {e : Nat} {c : ErrorChain} {as : List Nat}
    {es : List error} {x : error} (hc : h.chains[e]? = some c)
    (hp : Chained h.links c.head as es) (ht : c.tail = as.getLast?)
    (hadd : ErrorChain.Add h e x = .ok h2) :
    ∀ a, a < h.links.length → as.getLast? ≠ some a → h2.links[a]? = h.links[a]? := by
  intro a ha hne
  cases as with
  | nil =>
    have hh : c.head = none := hp.next_of_cons.1 rfl
    rw [ErrorChain.Add_empty x hc hh] at hadd
    cases hadd
    exact List.getElem?_append_left ha
  | cons a0 rest =>
    have hh : c.head ≠ none := by
      intro hcon
      have := hp.next_of_cons.2 hcon
      cases this
    obtain ⟨t, hlast⟩ : ∃ t, (a0 :: rest).getLast? = some t := by
      cases hg : (a0 :: rest).getLast? with
      | none => simp at hg
      | some t => exact ⟨t, rfl⟩
    obtain ⟨lt, hlt, _⟩ := hp.last_next t hlast
    rw [ErrorChain.Add_nonempty x hc hh (ht.trans hlast) hlt] at hadd
    cases hadd
    have hta : t ≠ a := by
      intro hcon
      subst hcon
      exact hne hlast
    simp only
    rw [List.getElem?_set_ne hta, List.getElem?_append_left ha]

theorem Heap.separated_empty : Heap.empty.separated := by
  intro e c hc
  simp [Heap.empty] at hc

theorem Heap.separated_new {h : Heap} (hs : h.separated) :
    (h.allocChain none none).2.separated := by
  intro e c hc
  simp only [Heap.allocChain] at hc ⊢
  have hnew : ∀ (e2 : Nat) (c2 : ErrorChain), (h.chains ++ [⟨none, none⟩])[e2]? = some c2 →
      h.chains[e2]? = some c2 ∨ c2 = ⟨none, none⟩ := by
    intro e2 c2 hc2
    by_cases he2 : e2 < h.chains.length
    · rw [List.getElem?_append_left he2] at hc2
      exact Or.inl hc2
    · rw [List.getElem?_append_right (by omega)] at hc2
      right
      cases hk : e2 - h.chains.length with
      | zero => rw [hk] at hc2; simpa using hc2.symm
      | succ k => rw [hk] at hc2; simp at hc2
  have hidx : ∀ (e2 : Nat) (c2 : ErrorChain), (h.chains ++ [⟨none, none⟩])[e2]? = some c2 →
      h.chains[e2]? = some c2 ∨ (e2 = h.chains.length ∧ c2 = ⟨none, none⟩) := by
    intro e2 c2 hc2
    by_cases he2 : e2 < h.chains.length
    · rw [List.getElem?_append_left he2] at hc2
      exact Or.inl hc2
    · rw [List.getElem?_append_right (by omega)] at hc2
      right
      cases hk : e2 - h.chains.length with
      | zero => rw [hk] at hc2; exact ⟨by omega, by simpa using hc2.symm⟩
      | succ k => rw [hk] at hc2; simp at hc2
  rcases hidx e c hc with hold | ⟨he, rfl⟩
  · obtain ⟨as, es, hp, ht, hdis⟩ := hs e c hold
    refine ⟨as, es, hp, ht, ?_⟩
    intro e2 c2 as2 es2 hne hc2 hp2 a ha
    rcases hnew e2 c2 hc2 with hold2 | rfl
    · exact hdis e2 c2 as2 es2 hne hold2 hp2 a ha
    · have := hp2.next_of_cons.2 rfl
      subst this
      simp
  · exact ⟨[], [], Chained.nil, rfl, by simp⟩

theorem Heap.separated_add {h h2 : Heap} {e0 : Nat} {x : error} (hs : h.separated)
    (hadd : ErrorChain.Add h e0 x = .ok h2) : h2.separated := by
  cases hc0 : h.chains[e0]? with
  | none => simp [ErrorChain.Add, Heap.chain, hc0] at hadd
  | some c0 =>
    obtain ⟨as0, es0, hp0, ht0, hdis0⟩ := hs e0 c0 hc0
    obtain ⟨h2b, c02, hadd2, hc02, hp02, ht02, _, _, hother, _, _⟩ :=
      ErrorChain.Add_spec x hc0 hp0 ht0
    rw [hadd] at hadd2
    cases hadd2
    have hframe := ErrorChain.Add_links_frame hc0 hp0 ht0 hadd
    have hmemlast : ∀ t, as0.getLast? = some t → t ∈ as0 := by
      intro t ht
      exact List.mem_of_getLast?_eq_some ht
    -- the path of another chain is the same before and after
    have hkeep : ∀ (e : Nat) (c : ErrorChain), e ≠ e0 → h.chains[e]? = some c →
        ∃ as es, Chained h.links c.head as es ∧ Chained h2.links c.head as es ∧
          c.tail = as.getLast? ∧ (∀ a ∈ as0, a ∉ as) ∧ (∀ a ∈ as, a < h.links.length) ∧
          ∀ (e2 : Nat) (c2 : ErrorChain) (as2 : List Nat) (es2 : List error), e2 ≠ e →
            h.chains[e2]? = some c2 → Chained h.links c2.head as2 es2 → ∀ a ∈ as, a ∉ as2 := by
      intro e c hne hc
      obtain ⟨as, es, hp, ht, hdis⟩ := hs e c hc
      have hd : ∀ a ∈ as0, a ∉ as := hdis0 e c as es hne hc hp
      refine ⟨as, es, hp, ?_, ht, hd, hp.lt_length, hdis⟩
      refine hp.stable ?_
      intro a ha
      refine hframe a (hp.lt_length a ha) ?_
      intro hcon
      exact hd a (hmemlast a hcon) ha
    intro e c hc
    by_cases he : e = e0
    · subst he
      rw [hc02] at hc
      cases hc
      refine ⟨_, _, hp02, by simp [ht02], ?_⟩
      intro e2 c2 as2 es2 hne hc2 hp2 a ha
      rw [hother e2 hne] at hc2
      obtain ⟨as3, es3, hp3, hp3b, _, hd3, hlt3, _⟩ := hkeep e2 c2 hne hc2
      have := (Chained.functional hp2 hp3b).1
      subst this
      rcases List.mem_append.1 ha with ha | ha
      · exact hd3 a ha
      · simp at ha
        subst ha
        intro hcon
        exact absurd (hlt3 _ hcon) (by omega)
    · rw [hother e he] at hc
      obtain ⟨as, es, hp, hpb, ht, hd, hlt, hdis⟩ := hkeep e c he hc
      refine ⟨as, es, hpb, ht, ?_⟩
      intro e2 c2 as2 es2 hne hc2 hp2 a ha
      by_cases he2 : e2 = e0
      · subst he2
        rw [hc02] at hc2
        cases hc2
        have := (Chained.functional hp2 hp02).1
        subst this
        intro hcon
        rcases List.mem_append.1 hcon with hcon | hcon
        · exact hd a hcon ha
        · simp at hcon
          exact absurd (hlt a ha) (by omega)
      · rw [hother e2 he2] at hc2
        obtain ⟨as3, es3, hp3, hp3b, _, _, _, _⟩ := hkeep e2 c2 he2 hc2
        have := (Chained.functional hp2 hp3b).1
        subst this
        exact hdis e2 c2 as2 es3 hne hc2 hp3 a ha

theorem Heap.separated_runAll : ∀ (ops : List Op) (h h2 : Heap), h.separated →
    (∀ op ∈ ops, op.builds = true) → Op.runAll h ops = .ok h2 → h2.separated := by
  intro ops
  induction ops with
  | nil =>
    intro h h2 hs _ hrun
    simp only [Op.runAll, Except.ok.injEq] at hrun
    subst hrun
    exact hs
  | cons op rest ih =>
    intro h h2 hs hb hrun
    simp only [Op.runAll] at hrun
    cases hstep : op.run h with
    | error f => simp [hstep] at hrun
    | ok h1 =>
      simp only [hstep] at hrun
      refine ih h1 h2 ?_ (fun o ho => hb o (List.mem_cons_of_mem _ ho)) hrun
      cases op with
      | new =>
        simp only [Op.run, Except.ok.injEq] at hstep
        subst hstep
        exact Heap.separated_new hs
      | add e x => exact Heap.separated_add hs hstep
      | unwrap e =>
        have := hb (.unwrap e) (List.mem_cons_self _ _)
        simp [Op.builds] at this

/-- Calls of `Add` on a chain with a head and a tail keep the head of every
chain object that has one and the error of every link. -/
theorem ErrorChain.AddAll_frame : ∀ (xs : List error) (h : Heap) (e : Nat) (c : ErrorChain)
    (t : Nat) (lt : link), h.chains[e]? = some c → c.head ≠ none → c.tail = some t →
    h.links[t]? = some lt →
    ∃ h2, ErrorChain.AddAll h e xs = .ok h2 ∧
      (∀ (q : Nat) (d : ErrorChain), h.chains[q]? = some d → d.head ≠ none →
        ∃ d2 : ErrorChain, h2.chains[q]? = some d2 ∧ d2.head = d.head) ∧
      (∀ (a : Nat) (l : link), h.links[a]? = some l →
        ∃ l2 : link, h2.links[a]? = some l2 ∧ l2.err = l.err) := by
  intro xs
  induction xs with
  | nil =>
    intro h e c t lt _ _ _ _
    exact ⟨h, rfl, fun q d hd _ => ⟨d, hd, rfl⟩, fun a l hl => ⟨l, hl, rfl⟩⟩
  | cons x rest ih =>
    intro h e c t lt hc hh ht hlt
    have hadd := ErrorChain.Add_nonempty x hc hh ht hlt
    have he : e < h.chains.length := by
      by_contra hcon
      rw [List.getElem?_eq_none (by omega)] at hc
      cases hc
    have htl : t < h.links.length := by
      by_contra hcon
      rw [List.getElem?_eq_none (by omega)] at hlt
      cases hlt
    have hc1 : (h.chains.set e ⟨c.head, some h.links.length⟩)[e]? =
        some ⟨c.head, some h.links.length⟩ := by
      rw [List.getElem?_set_self he]
    have hl1 : ((h.links ++ [(⟨x, none⟩ : link)]).set t ⟨lt.err, some h.links.length⟩)[h.links.length]? =
        some ⟨x, none⟩ := by
      rw [List.getElem?_set_ne (by omega)]
      exact List.getElem?_concat_length _ _
    obtain ⟨h2, hrun, hfc, hfl⟩ := ih
      { links := (h.links ++ [(⟨x, none⟩ : link)]).set t ⟨lt.err, some h.links.length⟩,
        chains := h.chains.set e ⟨c.head, some h.links.length⟩ }
      e ⟨c.head, some h.links.length⟩ h.links.length ⟨x, none⟩ hc1 hh rfl hl1
    refine ⟨h2, ?_, ?_, ?_⟩
    · simp only [ErrorChain.AddAll, hadd]
      exact hrun
    · intro q d hd hdne
      by_cases hq : q = e
      · subst hq
        rw [hc] at hd
        cases hd
        exact hfc q ⟨c.head, some h.links.length⟩ hc1 hdne
      · refine hfc q d ?_ hdne
        simp only
        rw [List.getElem?_set_ne (Ne.symm hq)]
        exact hd
    · intro a l hl
      have hal : a < h.links.length := by
        by_contra hcon
        rw [List.getElem?_eq_none (by omega)] at hl
        cases hl
      by_cases hat : a = t
      · subst hat
        rw [hlt] at hl
        cases hl
        refine hfl a ⟨lt.err, some h.links.length⟩ ?_
        simp only
        rw [List.getElem?_set_self (by simp; omega)]
      · refine hfl a l ?_
        simp only
        rw [List.getElem?_set_ne (Ne.symm hat), List.getElem?_append_left hal]
        exact hl

/-- On a chain whose head error is the chain itself `errors.Is` never returns
for another target, whatever the later links hold: the chain's `Is` calls
`errors.Is` on the chain again. -/
theorem errors.Is_selfHeap_never_returns (t : GoError)
    (ht : (GoError.errorChain 0).same t = false) :
    ErrorChain.AddAll Heap.fresh 0 [some (.errorChain 0), some (.errorString 1 "B")] =
      .ok selfHeap ∧
    ∀ fuel, errors.Is fuel selfHeap (some (.errorChain 0)) (some t) = .error .outOfFuel := by
  refine ⟨by decide, ?_⟩
  intro fuel
  induction fuel with
  | zero => rfl
  | succ n ih =>
    rw [errors.Is_chain_step]
    simp only [ht, selfHeap]
    simp only [List.getElem?_cons_zero]
    have ih2 : errors.Is n selfHeap (some (.errorChain 0)) (some t) = .error .outOfFuel := ih
    simp only [selfHeap] at ih2
    simp [ih2]

/-- An error that holds no chain pointer is matched without reading the heap. -/
theorem errors.Is_plain_heap (h1 h2 : Heap) (t : error) : ∀ (fuel : Nat) (x : GoError),
    x.plain = true → errors.Is fuel h1 (some x) t = errors.Is fuel h2 (some x) t := by
  intro fuel
  induction fuel with
  | zero =>
    intro x _
    cases t <;> simp [errors.Is]
  | succ n ih =>
    intro x hx
    cases t with
    | none => simp [errors.Is]
    | some tg =>
      cases x with
      | errorString p s => simp [errors.Is]
      | testError p c => simp [errors.Is]
      | myError p c => simp [errors.Is]
      | wrapError p m inner =>
        simp only [errors.Is]
        rw [ih inner (by simpa [GoError.plain] using hx)]
      | errorChain p => simp [GoError.plain] at hx

theorem Heap.tailsSet_empty : Heap.empty.tailsSet := by
  constructor
  · intro a l b hl
    simp [Heap.empty] at hl
  · intro e c hc
    simp [Heap.empty] at hc

theorem Heap.tailsSet_new {h : Heap} (hs : h.tailsSet) :
    (h.allocChain none none).2.tailsSet := by
  refine ⟨hs.1, ?_⟩
  intro e c hc hne
  simp only [Heap.allocChain] at hc ⊢
  by_cases he : e < h.chains.length
  · rw [List.getElem?_append_left he] at hc
    exact hs.2 e c hc hne
  · rw [List.getElem?_append_right (by omega)] at hc
    cases hk : e - h.chains.length with
    | zero =>
      rw [hk] at hc
      simp only [List.getElem?_cons_zero, Option.some.injEq] at hc
      subst hc
      exact absurd rfl hne
    | succ k => rw [hk] at hc; simp at hc

theorem Heap.tailsSet_add {h h2 : Heap} {e0 : Nat} {x : error} (hs : h.tailsSet)
    (hadd : ErrorChain.Add h e0 x = .ok h2) : h2.tailsSet := by
  cases hc0 : h.chains[e0]? with
  | none => simp [ErrorChain.Add, Heap.chain, hc0] at hadd
  | some c0 =>
    have he0 : e0 < h.chains.length := by
      by_contra hcon
      rw [List.getElem?_eq_none (by omega)] at hc0
      cases hc0
    by_cases hh : c0.head = none
    · rw [ErrorChain.Add_empty x hc0 hh] at hadd
      cases hadd
      constructor
      · intro a l b hl hn
        simp only at hl ⊢
        simp only [List.length_append, List.length_singleton]
        by_cases ha : a < h.links.length
        · rw [List.getElem?_append_left ha] at hl
          have := hs.1 a l b hl hn
          omega
        · rw [List.getElem?_append_right (by omega)] at hl
          cases hk : a - h.links.length with
          | zero =>
            rw [hk] at hl
            simp only [List.getElem?_cons_zero, Option.some.injEq] at hl
            subst hl
            cases hn
          | succ k => rw [hk] at hl; simp at hl
      · intro e c hc hne
        simp only at hc ⊢
        simp only [List.length_append, List.length_singleton]
        by_cases he : e = e0
        · subst he
          rw [List.getElem?_set_self he0] at hc
          cases hc
          exact ⟨⟨_, rfl, by omega⟩, ⟨_, rfl, by omega⟩⟩
        · rw [List.getElem?_set_ne (Ne.symm he)] at hc
          obtain ⟨⟨a, ha, hal⟩, ⟨t, ht, htl⟩⟩ := hs.2 e c hc hne
          exact ⟨⟨a, ha, by omega⟩, ⟨t, ht, by omega⟩⟩
    · obtain ⟨_, ⟨t, ht, htl⟩⟩ := hs.2 e0 c0 hc0 hh
      obtain ⟨lt, hlt⟩ : ∃ lt, h.links[t]? = some lt := ⟨h.links[t], List.getElem?_eq_getElem htl⟩
      rw [ErrorChain.Add_nonempty x hc0 hh ht hlt] at hadd
      cases hadd
      constructor
      · intro a l b hl hn
        simp only at hl ⊢
        simp only [List.length_set, List.length_append, List.length_singleton]
        by_cases hat : a = t
        · subst hat
          rw [List.getElem?_set_self (by simp; omega)] at hl
          cases hl
          simp only [Option.some.injEq] at hn
          omega
        · rw [List.getElem?_set_ne (Ne.symm hat)] at hl
          by_cases ha : a < h.links.length
          · rw [List.getElem?_append_left ha] at hl
            have := hs.1 a l b hl hn
            omega
          · rw [List.getElem?_append_right (by omega)] at hl
            cases hk : a - h.links.length with
            | zero =>
              rw [hk] at hl
              simp only [List.getElem?_cons_zero, Option.some.injEq] at hl
              subst hl
              cases hn
            | succ k => rw [hk] at hl; simp at hl
      · intro e c hc hne
        simp only at hc ⊢
        simp only [List.length_set, List.length_append, List.length_singleton]
        by_cases he : e = e0
        · subst he
          rw [List.getElem?_set_self he0] at hc
          cases hc
          obtain ⟨⟨a, ha, hal⟩, _⟩ := hs.2 e c0 hc0 hh
          exact ⟨⟨a, ha, by omega⟩, ⟨_, rfl, by omega⟩⟩
        · rw [List.getElem?_set_ne (Ne.symm he)] at hc
          obtain ⟨⟨a, ha, hal⟩, ⟨t2, ht2, htl2⟩⟩ := hs.2 e c hc hne
          exact ⟨⟨a, ha, by omega⟩, ⟨t2, ht2, by omega⟩⟩

theorem Heap.tailsSet_unwrap {h h2 : Heap} {e0 : Nat} {r : error} (hs : h.tailsSet)
    (hU : ErrorChain.Unwrap h e0 = .ok (r, h2)) : h2.tailsSet := by
  simp only [ErrorChain.Unwrap, Heap.chain, Heap.link, Heap.allocChain] at hU
  cases hc0 : h.chains[e0]? with
  | none => simp [hc0] at hU
  | some c0 =>
    simp only [hc0] at hU
    cases hh : c0.head with
    | none => simp [hh] at hU
    | some a =>
      simp only [hh] at hU
      cases hl : h.links[a]? with
      | none => simp [hl] at hU
      | some l =>
        simp only [hl] at hU
        by_cases hn : l.next = none
        · simp only [hn, if_true, Except.ok.injEq, Prod.mk.injEq] at hU
          rw [← hU.2]
          exact hs
        · simp only [hn, if_false, Except.ok.injEq, Prod.mk.injEq] at hU
          rw [← hU.2]
          refine ⟨hs.1, ?_⟩
          intro e c hc hne
          simp only at hc ⊢
          by_cases he : e < h.chains.length
          · rw [List.getElem?_append_left he] at hc
            exact hs.2 e c hc hne
          · rw [List.getElem?_append_right (by omega)] at hc
            cases hk : e - h.chains.length with
            | zero =>
              rw [hk] at hc
              simp only [List.getElem?_cons_zero, Option.some.injEq] at hc
              subst hc
              obtain ⟨b, hb⟩ : ∃ b, l.next = some b := by
                cases hnx : l.next with
                | none => exact absurd hnx hn
                | some b => exact ⟨b, rfl⟩
              exact ⟨⟨b, hb, hs.1 a l b hl hb⟩, (hs.2 e0 c0 hc0 (by simp [hh])).2⟩
            | succ k => rw [hk] at hc; simp at hc

/-- In every state that the public operations reach from the empty heap,
`Unwrap` included, a chain object with a head has its tail set. -/
theorem Heap.tailsSet_runAll : ∀ (ops : List Op) (h h2 : Heap), h.tailsSet →
    Op.runAll h ops = .ok h2 → h2.tailsSet := by
  intro ops
  induction ops with
  | nil =>
    intro h h2 hs hrun
    simp only [Op.runAll, Except.ok.injEq] at hrun
    subst hrun
    exact hs
  | cons op rest ih =>
    intro h h2 hs hrun
    simp only [Op.runAll] at hrun
    cases hstep : op.run h with
    | error f => simp [hstep] at hrun
    | ok h1 =>
      simp only [hstep] at hrun
      refine ih h1 h2 ?_ hrun
      cases op with
      | new =>
        simp only [Op.run, Except.ok.injEq] at hstep
        subst hstep
        exact Heap.tailsSet_new hs
      | add e x => exact Heap.tailsSet_add hs hstep
      | unwrap e =>
        simp only [Op.run] at hstep
        cases hU : ErrorChain.Unwrap h e with
        | error f => simp [hU] at hstep
        | ok res =>
          obtain ⟨r, h3⟩ := res
          simp only [hU, Except.ok.injEq] at hstep
          subst hstep
          exact Heap.tailsSet_unwrap hs hU

/-! ## Slices, frames and sharing -/

theorem ErrorChain.ErrorsSlice.loop_eq (links : List link) : ∀ (fuel : Nat) (p : Option Nat)
    (acc : List error),
    ErrorChain.ErrorsSlice.loop links fuel p (some acc) =
      (ErrorChain.Errors.loop links fuel p acc).map some := by
  intro fuel
  induction fuel with
  | zero =>
    intro p acc
    cases p <;> rfl
  | succ n ih =>
    intro p acc
    cases p with
    | none => rfl
    | some a =>
      simp only [ErrorChain.ErrorsSlice.loop, ErrorChain.Errors.loop]
      cases links[a]? with
      | none => rfl
      | some l =>
        simp only [Slice.append]
        exact ih _ _

/-- The slice that `Errors` returns is never nil, and its elements are the list
of `ErrorChain.Errors`. -/
theorem ErrorChain.ErrorsSlice_eq (h : Heap) (e : Nat) :
    ErrorChain.ErrorsSlice h e = (ErrorChain.Errors h e).map some := by
  simp only [ErrorChain.ErrorsSlice, ErrorChain.Errors]
  cases h.chain e with
  | error f => rfl
  | ok c => exact ErrorChain.ErrorsSlice.loop_eq _ _ _ _


/-- One `Add` on a chain that satisfies the invariant leaves every link as it
is, except the previous tail, whose absent `next` it sets. -/
theorem ErrorChain.Add_link_cases {h : Heap} {e : Nat} {c : ErrorChain} {as : List Nat}
    {es : List error} (x : error) (hc : h.chains[e]? = some c)
    (hp : Chained h.links c.head as es) (ht : c.tail = as.getLast?) :
    ∃ h2, ErrorChain.Add h e x = .ok h2 ∧
      ∀ (a : Nat) (l : link), h.links[a]? = some l →
        h2.links[a]? = some l ∨
        (c.tail = some a ∧ l.next = none ∧
          h2.links[a]? = some ⟨l.err, some h.links.length⟩) := by
  obtain ⟨h2, c2, hadd, _⟩ := ErrorChain.Add_spec x hc hp ht
  refine ⟨h2, hadd, ?_⟩
  intro a l hl
  have hal : a < h.links.length := by
    by_contra hcon
    rw [List.getElem?_eq_none (by omega)] at hl
    cases hl
  by_cases hlast : as.getLast? = some a
  · right
    obtain ⟨lt, hlt, hnone⟩ := hp.last_next a hlast
    rw [hl] at hlt
    cases hlt
    have hh : c.head ≠ none := by
      intro hcon
      have := hp.next_of_cons.2 hcon
      subst this
      simp at hlast
    rw [ErrorChain.Add_nonempty x hc hh (ht.trans hlast) hl] at hadd
    cases hadd
    refine ⟨ht.trans hlast, hnone, ?_⟩
    simp only
    rw [List.getElem?_set_self (by simp; omega)]
  · left
    rw [ErrorChain.Add_links_frame hc hp ht hadd a hal hlast]
    exact hl

/-- Calls of `Add` on a chain that satisfies the invariant keep the error of
every link and every `next` that is set. -/
theorem ErrorChain.AddAll_keeps_links : ∀ (xs : List error) (h : Heap) (e : Nat)
    (c : ErrorChain) (as : List Nat) (es : List error), h.chains[e]? = some c →
    Chained h.links c.head as es → c.tail = as.getLast? →
    ∃ h2, ErrorChain.AddAll h e xs = .ok h2 ∧
      ∀ (a : Nat) (l : link), h.links[a]? = some l →
        ∃ l2 : link, h2.links[a]? = some l2 ∧ l2.err = l.err ∧
          (l.next ≠ none → l2.next = l.next) := by
  intro xs
  induction xs with
  | nil =>
    intro h e c as es _ _ _
    exact ⟨h, rfl, fun a l hl => ⟨l, hl, rfl, fun _ => rfl⟩⟩
  | cons x rest ih =>
    intro h e c as es hc hp ht
    obtain ⟨h1, c1, hadd, hc1, hp1, ht1, _, _, _, _, hlk⟩ := ErrorChain.Add_spec x hc hp ht
    obtain ⟨h2, hrun, hkeep⟩ := ih h1 e c1 _ _ hc1 hp1 (by simp [ht1])
    refine ⟨h2, ?_, ?_⟩
    · simp only [ErrorChain.AddAll, hadd]
      exact hrun
    · intro a l hl
      obtain ⟨l1, hl1, herr1, hnext1⟩ := hlk a l hl
      obtain ⟨l2, hl2, herr2, hnext2⟩ := hkeep a l1 hl1
      refine ⟨l2, hl2, herr2.trans herr1, ?_⟩
      intro hn
      have h1n := hnext1 hn
      rw [hnext2 (by rw [h1n]; exact hn), h1n]


theorem Heap.keptIn_refl (h : Heap) : h.keptIn h := ⟨rfl, List.prefix_refl _⟩

theorem Heap.keptIn_trans {h1 h2 h3 : Heap} (h12 : h1.keptIn h2) (h23 : h2.keptIn h3) :
    h1.keptIn h3 := ⟨h23.1.trans h12.1, h12.2.trans h23.2⟩

theorem Heap.keptIn_chain {h h2 : Heap} (hk : h.keptIn h2) {q : Nat} {c : ErrorChain}
    (hc : h.chains[q]? = some c) : h2.chains[q]? = some c := by
  obtain ⟨cs, hcs⟩ := hk.2
  have hq : q < h.chains.length := by
    by_contra hcon
    rw [List.getElem?_eq_none (by omega)] at hc
    cases hc
  rw [← hcs, List.getElem?_append_left hq]
  exact hc

theorem Heap.keptIn_Errors {h h2 : Heap} (hk : h.keptIn h2) {q : Nat}
    (hq : q < h.chains.length) : ErrorChain.Errors h2 q = ErrorChain.Errors h q := by
  obtain ⟨c, hc⟩ : ∃ c, h.chains[q]? = some c := ⟨h.chains[q], List.getElem?_eq_getElem hq⟩
  simp only [ErrorChain.Errors, Heap.chain, hc, Heap.keptIn_chain hk hc, hk.1]

theorem ErrorChain.Unwrap_keptIn {h h2 : Heap} {e : Nat} {r : error}
    (hU : ErrorChain.Unwrap h e = .ok (r, h2)) : h.keptIn h2 := by
  simp only [ErrorChain.Unwrap, Heap.allocChain] at hU
  cases hc : h.chain e with
  | error f => simp [hc] at hU
  | ok c =>
    simp only [hc] at hU
    cases hl : h.link c.head with
    | error f => simp [hl] at hU
    | ok l =>
      simp only [hl] at hU
      by_cases hn : l.next = none
      · simp only [hn, if_true, Except.ok.injEq, Prod.mk.injEq] at hU
        rw [← hU.2]
        exact Heap.keptIn_refl h
      · simp only [hn, if_false, Except.ok.injEq, Prod.mk.injEq] at hU
        rw [← hU.2]
        exact ⟨rfl, List.prefix_append _ _⟩

theorem errors.IsRun_keptIn : ∀ (fuel : Nat) (h h2 : Heap) (x t : error) (b : Bool),
    errors.IsRun fuel h x t = .ok (b, h2) → h.keptIn h2 := by
  intro fuel
  induction fuel with
  | zero =>
    intro h h2 x t b hr
    cases x with
    | none =>
      simp only [errors.IsRun, Except.ok.injEq, Prod.mk.injEq] at hr
      rw [← hr.2]; exact Heap.keptIn_refl h
    | some g =>
      cases t with
      | none =>
        simp only [errors.IsRun, Except.ok.injEq, Prod.mk.injEq] at hr
        rw [← hr.2]; exact Heap.keptIn_refl h
      | some tg => simp [errors.IsRun] at hr
  | succ n ih =>
    intro h h2 x t b hr
    cases x with
    | none =>
      simp only [errors.IsRun, Except.ok.injEq, Prod.mk.injEq] at hr
      rw [← hr.2]; exact Heap.keptIn_refl h
    | some g =>
      cases t with
      | none =>
        simp only [errors.IsRun, Except.ok.injEq, Prod.mk.injEq] at hr
        rw [← hr.2]; exact Heap.keptIn_refl h
      | some tg =>
        have hdone : ∀ (v : Bool), (Except.ok (v, h) : Except Fault (Bool × Heap)) = .ok (b, h2) →
            h.keptIn h2 := by
          intro v hv
          simp only [Except.ok.injEq, Prod.mk.injEq] at hv
          rw [← hv.2]; exact Heap.keptIn_refl h
        cases g with
        | errorString p s =>
          simp only [errors.IsRun] at hr
          split at hr <;> exact hdone _ hr
        | testError p c =>
          simp only [errors.IsRun] at hr
          split at hr <;> exact hdone _ hr
        | myError p c =>
          simp only [errors.IsRun] at hr
          split at hr <;> exact hdone _ hr
        | wrapError p m inner =>
          simp only [errors.IsRun] at hr
          split at hr
          · exact hdone _ hr
          · exact ih _ _ _ _ _ hr
        | errorChain p =>
          simp only [errors.IsRun] at hr
          split at hr
          · exact hdone _ hr
          simp only [ErrorChain.IsRun] at hr
          cases hc : h.chain p with
          | error f => simp [hc] at hr
          | ok c =>
            simp only [hc] at hr
            cases hl : h.link c.head with
            | error f => simp [hl] at hr
            | ok l =>
              simp only [hl] at hr
              cases hi : errors.IsRun n h l.err (some tg) with
              | error f => simp [hi] at hr
              | ok res =>
                obtain ⟨r, h1⟩ := res
                have hk1 := ih _ _ _ _ _ hi
                simp only [hi] at hr
                cases r with
                | true =>
                  simp only [Except.ok.injEq, Prod.mk.injEq] at hr
                  rw [← hr.2]; exact hk1
                | false =>
                  simp only at hr
                  cases hU : ErrorChain.Unwrap h1 p with
                  | error f => simp [hU] at hr
                  | ok res2 =>
                    obtain ⟨nx, h3⟩ := res2
                    have hk2 := ErrorChain.Unwrap_keptIn hU
                    simp only [hU] at hr
                    cases nx with
                    | none =>
                      simp only [Except.ok.injEq, Prod.mk.injEq] at hr
                      rw [← hr.2]; exact Heap.keptIn_trans hk1 hk2
                    | some nxt =>
                      simp only at hr
                      exact Heap.keptIn_trans (Heap.keptIn_trans hk1 hk2) (ih _ _ _ _ _ hr)

theorem GoError.validBelow_mono {n m : Nat} (hnm : n ≤ m) : ∀ (g : GoError),
    g.validBelow n = true → g.validBelow m = true := by
  intro g
  induction g with
  | wrapError p s inner ih => intro hg; exact ih hg
  | errorChain p =>
    intro hg
    simp only [GoError.validBelow, decide_eq_true_eq] at hg ⊢
    omega
  | _ => intro _; rfl

theorem error.validBelow_of_le {n m : Nat} (hnm : n ≤ m) (x : error)
    (hx : error.validBelow n x = true) : error.validBelow m x = true := by
  cases x with
  | none => rfl
  | some g => exact GoError.validBelow_mono hnm g hx

/-- The step of `errors.IsRun` at a chain pointer. -/
theorem errors.IsRun_chain_step (fuel : Nat) (h : Heap) (p : Nat) (t : GoError)
    (c : ErrorChain) (a : Nat) (l : link) (hs : (GoError.errorChain p).same t = false)
    (hc : h.chains[p]? = some c) (hh : c.head = some a) (hl : h.links[a]? = some l) :
    errors.IsRun (fuel + 1) h (some (.errorChain p)) (some t) =
      match errors.IsRun fuel h l.err (some t) with
      | .error f => .error f
      | .ok (true, h1) => .ok (true, h1)
      | .ok (false, h1) =>
        match ErrorChain.Unwrap h1 p with
        | .error f => .error f
        | .ok (none, h2) => .ok (false, h2)
        | .ok (some next, h2) => errors.IsRun fuel h2 (some next) (some t) := by
  simp only [errors.IsRun, hs, ErrorChain.IsRun, Heap.chain, hc, Heap.link, hh, hl]
  rfl

/-- Whenever `errors.Is` returns an answer, the run that keeps the heap returns
the same answer. -/
theorem errors.IsRun_of_Is : ∀ (fuel : Nat) (h : Heap) (x : error) (t : GoError) (b : Bool),
    h.errsValid → t.validBelow h.chains.length = true →
    error.validBelow h.chains.length x = true →
    errors.Is fuel h x (some t) = .ok b → ∃ h2, errors.IsRun fuel h x (some t) = .ok (b, h2) := by
  intro fuel
  induction fuel with
  | zero =>
    intro h x t b _ _ _ hb
    cases x with
    | none =>
      simp only [errors.Is, Except.ok.injEq] at hb
      exact ⟨h, by simp [errors.IsRun, hb]⟩
    | some g => simp [errors.Is] at hb
  | succ n ih =>
    intro h x t b hvalid ht hx hb
    cases x with
    | none =>
      simp only [errors.Is, Except.ok.injEq] at hb
      exact ⟨h, by simp [errors.IsRun, hb]⟩
    | some g =>
      cases g with
      | errorString p s =>
        refine ⟨h, ?_⟩
        simp only [errors.Is] at hb
        simp only [errors.IsRun]
        split at hb <;> simp_all
      | testError p c =>
        refine ⟨h, ?_⟩
        simp only [errors.Is] at hb
        simp only [errors.IsRun]
        split at hb <;> simp_all
      | myError p c =>
        refine ⟨h, ?_⟩
        simp only [errors.Is] at hb
        simp only [errors.IsRun]
        split at hb <;> simp_all
      | wrapError p m inner =>
        simp only [errors.Is] at hb
        simp only [errors.IsRun]
        split at hb
        · rename_i hs
          refine ⟨h, ?_⟩
          simp only [Except.ok.injEq] at hb
          simp [hs, hb]
        · rename_i hs
          simp only [hs, if_false, Bool.false_eq_true]
          exact ih h (some inner) t b hvalid ht (by simpa [error.validBelow, GoError.validBelow] using hx) hb
      | errorChain p =>
        rw [errors.Is_chain_step] at hb
        by_cases hs : (GoError.errorChain p).same t = true
        · rw [if_pos hs] at hb
          refine ⟨h, ?_⟩
          simp only [Except.ok.injEq] at hb
          simp [errors.IsRun, hs, hb]
        · rw [if_neg hs] at hb
          have hs2 : (GoError.errorChain p).same t = false := by simpa using hs
          cases hc : h.chains[p]? with
          | none => simp [hc] at hb
          | some c =>
            simp only [hc] at hb
            cases hh : c.head with
            | none => simp [hh] at hb
            | some a =>
              simp only [hh] at hb
              cases hl : h.links[a]? with
              | none => simp [hl] at hb
              | some l =>
                simp only [hl] at hb
                rw [errors.IsRun_chain_step n h p t c a l hs2 hc hh hl]
                cases hi : errors.Is n h l.err (some t) with
                | error f => simp [hi] at hb
                | ok r =>
                  simp only [hi] at hb
                  have hlv : error.validBelow h.chains.length l.err = true :=
                    hvalid l (List.getElem?_mem hl)
                  obtain ⟨h1, hrun1⟩ := ih h l.err t r hvalid ht hlv hi
                  have hk1 := errors.IsRun_keptIn _ _ _ _ _ _ hrun1
                  rw [hrun1]
                  cases r with
                  | true =>
                    simp only [Except.ok.injEq] at hb
                    subst hb
                    exact ⟨h1, rfl⟩
                  | false =>
                    simp only at hb ⊢
                    have hc1 : h1.chains[p]? = some c := Heap.keptIn_chain hk1 hc
                    have hl1 : h1.links[a]? = some l := by rw [hk1.1]; exact hl
                    obtain ⟨cs, hcs⟩ := hk1.2
                    by_cases hn : l.next = none
                    · simp only [hn, if_true, Except.ok.injEq] at hb
                      subst hb
                      refine ⟨h1, ?_⟩
                      simp [ErrorChain.Unwrap, Heap.chain, hc1, Heap.link, hh, hl1, hn]
                    · simp only [hn, if_false] at hb
                      have hU : ErrorChain.Unwrap h1 p = .ok (some (.errorChain h1.chains.length),
                          { links := h1.links, chains := h1.chains ++ [⟨l.next, c.tail⟩] }) := by
                        simp [ErrorChain.Unwrap, Heap.chain, hc1, Heap.link, hh, hl1, hn,
                          Heap.allocChain]
                      simp only [hU]
                      have hlen1 : h.chains.length ≤ h1.chains.length := by
                        rw [← hcs]; simp
                      have hsim := errors.Is_sim h.chains.length n
                        { links := h.links, chains := h.chains ++ [⟨l.next, c.tail⟩] }
                        { links := h1.links, chains := h1.chains ++ [⟨l.next, c.tail⟩] }
                        (.errorChain h.chains.length) (.errorChain h1.chains.length) t b
                        hk1.1.symm
                        (by
                          intro q hq
                          simp only
                          rw [List.getElem?_append_left hq, List.getElem?_append_left (by omega),
                            ← hcs, List.getElem?_append_left hq])
                        (by simp) (by simp; omega) hvalid ht
                        (Or.inr ⟨h.chains.length, h1.chains.length, ⟨l.next, c.tail⟩, rfl, rfl,
                          le_refl _, hlen1, List.getElem?_concat_length _ _,
                          List.getElem?_concat_length _ _⟩) hb
                      refine ih { links := h1.links, chains := h1.chains ++ [⟨l.next, c.tail⟩] }
                        (some (.errorChain h1.chains.length)) t b ?_ ?_ ?_ hsim
                      · intro l2 hl2
                        simp only at hl2 ⊢
                        rw [hk1.1] at hl2
                        exact error.validBelow_of_le (by simp; omega) _ (hvalid l2 hl2)
                      · exact GoError.validBelow_mono (by simp; omega) t ht
                      · simp [error.validBelow, GoError.validBelow]

theorem Chained.tail_of_cons {links : List link} {p : Option Nat} {a b : Nat}
    {as : List Nat} {x : error} {es : List error}
    (hp : Chained links p (a :: b :: as) (x :: es)) :
    ∃ l, links[a]? = some l ∧ l.next = some b ∧ l.err = x ∧
      Chained links (some b) (b :: as) es := by
  cases hp with
  | @cons _ l _ _ hl hrest =>
    generalize hn : l.next = r at hrest
    cases hrest with
    | cons hl2 hrest2 => exact ⟨l, hl, hn, rfl, Chained.cons hl2 hrest2⟩

/-- An `Add` on the chain that `Unwrap` returned, or on the receiver of that
`Unwrap`, appends to both chains, and leaves the tail of the other chain one
link short of the end. -/
theorem ErrorChain.Add_after_Unwrap {h : Heap} {e : Nat} {c : ErrorChain} {a b : Nat}
    {rest : List Nat} {x0 : error} {es : List error} (x : error)
    (hc : h.chains[e]? = some c) (hp : Chained h.links c.head (a :: b :: rest) (x0 :: es))
    (ht : c.tail = (a :: b :: rest).getLast?) :
    ∃ h1, ErrorChain.Unwrap h e = .ok (some (.errorChain h.chains.length), h1) ∧
      ErrorChain.Errors h1 h.chains.length = .ok es ∧
      ErrorChain.Errors h1 e = .ok (x0 :: es) ∧
      (∃ h2, ErrorChain.Add h1 h.chains.length x = .ok h2 ∧
        ErrorChain.Errors h2 h.chains.length = .ok (es ++ [x]) ∧
        ErrorChain.Errors h2 e = .ok (x0 :: es ++ [x]) ∧
        ¬ h2.invariantAt e ∧ h2.invariantAt h.chains.length) ∧
      (∃ h2, ErrorChain.Add h1 e x = .ok h2 ∧
        ErrorChain.Errors h2 e = .ok (x0 :: es ++ [x]) ∧
        ErrorChain.Errors h2 h.chains.length = .ok (es ++ [x]) ∧
        ¬ h2.invariantAt h.chains.length ∧ h2.invariantAt e) := by
  have he : e < h.chains.length := by
    by_contra hcon
    rw [List.getElem?_eq_none (by omega)] at hc
    cases hc
  obtain ⟨hU, hp2⟩ := ErrorChain.Unwrap_more hc hp
  obtain ⟨la, hla, hlan, hlae, _⟩ := hp.tail_of_cons
  have hal : a < h.links.length := hp.lt_length a (List.mem_cons_self _ _)
  have hnd := hp.nodup
  have hanot : a ∉ b :: rest := (List.nodup_cons.1 hnd).1
  have ht2 : c.tail = (b :: rest).getLast? := by rw [ht, List.getLast?_cons_cons]
  obtain ⟨t, hlast⟩ : ∃ t, (b :: rest).getLast? = some t := by
    cases hg : (b :: rest).getLast? with
    | none => simp at hg
    | some t => exact ⟨t, rfl⟩
  have htmem : t ∈ b :: rest := List.mem_of_getLast?_eq_some hlast
  have htl : t < h.links.length := hp2.lt_length t htmem
  have hta : t ≠ a := fun hcon => hanot (hcon ▸ htmem)
  have hlastn : ∀ (l : List Nat) (n : Nat), (l ++ [n]).getLast? = some n := by
    intro l n; simp
  -- the heap after Unwrap
  have hcq : ({ links := h.links, chains := h.chains ++ [⟨some b, c.tail⟩] } : Heap).chains[h.chains.length]? =
      some ⟨some b, c.tail⟩ := List.getElem?_concat_length _ _
  have hce : ({ links := h.links, chains := h.chains ++ [⟨some b, c.tail⟩] } : Heap).chains[e]? =
      some c := by
    simp only
    rw [List.getElem?_append_left he]
    exact hc
  refine ⟨_, hU, ErrorChain.Errors_of_chained hcq hp2, ErrorChain.Errors_of_chained hce hp, ?_, ?_⟩
  · -- Add on the returned chain
    obtain ⟨h2, cq2, hadd, hcq2, hpq2, htq2, _, _, hother, hhead, _⟩ :=
      ErrorChain.Add_spec (h := { links := h.links, chains := h.chains ++ [⟨some b, c.tail⟩] })
        x hcq hp2 ht2
    have hframe := ErrorChain.Add_links_frame
      (h := { links := h.links, chains := h.chains ++ [⟨some b, c.tail⟩] }) hcq hp2 ht2 hadd
    have hce2 : h2.chains[e]? = some c := by
      rw [hother e (by omega)]
      exact hce
    have hla2 : h2.links[a]? = some la := by
      have hne : (b :: rest).getLast? ≠ some a := by
        rw [hlast]
        intro hcon
        exact hta (Option.some.inj hcon)
      rw [hframe a hal hne]
      exact hla
    have hhq : cq2.head = some b := hhead (by simp)
    have hpe2 : Chained h2.links c.head (a :: (b :: rest ++ [h.links.length]))
        (x0 :: (es ++ [x])) := by
      have hca : c.head = some a := by
        have := hp.next_of_cons
        cases hch : c.head with
        | none => exact absurd (this.2 hch) (by simp)
        | some a2 =>
          rw [hch] at hp
          cases hp
          rfl
      rw [hca, ← hlae]
      refine Chained.cons hla2 ?_
      rw [hlan, ← hhq]
      exact hpq2
    refine ⟨h2, hadd, ErrorChain.Errors_of_chained hcq2 hpq2,
      ErrorChain.Errors_of_chained hce2 hpe2, ?_,
      Heap.invariantAt_iff.2 ⟨cq2, _, _, hcq2, hpq2, by rw [htq2, hlastn]⟩⟩
    intro hinv
    obtain ⟨c3, as3, es3, hc3, hp3, ht3⟩ := Heap.invariantAt_iff.1 hinv
    rw [hce2] at hc3
    cases hc3
    have := (Chained.functional hp3 hpe2).1
    subst this
    have hl3 : (a :: (b :: rest ++ [h.links.length])).getLast? = some h.links.length :=
      hlastn (a :: b :: rest) _
    rw [hl3, ht2, hlast] at ht3
    have := Option.some.inj ht3
    omega
  · -- Add on the receiver
    obtain ⟨h2, ce2, hadd, hce2, hpe2, hte2, _, _, hother, _, _⟩ :=
      ErrorChain.Add_spec (h := { links := h.links, chains := h.chains ++ [⟨some b, c.tail⟩] })
        x hce hp ht
    have hcq2 : h2.chains[h.chains.length]? = some ⟨some b, c.tail⟩ := by
      rw [hother _ (by omega)]
      exact hcq
    have hpe3 : Chained h2.links ce2.head (a :: b :: (rest ++ [h.links.length]))
        (x0 :: (es ++ [x])) := by simpa using hpe2
    obtain ⟨_, _, _, _, hpq2⟩ := hpe3.tail_of_cons
    refine ⟨h2, hadd, ErrorChain.Errors_of_chained hce2 hpe2,
      ErrorChain.Errors_of_chained hcq2 hpq2, ?_,
      Heap.invariantAt_iff.2 ⟨ce2, _, _, hce2, hpe2, by rw [hte2, hlastn]⟩⟩
    intro hinv
    obtain ⟨c3, as3, es3, hc3, hp3, ht3⟩ := Heap.invariantAt_iff.1 hinv
    rw [hcq2] at hc3
    cases hc3
    have := (Chained.functional hp3 hpq2).1
    subst this
    have hl3 : (b :: (rest ++ [h.links.length])).getLast? = some h.links.length :=
      hlastn (b :: rest) _
    simp only at ht3
    rw [hl3, ht2, hlast] at ht3
    have := Option.some.inj ht3
    omega

/-- In a heap where no link is shared, an `Add` on one chain leaves the fields
and the errors of every other chain as they are. -/
theorem Heap.separated_add_other {h h2 : Heap} {e0 e : Nat} {x : error} {c : ErrorChain}
    (hs : h.separated) (hadd : ErrorChain.Add h e0 x = .ok h2) (hne : e ≠ e0)
    (hc : h.chains[e]? = some c) :
    h2.chains[e]? = some c ∧ ErrorChain.Errors h2 e = ErrorChain.Errors h e := by
  cases hc0 : h.chains[e0]? with
  | none => simp [ErrorChain.Add, Heap.chain, hc0] at hadd
  | some c0 =>
    obtain ⟨as0, es0, hp0, ht0, hdis0⟩ := hs e0 c0 hc0
    obtain ⟨h2b, c02, hadd2, _, _, _, _, _, hother, _, _⟩ := ErrorChain.Add_spec x hc0 hp0 ht0
    rw [hadd] at hadd2
    cases hadd2
    have hframe := ErrorChain.Add_links_frame hc0 hp0 ht0 hadd
    obtain ⟨as, es, hp, _, _⟩ := hs e c hc
    have hd : ∀ a ∈ as0, a ∉ as := hdis0 e c as es hne hc hp
    have hp2 : Chained h2.links c.head as es := by
      refine hp.stable ?_
      intro a ha
      refine hframe a (hp.lt_length a ha) ?_
      intro hcon
      exact hd a (List.mem_of_getLast?_eq_some hcon) ha
    have hc2 : h2.chains[e]? = some c := by rw [hother e hne]; exact hc
    exact ⟨hc2, by rw [ErrorChain.Errors_of_chained hc2 hp2, ErrorChain.Errors_of_chained hc hp]⟩

theorem ErrorChain.AddAll_append : ∀ (xs ys : List error) (h h1 : Heap) (e : Nat),
    ErrorChain.AddAll h e xs = .ok h1 →
    ErrorChain.AddAll h e (xs ++ ys) = ErrorChain.AddAll h1 e ys := by
  intro xs
  induction xs with
  | nil =>
    intro ys h h1 e hrun
    simp only [ErrorChain.AddAll, Except.ok.injEq] at hrun
    subst hrun
    rfl
  | cons x rest ih =>
    intro ys h h1 e hrun
    simp only [ErrorChain.AddAll, List.cons_append] at hrun ⊢
    cases hadd : ErrorChain.Add h e x with
    | error f => simp [hadd] at hrun
    | ok h0 =>
      simp only [hadd] at hrun ⊢
      exact ih ys h0 h1 e hrun

/-- Calls of `Add` on a chain whose links all lie at or above address N leave
the links below N and every other chain object as they are. -/
theorem ErrorChain.AddAll_fresh (N : Nat) : ∀ (xs : List error) (h h2 : Heap) (e : Nat)
    (c : ErrorChain) (as : List Nat) (es : List error), h.chains[e]? = some c →
    Chained h.links c.head as es → c.tail = as.getLast? → (∀ a ∈ as, N ≤ a) →
    N ≤ h.links.length → ErrorChain.AddAll h e xs = .ok h2 →
    (∀ a, a < N → h2.links[a]? = h.links[a]?) ∧
    (∀ q, q ≠ e → h2.chains[q]? = h.chains[q]?) ∧
    h2.chains.length = h.chains.length := by
  intro xs
  induction xs with
  | nil =>
    intro h h2 e c as es _ _ _ _ _ hrun
    simp only [ErrorChain.AddAll, Except.ok.injEq] at hrun
    subst hrun
    exact ⟨fun _ _ => rfl, fun _ _ => rfl, rfl⟩
  | cons x rest ih =>
    intro h h2 e c as es hc hp ht hfresh hN hrun
    obtain ⟨h1, c1, hadd, hc1, hp1, ht1, hlenc, hlenl, hother, _, _⟩ :=
      ErrorChain.Add_spec x hc hp ht
    have hframe := ErrorChain.Add_links_frame hc hp ht hadd
    simp only [ErrorChain.AddAll, hadd] at hrun
    obtain ⟨hl2, hc2, hlen2⟩ := ih h1 h2 e c1 _ _ hc1 hp1 (by simp [ht1])
      (by
        intro a ha
        rcases List.mem_append.1 ha with ha | ha
        · exact hfresh a ha
        · simp only [List.mem_singleton] at ha
          omega)
      (by omega) hrun
    refine ⟨?_, ?_, hlen2.trans hlenc⟩
    · intro a ha
      rw [hl2 a ha]
      refine hframe a (by omega) ?_
      intro hcon
      have := hfresh a (List.mem_of_getLast?_eq_some hcon)
      omega
    · intro q hq
      rw [hc2 q hq, hother q hq]

/-- An answer of `errors.Is` in a heap where the chain at e is empty is its
answer in every heap that differs only in what that chain has become and in
further links: the walk that gave the answer read neither. -/
theorem errors.Is_frame_empty (e : Nat) : ∀ (fuel : Nat) (h h2 : Heap) (x t : error) (b : Bool),
    h.chains[e]? = some ⟨none, none⟩ →
    (∀ (a : Nat) (l : link), h.links[a]? = some l → h2.links[a]? = some l) →
    (∀ (q : Nat) (d : ErrorChain), q ≠ e → h.chains[q]? = some d → h2.chains[q]? = some d) →
    h2.chains.length = h.chains.length →
    errors.Is fuel h x t = .ok b → errors.Is fuel h2 x t = .ok b := by
  intro fuel
  induction fuel with
  | zero =>
    intro h h2 x t b _ _ _ _ hb
    cases x with
    | none => simpa [errors.Is] using hb
    | some g =>
      cases t with
      | none => simpa [errors.Is] using hb
      | some tg => simp [errors.Is] at hb
  | succ n ih =>
    intro h h2 x t b hempty hlinks hchains hlen hb
    cases x with
    | none => simpa [errors.Is] using hb
    | some g =>
      cases t with
      | none => simpa [errors.Is] using hb
      | some tg =>
        cases g with
        | errorString p s => simpa [errors.Is] using hb
        | testError p c => simpa [errors.Is] using hb
        | myError p c => simpa [errors.Is] using hb
        | wrapError p m inner =>
          rw [errors.Is] at hb ⊢
          split
          · rename_i hs; simpa [hs] using hb
          · rename_i hs
            simp only [hs] at hb
            exact ih h h2 _ _ b hempty hlinks hchains hlen hb
        | errorChain p =>
          rw [errors.Is_chain_step] at hb ⊢
          by_cases hs : (GoError.errorChain p).same tg = true
          · rw [if_pos hs] at hb ⊢; exact hb
          · rw [if_neg hs] at hb ⊢
            cases hc : h.chains[p]? with
            | none => simp [hc] at hb
            | some c =>
              simp only [hc] at hb
              have hpe : p ≠ e := by
                intro hcon
                subst hcon
                rw [hempty] at hc
                cases hc
                simp at hb
              simp only [hchains p c hpe hc]
              cases hh : c.head with
              | none => simp [hh] at hb
              | some a =>
                simp only [hh] at hb ⊢
                cases hl : h.links[a]? with
                | none => simp [hl] at hb
                | some l =>
                  simp only [hl] at hb
                  simp only [hlinks a l hl]
                  cases hi : errors.Is n h l.err (some tg) with
                  | error f => simp [hi] at hb
                  | ok r =>
                    rw [ih h h2 _ _ r hempty hlinks hchains hlen hi]
                    simp only [hi] at hb
                    cases r with
                    | true => simpa using hb
                    | false =>
                      simp only at hb ⊢
                      by_cases hn : l.next = none
                      · simpa [hn] using hb
                      · simp only [hn, if_false] at hb ⊢
                        rw [hlen]
                        have hel : e < h.chains.length := by
                          by_contra hcon
                          rw [List.getElem?_eq_none (by omega)] at hempty
                          cases hempty
                        refine ih { links := h.links, chains := h.chains ++ [⟨l.next, c.tail⟩] }
                          { links := h2.links, chains := h2.chains ++ [⟨l.next, c.tail⟩] }
                          _ _ b ?_ hlinks ?_ (by simp [hlen]) hb
                        · simp only
                          rw [List.getElem?_append_left hel]
                          exact hempty
                        · intro q d hq hd
                          simp only at hd ⊢
                          by_cases hql : q < h.chains.length
                          · rw [List.getElem?_append_left hql] at hd
                            rw [List.getElem?_append_left (by omega)]
                            exact hchains q d hq hd
                          · rw [List.getElem?_append_right (by omega)] at hd
                            rw [List.getElem?_append_right (by omega), hlen]
                            exact hd

/-- The answer of `errors.Is` on a chain built from an empty chain, for a
target that is not the chain itself: an answer comes when every element's own
match returns, and it is true iff some element matches. -/
theorem errors.Is_built {h h2 : Heap} {e : Nat} {es : List GoError} {t : GoError}
    (hempty : h.chains[e]? = some ⟨none, none⟩) (hne : es ≠ [])
    (hvalid : h.errsValid)
    (hes : ∀ x ∈ es, x.validBelow h.chains.length = true)
    (ht : t.validBelow h.chains.length = true)
    (hrun : ErrorChain.AddAll h e (es.map some) = .ok h2)
    (hsame : (GoError.errorChain e).same t = false)
    (hterm : ∀ x ∈ es, ∃ fuel b, errors.Is fuel h2 (some x) (some t) = .ok b) :
    ∃ n b, (∀ fuel, n ≤ fuel → errors.Is fuel h2 (some (.errorChain e)) (some t) = .ok b) ∧
      (b = true ↔ ∃ x ∈ es, ∃ fuel, errors.Is fuel h2 (some x) (some t) = .ok true) := by
  obtain ⟨h3, c2, bs, hrun3, hc2, hp2, _, hlen⟩ :=
    ErrorChain.AddAll_spec (es.map some) h e ⟨none, none⟩ [] [] hempty Chained.nil rfl
  rw [hrun] at hrun3
  cases hrun3
  simp only [List.nil_append] at hp2
  obtain ⟨hv2, hl2⟩ := ErrorChain.AddAll_errsValid (es.map some) h h2 e hvalid
    (by
      intro x hx
      obtain ⟨g, hg, rfl⟩ := List.mem_map.1 hx
      exact hes g hg) hrun
  have hbs : bs ≠ [] := by
    intro hcon
    rw [hcon] at hlen
    simp at hlen
    exact hne (List.length_eq_zero.1 hlen.symm)
  obtain ⟨n, b, hn, hiff⟩ := errors.Is_walk hv2 (by rw [hl2]; exact ht) hp2 hbs
    (by
      intro x hx
      obtain ⟨g, hg, rfl⟩ := List.mem_map.1 hx
      exact hterm g hg)
    h2 e c2 rfl (fun _ _ => rfl) (le_refl _) hc2 rfl hsame
  refine ⟨n, b, hn, ?_⟩
  rw [hiff]
  constructor
  · rintro ⟨x, hx, hm⟩
    obtain ⟨g, hg, rfl⟩ := List.mem_map.1 hx
    exact ⟨g, hg, hm⟩
  · rintro ⟨g, hg, hm⟩
    exact ⟨some g, List.mem_map.2 ⟨g, hg, rfl⟩, hm⟩

/-! ## Matches across an `Add` -/

/-- A fault other than the end of the fuel stays with more fuel. -/
theorem errors.Is_fault_mono : ∀ (fuel : Nat) (h : Heap) (x t : error) (f : Fault),
    f ≠ .outOfFuel → errors.Is fuel h x t = .error f → errors.Is (fuel + 1) h x t = .error f := by
  intro fuel
  induction fuel with
  | zero =>
    intro h x t f hf hb
    cases x with
    | none => simp [errors.Is] at hb
    | some g =>
      cases t with
      | none => simp [errors.Is] at hb
      | some tg =>
        simp only [errors.Is, Except.error.injEq] at hb
        exact absurd hb.symm hf
  | succ n ih =>
    intro h x t f hf hb
    cases x with
    | none => simp [errors.Is] at hb
    | some g =>
      cases t with
      | none => simp [errors.Is] at hb
      | some tg =>
        cases g with
        | errorString p s =>
          simp only [errors.Is] at hb
          split at hb <;> cases hb
        | testError p c =>
          simp only [errors.Is] at hb
          split at hb <;> cases hb
        | myError p c =>
          simp only [errors.Is] at hb
          split at hb <;> cases hb
        | wrapError p m inner =>
          rw [errors.Is] at hb ⊢
          split
          · rename_i hs; simp [hs] at hb
          · rename_i hs
            simp only [hs] at hb
            exact ih _ _ _ _ hf hb
        | errorChain p =>
          rw [errors.Is_chain_step] at hb ⊢
          split
          · rename_i hs; simp [hs] at hb
          · rename_i hs
            simp only [hs] at hb
            cases hc : h.chains[p]? with
            | none => simpa [hc] using hb
            | some c =>
              simp only [hc] at hb ⊢
              cases hh : c.head with
              | none => simpa [hh] using hb
              | some a =>
                simp only [hh] at hb ⊢
                cases hl : h.links[a]? with
                | none => simpa [hl] using hb
                | some l =>
                  simp only [hl] at hb ⊢
                  cases hi : errors.Is n h l.err (some tg) with
                  | error f2 =>
                    simp only [hi, Except.error.injEq] at hb
                    cases hb
                    rw [ih _ _ _ _ hf hi]
                  | ok r =>
                    rw [errors.Is_mono _ _ _ _ _ hi]
                    simp only [hi] at hb
                    cases r with
                    | true => simp at hb
                    | false =>
                      simp only at hb ⊢
                      by_cases hn : l.next = none
                      · simp [hn] at hb
                      · simp only [hn, if_false] at hb ⊢
                        exact ih _ _ _ _ hf hb

theorem errors.Is_fault_le {fuel fuel2 : Nat} {h : Heap} {x t : error} {f : Fault}
    (hf : f ≠ .outOfFuel) (hb : errors.Is fuel h x t = .error f) (hle : fuel ≤ fuel2) :
    errors.Is fuel2 h x t = .error f := by
  induction hle with
  | refl => exact hb
  | step _ ih => exact errors.Is_fault_mono _ _ _ _ _ hf ih

/-- A match that faults with some fuel, not for the lack of it, is true with no fuel. -/
theorem errors.Is_never_of_fault {fuel : Nat} {h : Heap} {x t : error} {f : Fault}
    (hf : f ≠ .outOfFuel) (hb : errors.Is fuel h x t = .error f) :
    ¬ ∃ fuel2, errors.Is fuel2 h x t = .ok true := by
  rintro ⟨fuel2, h2⟩
  have e1 := errors.Is_fault_le hf hb (le_max_left fuel fuel2)
  have e2 := errors.Is_mono_le h2 (le_max_right fuel fuel2)
  rw [e1] at e2
  cases e2

/-- The link that `Add` allocates holds the error and has no next. -/
theorem ErrorChain.Add_new_at {h h2 : Heap} {e : Nat} {c : ErrorChain} {as : List Nat}
    {es : List error} {x : error} (hc : h.chains[e]? = some c)
    (hp : Chained h.links c.head as es) (ht : c.tail = as.getLast?)
    (hadd : ErrorChain.Add h e x = .ok h2) :
    h2.links[h.links.length]? = some ⟨x, none⟩ := by
  by_cases hh : c.head = none
  · rw [ErrorChain.Add_empty x hc hh] at hadd
    cases hadd
    simp
  · have has : as ≠ [] := fun hcon => hh (hp.next_of_cons.1 hcon)
    obtain ⟨t, htl⟩ : ∃ t, as.getLast? = some t := by
      cases hlast : as.getLast? with
      | none => exact absurd (List.getLast?_eq_none_iff.1 hlast) has
      | some t => exact ⟨t, rfl⟩
    obtain ⟨lt, hlt, _⟩ := hp.last_next t htl
    rw [ErrorChain.Add_nonempty x hc hh (ht.trans htl) hlt] at hadd
    cases hadd
    have htlt : t < h.links.length := by
      by_contra hcon
      rw [List.getElem?_eq_none (by omega)] at hlt
      cases hlt
    simp only
    rw [List.getElem?_set_ne (by omega)]
    simp

/-- When the match of the added error x returns in the heap hA after the `Add`,
a match that returns before the `Add` returns after it, and a true one stays
true.  The heap k2 is the heap k after the `Add`: a link of k is the same in
k2 or had a nil `next` that now points to the new link n, which holds x; both
heaps are extended by the chain objects of the same walk. -/
theorem errors.Is_sim_add {hA : Heap} {x : error} {t : GoError} {n fx : Nat} {bx : Bool}
    (hvalid : hA.errsValid) (ht : t.validBelow hA.chains.length = true)
    (hxv : error.validBelow hA.chains.length x = true)
    (hn : hA.links[n]? = some ⟨x, none⟩)
    (hx : errors.Is fx hA x (some t) = .ok bx) :
    ∀ (fuel : Nat) (k k2 : Heap) (y : error) (b : Bool),
      (∀ (a : Nat) (l : link), k.links[a]? = some l →
        k2.links[a]? = some l ∨ (l.next = none ∧ k2.links[a]? = some ⟨l.err, some n⟩)) →
      (∀ (q : Nat) (d : ErrorChain), k.chains[q]? = some d →
        ∃ d2, k2.chains[q]? = some d2 ∧ d2.head = d.head) →
      k2.chains.length = k.chains.length →
      k2.links = hA.links →
      (∀ r, r < hA.chains.length → hA.chains[r]? = k2.chains[r]?) →
      hA.chains.length ≤ k2.chains.length →
      errors.Is fuel k y (some t) = .ok b →
      ∃ f2 b2, errors.Is f2 k2 y (some t) = .ok b2 ∧ (b = true → b2 = true) := by
  intro fuel
  induction fuel with
  | zero =>
    intro k k2 y b _ _ _ _ _ _ hb
    cases y with
    | none => exact ⟨0, b, by simpa [errors.Is] using hb, id⟩
    | some g => simp [errors.Is] at hb
  | succ m ih =>
    intro k k2 y b hlinks hchains hlen hl2 hagree hle hb
    cases y with
    | none => exact ⟨0, b, by simpa [errors.Is] using hb, id⟩
    | some g =>
      cases g with
      | errorString p s =>
        exact ⟨m + 1, b, by simpa [errors.Is] using hb, id⟩
      | testError p code =>
        exact ⟨m + 1, b, by simpa [errors.Is] using hb, id⟩
      | myError p code =>
        exact ⟨m + 1, b, by simpa [errors.Is] using hb, id⟩
      | wrapError p msg inner =>
        rw [errors.Is] at hb
        by_cases hs : (GoError.wrapError p msg inner).same t = true
        · refine ⟨1, true, ?_, fun _ => rfl⟩
          rw [errors.Is, if_pos hs]
        · rw [if_neg hs] at hb
          obtain ⟨f2, b2, hb2, himp⟩ := ih k k2 (some inner) b hlinks hchains hlen hl2 hagree hle hb
          refine ⟨f2 + 1, b2, ?_, himp⟩
          rw [errors.Is, if_neg hs]
          exact hb2
      | errorChain p =>
        rw [errors.Is_chain_step] at hb
        by_cases hs : (GoError.errorChain p).same t = true
        · refine ⟨1, true, ?_, fun _ => rfl⟩
          rw [errors.Is_chain_step, if_pos hs]
        · rw [if_neg hs] at hb
          cases hd : k.chains[p]? with
          | none => simp [hd] at hb
          | some d =>
            simp only [hd] at hb
            cases hh : d.head with
            | none => simp [hh] at hb
            | some a =>
              simp only [hh] at hb
              cases hl : k.links[a]? with
              | none => simp [hl] at hb
              | some l =>
                simp only [hl] at hb
                obtain ⟨d2, hd2, hh2⟩ := hchains p d hd
                rw [hh] at hh2
                cases hi : errors.Is m k l.err (some t) with
                | error f => simp [hi] at hb
                | ok r =>
                  obtain ⟨f1, r2, hr2, himp1⟩ :=
                    ih k k2 l.err r hlinks hchains hlen hl2 hagree hle hi
                  cases r2 with
                  | true =>
                    refine ⟨f1 + 1, true, ?_, fun _ => rfl⟩
                    rw [errors.Is_chain_step, if_neg hs]
                    rcases hlinks a l hl with hk2 | ⟨_, hk2⟩
                    · simp only [hd2, hh2, hk2, hr2]
                    · simp only [hd2, hh2, hk2, hr2]
                  | false =>
                    have hrf : r = false := by
                      cases r with
                      | false => rfl
                      | true => exact absurd (himp1 rfl) (by decide)
                    subst hrf
                    simp only [hi] at hb
                    rcases hlinks a l hl with hk2 | ⟨hnone, hk2⟩
                    · by_cases hnx : l.next = none
                      · rw [if_pos hnx] at hb
                        refine ⟨f1 + 1, false, ?_, ?_⟩
                        · rw [errors.Is_chain_step, if_neg hs]
                          simp only [hd2, hh2, hk2, hr2, if_pos hnx]
                        · intro hbt
                          cases hb
                          exact hbt
                      · rw [if_neg hnx] at hb
                        obtain ⟨f2, b2, hb2, himp⟩ := ih
                          { links := k.links, chains := k.chains ++ [⟨l.next, d.tail⟩] }
                          { links := k2.links, chains := k2.chains ++ [⟨l.next, d2.tail⟩] }
                          (some (.errorChain k.chains.length)) b hlinks
                          (by
                            intro q dq hq
                            by_cases hql : q < k.chains.length
                            · simp only [List.getElem?_append_left hql] at hq
                              obtain ⟨d3, hd3, hh3⟩ := hchains q dq hq
                              refine ⟨d3, ?_, hh3⟩
                              simp only [List.getElem?_append_left (by omega : q < k2.chains.length)]
                              exact hd3
                            · have hqe : q = k.chains.length := by
                                by_contra hcon
                                simp only at hq
                                rw [List.getElem?_eq_none (by simp; omega)] at hq
                                cases hq
                              subst hqe
                              simp only [List.getElem?_concat_length, Option.some.injEq] at hq
                              subst hq
                              refine ⟨⟨l.next, d2.tail⟩, ?_, rfl⟩
                              simp only [← hlen, List.getElem?_concat_length])
                          (by simp [hlen]) hl2
                          (by
                            intro r hr
                            simp only [List.getElem?_append_left (by omega : r < k2.chains.length)]
                            exact hagree r hr)
                          (by simp; omega) hb
                        refine ⟨max f1 f2 + 1, b2, ?_, himp⟩
                        rw [errors.Is_chain_step, if_neg hs]
                        simp only [hd2, hh2, hk2, errors.Is_mono_le hr2 (le_max_left f1 f2),
                          if_neg hnx, hlen]
                        exact errors.Is_mono_le hb2 (le_max_right f1 f2)
                    · rw [if_pos hnone] at hb
                      cases hb
                      refine ⟨max f1 (fx + 1) + 1, bx, ?_, fun hcon => absurd hcon (by decide)⟩
                      rw [errors.Is_chain_step, if_neg hs]
                      simp only [hd2, hh2, hk2, errors.Is_mono_le hr2 (le_max_left f1 (fx + 1))]
                      rw [if_neg (by simp)]
                      refine errors.Is_mono_le ?_ (le_max_right f1 (fx + 1))
                      rw [errors.Is_chain_step,
                        if_neg (by
                          rw [GoError.same_chain_of_validBelow ht hle]
                          decide)]
                      have hxk : errors.Is fx
                          { links := k2.links, chains := k2.chains ++ [⟨some n, d2.tail⟩] } x
                          (some t) = .ok bx :=
                        errors.Is_extend hvalid ht hxv hl2
                          (by
                            intro r hr
                            simp only [List.getElem?_append_left (by omega : r < k2.chains.length)]
                            exact hagree r hr)
                          (by simp; omega) hx
                      rw [hl2] at hxk
                      simp only [List.getElem?_concat_length, hl2, hn, hxk]
                      cases bx <;> simp

/-! ## The links an error reaches -/

/-- The links that the chain returned by `Unwrap` reaches are links that the
error reached before the call. -/
theorem Reaches.of_unwrap {links : List link} {chains : List ErrorChain} {N : Nat}
    (hvalid : ∀ l ∈ links, error.validBelow N l.err = true) (hN : N ≤ chains.length)
    {g : GoError} {a a2 : Nat} {l : link} {tl : Option Nat}
    (hg : Reaches ⟨links, chains⟩ g a) (hl : links[a]? = some l) (hn : l.next = some a2)
    {g2 : GoError} {b : Nat}
    (hr : Reaches ⟨links, chains ++ [⟨some a2, tl⟩]⟩ g2 b) :
    (g2.validBelow N = true → Reaches ⟨links, chains⟩ g2 b) ∧
    (g2 = .errorChain chains.length → Reaches ⟨links, chains⟩ g b) := by
  induction hr with
  | @wrap p msg inner a3 _ ih =>
    refine ⟨?_, ?_⟩
    · intro hv
      simp only [GoError.validBelow] at hv
      exact Reaches.wrap (ih.1 hv)
    · intro hcon
      cases hcon
  | @head p c a3 hc hh =>
    simp only at hc
    refine ⟨?_, ?_⟩
    · intro hv
      simp only [GoError.validBelow, decide_eq_true_eq] at hv
      rw [List.getElem?_append_left (by omega)] at hc
      exact Reaches.head hc hh
    · intro hcon
      cases hcon
      rw [List.getElem?_concat_length] at hc
      cases hc
      simp only [Option.some.injEq] at hh
      subst hh
      exact Reaches.next hg hl hn
  | @next g3 a3 b3 l3 _ hl3 hn3 ih =>
    exact ⟨fun hv => Reaches.next (ih.1 hv) hl3 hn3,
      fun hcon => Reaches.next (ih.2 hcon) hl3 hn3⟩
  | @stored g3 g4 a3 b3 l3 _ hl3 he3 _ ih1 ih2 =>
    have hv4 : g4.validBelow N = true := by
      have := hvalid l3 (List.getElem?_mem hl3)
      rw [he3] at this
      exact this
    exact ⟨fun hv => Reaches.stored (ih1.1 hv) hl3 he3 (ih2.1 hv4),
      fun hcon => Reaches.stored (ih1.2 hcon) hl3 he3 (ih2.1 hv4)⟩

/-- The result of `errors.Is` depends only on the links that the error reaches:
a heap with the same chain objects and the same links at those addresses gives
the same result, fault or not. -/
theorem errors.Is_frame_reaches {links links2 : List link} {N : Nat}
    (hvalid : ∀ l ∈ links, error.validBelow N l.err = true) :
    ∀ (fuel : Nat) (chains : List ErrorChain) (g t : GoError), N ≤ chains.length →
      (∀ a, Reaches ⟨links, chains⟩ g a → links2[a]? = links[a]?) →
      errors.Is fuel ⟨links2, chains⟩ (some g) (some t) =
        errors.Is fuel ⟨links, chains⟩ (some g) (some t) := by
  intro fuel
  induction fuel with
  | zero =>
    intro chains g t _ _
    simp [errors.Is]
  | succ n ih =>
    intro chains g t hN hag
    cases g with
    | errorString p s => simp [errors.Is]
    | testError p code => simp [errors.Is]
    | myError p code => simp [errors.Is]
    | wrapError p msg inner =>
      rw [errors.Is, errors.Is]
      rw [ih chains inner t hN (fun a ha => hag a (Reaches.wrap ha))]
    | errorChain p =>
      rw [errors.Is_chain_step, errors.Is_chain_step]
      simp only
      cases hc : chains[p]? with
      | none => rfl
      | some c =>
        simp only
        cases hh : c.head with
        | none => rfl
        | some a =>
          simp only
          have hra : Reaches ⟨links, chains⟩ (.errorChain p) a := Reaches.head hc hh
          rw [hag a hra]
          cases hl : links[a]? with
          | none => rfl
          | some l =>
            simp only
            have hnested : errors.Is n ⟨links2, chains⟩ l.err (some t) =
                errors.Is n ⟨links, chains⟩ l.err (some t) := by
              cases he : l.err with
              | none => simp [errors.Is]
              | some g2 =>
                exact ih chains g2 t hN
                  (fun b hb => hag b (Reaches.stored hra hl he hb))
            rw [hnested]
            cases hnx : l.next with
            | none => rfl
            | some a2 =>
              have hcont := ih (chains ++ [⟨some a2, c.tail⟩]) (.errorChain chains.length) t
                (by simp; omega)
                (fun b hb => hag b
                  ((Reaches.of_unwrap hvalid hN hra hl hnx hb).2 rfl))
              simp only [hcont]

/-- An error that holds no chain reaches no link. -/
theorem Reaches.not_plain {h : Heap} {g : GoError} {b : Nat} (hr : Reaches h g b) :
    g.plain = false := by
  induction hr with
  | wrap _ ih => simpa [GoError.plain] using ih
  | head _ _ => rfl
  | next _ _ _ ih => exact ih
  | stored _ _ _ _ ih _ => exact ih

/-! ## The claims -/

/-- C1: starting from an empty `ErrorChain` and calling `Add(e1)`, ..., `Add(en)`
in this order, every call succeeds and `Errors()` then returns exactly
`[e1, ..., en]`: same length, same elements (duplicates and nil included), in
the order of the calls.  It holds for every n, so for every n ≥ 1. -/
theorem ErrorChain.errors_after_adds (h : Heap) (e : Nat) (es : List error)
    (hempty : h.chains[e]? = some ⟨none, none⟩) :
    ∃ h2, ErrorChain.AddAll h e es = .ok h2 ∧ ErrorChain.Errors h2 e = .ok es := by
  obtain ⟨h2, c2, bs, hrun, hc2, hp2, _, _⟩ :=
    ErrorChain.AddAll_spec es h e ⟨none, none⟩ [] [] hempty Chained.nil rfl
  exact ⟨h2, hrun, ErrorChain.Errors_of_chained hc2 (by simpa using hp2)⟩

/-- C1 at a concrete input: three calls of `Add`, the first error added twice. -/
theorem ErrorChain.errors_after_adds_witness :
    ∃ h2, ErrorChain.AddAll Heap.fresh 0
        [some (.errorString 1 "1"), some (.errorString 2 "2"), some (.errorString 1 "1")] =
          .ok h2 ∧
      ErrorChain.Errors h2 0 =
        .ok [some (.errorString 1 "1"), some (.errorString 2 "2"), some (.errorString 1 "1")] :=
  ErrorChain.errors_after_adds Heap.fresh 0 _ (by decide)

/-- C2 as stated fails when the target is the chain itself: for the chain built
by `Add(errors.New("1"))`, `errors.Is(chain, chain)` is true by the identity
comparison of its first step, and `errors.Is(e1, chain)` is true for no fuel. -/
theorem errors.Is_chain_itself_counterexample : ∃ h,
    ErrorChain.AddAll Heap.fresh 0 [some (.errorString 1 "1")] = .ok h ∧
    errors.Is 2 h (some (.errorChain 0)) (some (.errorChain 0)) = .ok true ∧
    ¬ ∃ fuel, errors.Is fuel h (some (.errorString 1 "1")) (some (.errorChain 0)) = .ok true := by
  refine ⟨_, rfl, by decide, ?_⟩
  rintro ⟨fuel, hf⟩
  cases fuel <;> simp [errors.Is, GoError.same] at hf

/-- C2, amended: for the chain built from an empty chain by appending the
non-nil errors e1..en (n ≥ 1), in a heap without dangling chain pointers, and
for every target that is not the chain itself, if `errors.Is(ei, target)`
returns for every i then `errors.Is(chain, target)` returns, with every large
enough fuel, and it returns true iff `errors.Is(ei, target)` is true for some i
(which covers an ei that wraps the target through its own `Unwrap`). -/
theorem errors.Is_chain_iff_some_element (h : Heap) (e : Nat) (es : List GoError)
    (target : error) (h2 : Heap)
    (hempty : h.chains[e]? = some ⟨none, none⟩) (hne : es ≠ [])
    (hvalid : h.errsValid)
    (hes : ∀ x ∈ es, x.validBelow h.chains.length = true)
    (ht : error.validBelow h.chains.length target = true)
    (hrun : ErrorChain.AddAll h e (es.map some) = .ok h2)
    (hself : target ≠ some (.errorChain e))
    (hterm : ∀ x ∈ es, ∃ fuel b, errors.Is fuel h2 (some x) target = .ok b) :
    ∃ n b, (∀ fuel, n ≤ fuel → errors.Is fuel h2 (some (.errorChain e)) target = .ok b) ∧
      (b = true ↔ ∃ x ∈ es, ∃ fuel, errors.Is fuel h2 (some x) target = .ok true) := by
  obtain ⟨h3, c2, bs, hrun3, hc2, hp2, _, hlen⟩ :=
    ErrorChain.AddAll_spec (es.map some) h e ⟨none, none⟩ [] [] hempty Chained.nil rfl
  rw [hrun] at hrun3
  cases hrun3
  simp only [List.nil_append] at hp2
  obtain ⟨hv2, hl2⟩ := ErrorChain.AddAll_errsValid (es.map some) h h2 e hvalid
    (by
      intro x hx
      obtain ⟨g, hg, rfl⟩ := List.mem_map.1 hx
      exact hes g hg) hrun
  cases target with
  | none =>
    refine ⟨1, false, ?_, ?_⟩
    · intro fuel _
      cases fuel <;> simp [errors.Is]
    · simp only [Bool.false_eq_true, false_iff, not_exists, not_and]
      intro x _ fuel
      cases fuel <;> simp [errors.Is]
  | some t =>
    have hbs : bs ≠ [] := by
      intro hcon
      rw [hcon] at hlen
      simp at hlen
      exact hne (List.length_eq_zero.1 hlen.symm)
    have hsame : (GoError.errorChain e).same t = false := by
      cases t with
      | errorChain q =>
        simp only [GoError.same, beq_eq_false_iff_ne, ne_eq]
        intro hcon
        exact hself (by rw [hcon])
      | _ => rfl
    obtain ⟨n, b, hn, hiff⟩ := errors.Is_walk hv2 (by rw [hl2]; exact ht) hp2 hbs
      (by
        intro x hx
        obtain ⟨g, hg, rfl⟩ := List.mem_map.1 hx
        exact hterm g hg)
      h2 e c2 rfl (fun _ _ => rfl) (le_refl _) hc2 rfl hsame
    refine ⟨n, b, hn, ?_⟩
    rw [hiff]
    constructor
    · rintro ⟨x, hx, hm⟩
      obtain ⟨g, hg, rfl⟩ := List.mem_map.1 hx
      exact ⟨g, hg, hm⟩
    · rintro ⟨g, hg, hm⟩
      exact ⟨some g, List.mem_map.2 ⟨g, hg, rfl⟩, hm⟩

/-- C2, amended, at the chain of _example/main.go with the target
`&myError{code: 12}`. -/
theorem errors.Is_chain_iff_some_element_witness :
    ∃ n b, (∀ fuel, n ≤ fuel →
        errors.Is fuel exampleHeap (some (.errorChain 0)) (some (.myError 4 12)) = .ok b) ∧
      (b = true ↔ ∃ x ∈ [GoError.errorString 1 "some error",
          GoError.wrapError 2 "wrap it up 12" (.myError 3 12)],
        ∃ fuel, errors.Is fuel exampleHeap (some x) (some (.myError 4 12)) = .ok true) :=
  errors.Is_chain_iff_some_element Heap.fresh 0
    [.errorString 1 "some error", .wrapError 2 "wrap it up 12" (.myError 3 12)]
    (some (.myError 4 12)) exampleHeap (by decide) (by decide) (by decide) (by decide)
    (by decide) (by decide) (by decide)
    (by
      intro x hx
      simp only [List.mem_cons, List.mem_singleton, List.not_mem_nil, or_false] at hx
      rcases hx with rfl | rfl
      · exact ⟨2, false, by decide⟩
      · exact ⟨2, true, by decide⟩)

/-- C3: for a chain holding e1..en (n ≥ 1), the walk that calls `Unwrap()` again
and again returns n-1 chains and then nil, and the chain returned by the k-th
call (1 ≤ k ≤ n-1) has `Errors()` equal to `[e(k+1), ..., en]`. -/
theorem ErrorChain.unwrap_walk_yields_suffixes (h : Heap) (e : Nat) (es : List error)
    (hE : ErrorChain.Errors h e = .ok es) (hne : es ≠ []) :
    ∃ qs h2, (∀ fuel, es.length ≤ fuel → ErrorChain.unwrapAll fuel h e = .ok (qs, h2)) ∧
      qs.length = es.length - 1 ∧
      ∀ k, k < qs.length → ∃ q, qs[k]? = some q ∧
        ErrorChain.Errors h2 q = .ok (es.drop (k + 1)) := by
  obtain ⟨c, as, hc, hp⟩ := ErrorChain.chained_of_Errors hE
  have hlen := hp.length_eq
  have has : as ≠ [] := by
    intro hcon
    rw [hcon] at hlen
    exact hne (by simpa using hlen)
  obtain ⟨qs, h2, hrun, hlinks, _, hql, hk⟩ := ErrorChain.unwrapAll_spec as es h e c hc hp has
  refine ⟨qs, h2, ?_, by omega, ?_⟩
  · intro fuel hf
    exact hrun fuel (by omega)
  · intro k hklt
    obtain ⟨q, ck, hq, hck, hch, _⟩ := hk k hklt
    exact ⟨q, hq, ErrorChain.Errors_of_chained hck (by rw [hlinks]; exact hch)⟩

/-- C3 at the scenario `[A, B, C]`. -/
theorem ErrorChain.unwrap_walk_yields_suffixes_witness :
    ∃ qs h2, (∀ fuel, 3 ≤ fuel → ErrorChain.unwrapAll fuel abcHeap 0 = .ok (qs, h2)) ∧
      qs.length = 2 ∧
      ∀ k, k < qs.length → ∃ q, qs[k]? = some q ∧
        ErrorChain.Errors h2 q =
          .ok (([some (.errorString 1 "A"), some (.errorString 2 "B"),
            some (.errorString 3 "C")] : List error).drop (k + 1)) :=
  ErrorChain.unwrap_walk_yields_suffixes abcHeap 0
    [some (.errorString 1 "A"), some (.errorString 2 "B"), some (.errorString 3 "C")]
    (by decide) (by decide)

/-- C4 as stated fails on "it does not depend on any non-head link": when the
head error is a chain g that holds a chain returned by the receiver's
`Unwrap` (`g.Add(A)`, `c.Add(g)`, `c.Add(B)`, `v := c.Unwrap()`, `g.Add(v)`),
`c.Is(&testError{code: 7})` walks g and reaches the second link of c.  With the
same chain objects and the same head link it is true when B is
`&testError{code: 7}` and false when B is `&testError{code: 8}`. -/
theorem ErrorChain.Is_head_counterexample :
    Op.runAll Heap.empty [.new, .new, .add 1 (some (.errorString 1 "A")),
      .add 0 (some (.errorChain 1)), .add 0 (some (.testError 2 7)), .unwrap 0,
      .add 1 (some (.errorChain 2))] = .ok (viewInsideHeap 7) ∧
    Op.runAll Heap.empty [.new, .new, .add 1 (some (.errorString 1 "A")),
      .add 0 (some (.errorChain 1)), .add 0 (some (.testError 2 8)), .unwrap 0,
      .add 1 (some (.errorChain 2))] = .ok (viewInsideHeap 8) ∧
    (viewInsideHeap 7).chains = (viewInsideHeap 8).chains ∧
    (viewInsideHeap 7).chains[0]? = some ⟨some 1, some 2⟩ ∧
    (viewInsideHeap 7).links[1]? = some ⟨some (.errorChain 1), some 2⟩ ∧
    (viewInsideHeap 8).links[1]? = some ⟨some (.errorChain 1), some 2⟩ ∧
    (∀ a : Nat, a ≠ 2 → (viewInsideHeap 7).links[a]? = (viewInsideHeap 8).links[a]?) ∧
    (∀ fuel, 4 ≤ fuel →
      ErrorChain.Is (errors.Is fuel) (viewInsideHeap 7) 0 (some (.testError 9 7)) = .ok true) ∧
    (∀ fuel, 4 ≤ fuel →
      ErrorChain.Is (errors.Is fuel) (viewInsideHeap 8) 0 (some (.testError 9 7)) = .ok false) := by
  refine ⟨by decide, by decide, rfl, by decide, by decide, by decide, ?_, ?_, ?_⟩
  · intro a ha
    match a with
    | 0 => rfl
    | 1 => rfl
    | 2 => exact absurd rfl ha
    | 3 => rfl
    | n + 4 => rfl
  · intro fuel hfuel
    have h4 : errors.Is 4 (viewInsideHeap 7) (some (.errorChain 1)) (some (.testError 9 7)) =
        .ok true := by decide
    simpa [ErrorChain.Is, Heap.chain, Heap.link, viewInsideHeap] using
      errors.Is_mono_le h4 hfuel
  · intro fuel hfuel
    have h4 : errors.Is 4 (viewInsideHeap 8) (some (.errorChain 1)) (some (.testError 9 7)) =
        .ok false := by decide
    simpa [ErrorChain.Is, Heap.chain, Heap.link, viewInsideHeap] using
      errors.Is_mono_le h4 hfuel

/-- C4, amended: on a non-empty chain, `Is(target)` is
`errors.Is(head error, target)`, with the same fuel and for every target.  When
the head error holds no chain the answer is the match of the specification (the
head error or an error reached from it through its own `Unwrap` is the target
itself or accepts it with its own `Is` method), and any two chains with that
head error, in any two heaps, give the same answer.  For every head error, in a
heap whose stored chain pointers are allocated, the answer depends on no link
other than the head link and the links that the head error reaches
(`Reaches`): with any other links in their place it is the same.  When the
head error or the target is nil, the answer is true exactly when both are (the
identity comparison of `errors.Is`). -/
theorem ErrorChain.Is_eq_errorsIs_head (h : Heap) (e : Nat) (c : ErrorChain) (a : Nat)
    (l : link) (hc : h.chains[e]? = some c) (hh : c.head = some a)
    (hl : h.links[a]? = some l) :
    (∀ (fuel : Nat) (target : error),
        ErrorChain.Is (errors.Is fuel) h e target = errors.Is fuel h l.err target) ∧
    (∀ (x t : GoError), l.err = some x → x.plain = true →
        ∀ fuel, x.causes.length ≤ fuel →
          ErrorChain.Is (errors.Is fuel) h e (some t) = .ok (x.matchesTarget t)) ∧
    (∀ (x : GoError), l.err = some x → x.plain = true →
        ∀ (h2 : Heap) (e2 : Nat) (c2 : ErrorChain) (a2 : Nat) (l2 : link),
          h2.chains[e2]? = some c2 → c2.head = some a2 → h2.links[a2]? = some l2 →
          l2.err = some x →
          ∀ (fuel : Nat) (target : error),
            ErrorChain.Is (errors.Is fuel) h2 e2 target =
              ErrorChain.Is (errors.Is fuel) h e target) ∧
    (h.errsValid → ∀ (links2 : List link), links2[a]? = some l →
        (∀ (x : GoError) (b : Nat), l.err = some x → Reaches h x b →
          links2[b]? = h.links[b]?) →
        ∀ (fuel : Nat) (target : error),
          ErrorChain.Is (errors.Is fuel) ⟨links2, h.chains⟩ e target =
            ErrorChain.Is (errors.Is fuel) h e target) ∧
    (∀ (fuel : Nat) (target : error), l.err = none ∨ target = none →
        ErrorChain.Is (errors.Is fuel) h e target =
          .ok (decide (l.err = none ∧ target = none))) := by
  have h1 : ∀ (hp : Heap) (ep : Nat) (cp : ErrorChain) (ap : Nat) (lp : link),
      hp.chains[ep]? = some cp → cp.head = some ap → hp.links[ap]? = some lp →
      ∀ (fuel : Nat) (target : error),
        ErrorChain.Is (errors.Is fuel) hp ep target = errors.Is fuel hp lp.err target := by
    intro hp ep cp ap lp hcp hhp hlp fuel target
    simp [ErrorChain.Is, Heap.chain, Heap.link, hcp, hhp, hlp]
  refine ⟨h1 h e c a l hc hh hl, ?_, ?_, ?_, ?_⟩
  · intro x t hx hpl fuel hf
    rw [h1 h e c a l hc hh hl, hx]
    exact errors.Is_plain h t x hpl fuel hf
  · intro x hx hpl h2 e2 c2 a2 l2 hc2 hh2 hl2 hx2 fuel target
    rw [h1 h e c a l hc hh hl, h1 h2 e2 c2 a2 l2 hc2 hh2 hl2, hx, hx2]
    exact errors.Is_plain_heap h2 h target fuel x hpl
  · intro hvalid links2 hl2 hag fuel target
    rw [h1 h e c a l hc hh hl, h1 ⟨links2, h.chains⟩ e c a l hc hh hl2]
    cases hx : l.err with
    | none => cases fuel <;> simp [errors.Is]
    | some x =>
      cases target with
      | none => cases fuel <;> simp [errors.Is]
      | some t =>
        exact errors.Is_frame_reaches hvalid fuel h.chains x t (le_refl _)
          (fun b hb => hag x b hx hb)
  · intro fuel target hnil
    rw [h1 h e c a l hc hh hl]
    cases hx : l.err with
    | none => cases target <;> cases fuel <;> simp [errors.Is]
    | some x =>
      rcases hnil with hn | hn
      · rw [hx] at hn
        cases hn
      · subst hn
        cases fuel <;> simp [errors.Is]

/-- C4, amended, at the test case "Simple wrapped": the single-link chain
matches `&testError{code: 1}` one wrap level down; and at a chain whose head
error is a chain with a link of its own: whatever the second link of the
receiver is, `Is` gives the same answer. -/
theorem ErrorChain.Is_eq_errorsIs_head_witness :
    ErrorChain.Is (errors.Is 2) wrappedHeap 0 (some (.testError 3 1)) = .ok true ∧
    ∀ (l2 : link) (fuel : Nat) (target : error),
      ErrorChain.Is (errors.Is fuel)
          ⟨[⟨some (.errorString 1 "A"), none⟩, ⟨some (.errorChain 1), some 2⟩, l2],
            chainHeadHeap.chains⟩ 0 target =
        ErrorChain.Is (errors.Is fuel) chainHeadHeap 0 target :=
  ⟨(ErrorChain.Is_eq_errorsIs_head wrappedHeap 0 ⟨some 0, none⟩ 0
    ⟨some (.wrapError 1 "test wrap 1" (.testError 2 1)), none⟩ (by decide) (by decide)
    (by decide)).2.1 (.wrapError 1 "test wrap 1" (.testError 2 1)) (.testError 3 1) rfl
    (by decide) 2 (by decide),
  fun l2 => (ErrorChain.Is_eq_errorsIs_head chainHeadHeap 0 ⟨some 1, some 2⟩ 1
    ⟨some (.errorChain 1), some 2⟩ (by decide) (by decide) (by decide)).2.2.2.1 (by decide)
    [⟨some (.errorString 1 "A"), none⟩, ⟨some (.errorChain 1), some 2⟩, l2] rfl
    (by
      intro x b hx hr
      simp only [Option.some.injEq] at hx
      subst hx
      have hb : b = 0 := by
        generalize hg : GoError.errorChain 1 = g at hr
        induction hr with
        | wrap _ _ => cases hg
        | @head p c a hc hh =>
          cases hg
          simp only [chainHeadHeap, List.getElem?_cons_succ, List.getElem?_cons_zero,
            Option.some.injEq] at hc
          subst hc
          simp only [Option.some.injEq] at hh
          exact hh.symm
        | @next g a b l _ hl hn ih =>
          have ha := ih hg
          subst ha
          simp only [chainHeadHeap, List.getElem?_cons_zero, Option.some.injEq] at hl
          subst hl
          cases hn
        | @stored g g2 a b l _ hl he hr2 ih _ =>
          have ha := ih hg
          subst ha
          simp only [chainHeadHeap, List.getElem?_cons_zero, Option.some.injEq] at hl
          subst hl
          simp only [Option.some.injEq] at he
          subst he
          exact absurd hr2.not_plain (by decide)
      subst hb
      rfl)⟩

/-- C5: on a non-empty chain `Error()` is the `Error()` of the head error, and
any number of further calls of `Add` on the chain leaves it unchanged: the calls
succeed, and whatever string `Error()` returned before, it returns after.  The
tail of the chain is set, as it is on every chain that the public operations
build (`Heap.tailsSet_runAll`: `Add` sets head and tail together and `Unwrap`
copies the tail). -/
theorem ErrorChain.Error_eq_head_Error (h : Heap) (e : Nat) (c : ErrorChain) (a t : Nat)
    (l lt : link) (hc : h.chains[e]? = some c) (hh : c.head = some a)
    (hl : h.links[a]? = some l) (ht : c.tail = some t) (hlt : h.links[t]? = some lt) :
    (∀ fuel, ErrorChain.Error (error.Error fuel h) h e = error.Error fuel h l.err) ∧
    (∀ xs : List error, ∃ h2, ErrorChain.AddAll h e xs = .ok h2 ∧
      ∀ fuel s, ErrorChain.Error (error.Error fuel h) h e = .ok s →
        ErrorChain.Error (error.Error fuel h2) h2 e = .ok s) := by
  have h1 : ∀ (hp : Heap) (fuel : Nat),
      ErrorChain.Error (error.Error fuel hp) h e = error.Error fuel hp l.err := by
    intro hp fuel
    simp [ErrorChain.Error, Heap.chain, Heap.link, hc, hh, hl]
  refine ⟨h1 h, ?_⟩
  intro xs
  obtain ⟨h2, hrun, hfc, hfl⟩ := ErrorChain.AddAll_frame xs h e c t lt hc (by simp [hh]) ht hlt
  refine ⟨h2, hrun, ?_⟩
  intro fuel s hs
  rw [h1 h] at hs
  obtain ⟨c2, hc2, hh2⟩ := hfc e c hc (by simp [hh])
  obtain ⟨l2, hl2, herr⟩ := hfl a l hl
  have := error.Error_frame hfc hfl fuel l.err s hs
  simp only [ErrorChain.Error, Heap.chain, Heap.link, hc2, hh2, hh, hl2, herr]
  exact this

/-- C5 at the chain of _example/main.go: its message is "some error", before
and after two more calls of `Add`. -/
theorem ErrorChain.Error_eq_head_Error_witness :
    (∀ fuel, ErrorChain.Error (error.Error fuel exampleHeap) exampleHeap 0 =
      error.Error fuel exampleHeap (some (.errorString 1 "some error"))) ∧
    (∀ xs : List error, ∃ h2, ErrorChain.AddAll exampleHeap 0 xs = .ok h2 ∧
      ∀ fuel s, ErrorChain.Error (error.Error fuel exampleHeap) exampleHeap 0 = .ok s →
        ErrorChain.Error (error.Error fuel h2) h2 0 = .ok s) :=
  ErrorChain.Error_eq_head_Error exampleHeap 0 ⟨some 0, some 1⟩ 0 1
    ⟨some (.errorString 1 "some error"), some 1⟩
    ⟨some (.wrapError 2 "wrap it up 12" (.myError 3 12)), none⟩
    (by decide) (by decide) (by decide) (by decide) (by decide)

/-- C6: for a chain that satisfies the chain invariant (empty or not) and every
error, `Add` succeeds and `Errors()` after it is `Errors()` before it followed
by the new error. -/
theorem ErrorChain.errors_after_add (h : Heap) (e : Nat) (x : error)
    (hinv : h.invariantAt e) :
    ∃ es h2, ErrorChain.Errors h e = .ok es ∧ ErrorChain.Add h e x = .ok h2 ∧
      ErrorChain.Errors h2 e = .ok (es ++ [x]) := by
  obtain ⟨c, as, es, hc, hp, ht⟩ := Heap.invariantAt_iff.1 hinv
  obtain ⟨h2, c2, hadd, hc2, hp2, _⟩ := ErrorChain.Add_spec x hc hp ht
  exact ⟨es, h2, ErrorChain.Errors_of_chained hc hp, hadd, ErrorChain.Errors_of_chained hc2 hp2⟩

/-- C6 at the chain of _example/main.go. -/
theorem ErrorChain.errors_after_add_witness :
    ∃ es h2, ErrorChain.Errors exampleHeap 0 = .ok es ∧
      ErrorChain.Add exampleHeap 0 (some (.errorString 7 "third")) = .ok h2 ∧
      ErrorChain.Errors h2 0 = .ok (es ++ [some (.errorString 7 "third")]) :=
  ErrorChain.errors_after_add exampleHeap 0 _ (by decide)

/-- C7 as stated fails on the empty chain: `Unwrap()` and `Is(target)`
dereference the nil head there, as `Error()` does. -/
theorem ErrorChain.unwrap_empty_faults :
    ErrorChain.Unwrap Heap.fresh 0 = .error .nilDereference ∧
    ErrorChain.Is (errors.Is 3) Heap.fresh 0 (some (.errorString 1 "1")) =
      .error .nilDereference := by
  decide

/-- C7, amended: on every chain built from the empty chain by zero or more
calls of `Add`, `Add` and `Errors` complete; `Error`, `Unwrap` and `Is` all
need a non-empty chain (on the empty chain each dereferences the nil head); on
a chain with at least one error `Unwrap` completes, with nil exactly when there
is no remainder, and `Is(target)` is the call `errors.Is(head error, target)`,
with no fault of the chain's own. -/
theorem ErrorChain.operations_complete (h : Heap) (e : Nat) (es : List error) (x : error)
    (hempty : h.chains[e]? = some ⟨none, none⟩) :
    ∃ h2, ErrorChain.AddAll h e es = .ok h2 ∧
      (∃ h3, ErrorChain.Add h2 e x = .ok h3) ∧
      ErrorChain.Errors h2 e = .ok es ∧
      (es = [] →
        ErrorChain.Unwrap h2 e = .error .nilDereference ∧
        (∀ errorsIs target, ErrorChain.Is errorsIs h2 e target = .error .nilDereference) ∧
        (∀ callError, ErrorChain.Error callError h2 e = .error .nilDereference)) ∧
      (∀ y rest, es = y :: rest →
        (∃ r h3, ErrorChain.Unwrap h2 e = .ok (r, h3) ∧ (r = none ↔ rest = [])) ∧
        (∀ errorsIs target, ErrorChain.Is errorsIs h2 e target = errorsIs h2 y target)) := by
  obtain ⟨h2, c2, bs, hrun, hc2, hp2, ht2, hlen⟩ :=
    ErrorChain.AddAll_spec es h e ⟨none, none⟩ [] [] hempty Chained.nil rfl
  simp only [List.nil_append] at hp2 ht2
  obtain ⟨h3, _, hadd, _⟩ := ErrorChain.Add_spec x hc2 hp2 ht2
  refine ⟨h2, hrun, ⟨h3, hadd⟩, ErrorChain.Errors_of_chained hc2 hp2, ?_, ?_⟩
  · intro hes
    subst hes
    simp only [ErrorChain.AddAll, Except.ok.injEq] at hrun
    subst hrun
    refine ⟨?_, ?_, ?_⟩
    · simp [ErrorChain.Unwrap, Heap.chain, Heap.link, hempty]
    · intro errorsIs target
      simp [ErrorChain.Is, Heap.chain, Heap.link, hempty]
    · intro callError
      simp [ErrorChain.Error, Heap.chain, Heap.link, hempty]
  · intro y rest hes
    subst hes
    generalize hq : c2.head = q at hp2
    cases hp2 with
    | @cons a l as _ hl hrest =>
      constructor
      · by_cases hn : l.next = none
        · refine ⟨none, h2, ?_, ?_⟩
          · simp [ErrorChain.Unwrap, Heap.chain, Heap.link, hc2, hq, hl, hn]
          · simp only [true_iff]
            have has : as = [] := hrest.next_of_cons.2 hn
            have := hrest.length_eq
            rw [has] at this
            simpa using this
        · refine ⟨some (.errorChain h2.chains.length),
            { links := h2.links, chains := h2.chains ++ [⟨l.next, c2.tail⟩] }, ?_, ?_⟩
          · simp only [ErrorChain.Unwrap, Heap.chain, Heap.link, hc2, hq, hl, hn, if_false,
              Heap.allocChain]
          · refine ⟨fun hcon => (by cases hcon), ?_⟩
            intro hcon
            subst hcon
            have := hrest.length_eq
            have has : as = [] := by simpa using this.symm
            exact absurd (hrest.next_of_cons.1 has) hn
      · intro errorsIs target
        simp [ErrorChain.Is, Heap.chain, Heap.link, hc2, hq, hl]

/-- C7, amended, at the chain built by two calls of `Add`. -/
theorem ErrorChain.operations_complete_witness :
    ∃ h2, ErrorChain.AddAll Heap.fresh 0
        [some (.errorString 1 "1"), some (.errorString 2 "2")] = .ok h2 ∧
      (∃ h3, ErrorChain.Add h2 0 (some (.errorString 3 "3")) = .ok h3) ∧
      ErrorChain.Errors h2 0 = .ok [some (.errorString 1 "1"), some (.errorString 2 "2")] ∧
      (∃ r h3, ErrorChain.Unwrap h2 0 = .ok (r, h3) ∧
        (r = none ↔ [some (GoError.errorString 2 "2")] = [])) ∧
      (∀ errorsIs target, ErrorChain.Is errorsIs h2 0 target =
        errorsIs h2 (some (.errorString 1 "1")) target) := by
  obtain ⟨h2, hrun, hadd, hE, _, hrest⟩ := ErrorChain.operations_complete Heap.fresh 0
    [some (.errorString 1 "1"), some (.errorString 2 "2")] (some (.errorString 3 "3"))
    (by decide)
  exact ⟨h2, hrun, hadd, hE, (hrest _ _ rfl).1, (hrest _ _ rfl).2⟩

/-- C8 as stated fails: the state after `c := &ErrorChain{}; c.Add(A); c.Add(B);
s := c.Unwrap(); s.Add(C)` is reached through the public operations, and in it
the tail of c is the link of B, which is no longer the last link met from the
head of c. -/
theorem ErrorChain.invariant_broken_by_add_after_unwrap : ∃ h,
    Op.runAll Heap.empty [.new, .add 0 (some (.errorString 1 "A")),
      .add 0 (some (.errorString 2 "B")), .unwrap 0, .add 1 (some (.errorString 3 "C"))] =
        .ok h ∧
    ¬ h.invariantAt 0 := by
  refine ⟨_, rfl, ?_⟩
  decide

/-- C8, amended: the chain invariant holds for the empty chain; `Add` keeps it
for its receiver, and after it head and tail are both set and the tail has no
next link; the chain returned by `Unwrap` on a chain that satisfies it and has
at least two links satisfies it; every chain built from the empty chain by
calls of `Add` satisfies it; and in every state reached from the empty heap by
allocating chains and calling `Add` (no `Unwrap`), every chain object satisfies
it. -/
theorem ErrorChain.invariant_kept :
    (∀ (h : Heap) (e : Nat), h.chains[e]? = some ⟨none, none⟩ → h.invariantAt e) ∧
    (∀ (h : Heap) (e : Nat) (x : error), h.invariantAt e →
      ∃ h2 c2 t, ErrorChain.Add h e x = .ok h2 ∧ h2.invariantAt e ∧
        h2.chains[e]? = some c2 ∧ c2.tail = some t ∧ c2.head ≠ none ∧
        (Heap.link h2 (some t)).map link.next = .ok none) ∧
    (∀ (h : Heap) (e : Nat) (es : List error), h.invariantAt e →
      ErrorChain.Errors h e = .ok es → 2 ≤ es.length →
      ∃ q h2, ErrorChain.Unwrap h e = .ok (some (.errorChain q), h2) ∧ h2.invariantAt q) ∧
    (∀ (h : Heap) (e : Nat) (es : List error), h.chains[e]? = some ⟨none, none⟩ →
      ∃ h2, ErrorChain.AddAll h e es = .ok h2 ∧ h2.invariantAt e) ∧
    (∀ (ops : List Op) (h : Heap), (∀ op ∈ ops, op.builds = true) →
      Op.runAll Heap.empty ops = .ok h → ∀ e, e < h.chains.length → h.invariantAt e) := by
  refine ⟨?_, ?_, ?_, ?_, ?_⟩
  · intro h e hc
    exact Heap.invariantAt_iff.2 ⟨_, [], [], hc, Chained.nil, rfl⟩
  · intro h e x hinv
    obtain ⟨c, as, es, hc, hp, ht⟩ := Heap.invariantAt_iff.1 hinv
    obtain ⟨h2, c2, hadd, hc2, hp2, ht2, _⟩ := ErrorChain.Add_spec x hc hp ht
    have hlast : (as ++ [h.links.length]).getLast? = some h.links.length := by simp
    refine ⟨h2, c2, h.links.length, hadd,
      Heap.invariantAt_iff.2 ⟨c2, _, _, hc2, hp2, by simp [ht2]⟩, hc2, ht2, ?_, ?_⟩
    · intro hcon
      have := hp2.next_of_cons.2 hcon
      simp at this
    · obtain ⟨lt, hlt, hnone⟩ := hp2.last_next _ hlast
      simp [Heap.link, hlt, Except.map, hnone]
  · intro h e es hinv hE hlen
    obtain ⟨c, as, es2, hc, hp, ht⟩ := Heap.invariantAt_iff.1 hinv
    have hE2 := ErrorChain.Errors_of_chained hc hp
    rw [hE] at hE2
    cases hE2
    have hl := hp.length_eq
    rcases as with _ | ⟨a, _ | ⟨b, rest⟩⟩
    · simp only [List.length_nil] at hl; omega
    · simp only [List.length_cons, List.length_nil] at hl; omega
    · rcases es with _ | ⟨x, es3⟩
      · simp at hl
      · obtain ⟨hU, hp2⟩ := ErrorChain.Unwrap_more hc hp
        refine ⟨_, _, hU, Heap.invariantAt_iff.2 ⟨⟨some b, c.tail⟩, b :: rest, es3,
          List.getElem?_concat_length _ _, hp2, ?_⟩⟩
        simp only [ht, List.getLast?_cons_cons]
  · intro h e es hc
    obtain ⟨h2, c2, bs, hrun, hc2, hp2, ht2, _⟩ :=
      ErrorChain.AddAll_spec es h e ⟨none, none⟩ [] [] hc Chained.nil rfl
    exact ⟨h2, hrun, Heap.invariantAt_iff.2 ⟨c2, _, _, hc2, hp2, ht2⟩⟩
  · intro ops h hb hrun e he
    have hs := Heap.separated_runAll ops Heap.empty h Heap.separated_empty hb hrun
    cases hc : h.chains[e]? with
    | none =>
      rw [List.getElem?_eq_none_iff] at hc
      omega
    | some c =>
      obtain ⟨as, es, hp, ht, _⟩ := hs e c hc
      exact Heap.invariantAt_iff.2 ⟨c, as, es, hc, hp, ht⟩

/-- C9: on a non-empty chain `Unwrap()` returns; it returns nil exactly when the
chain has one link, and a chain it returns has `Errors()` one element shorter
than the receiver's; so the walk that calls `Unwrap` again and again on a chain
of n links ends after exactly n calls. -/
theorem ErrorChain.unwrap_shortens (h : Heap) (e : Nat) (es : List error)
    (hE : ErrorChain.Errors h e = .ok es) (hne : es ≠ []) :
    (∃ r h2, ErrorChain.Unwrap h e = .ok (r, h2) ∧ (r = none ↔ es.length = 1) ∧
      (∀ g, r = some g → ∃ q es2, g = .errorChain q ∧ ErrorChain.Errors h2 q = .ok es2 ∧
        es2.length + 1 = es.length)) ∧
    (∀ fuel, es.length ≤ fuel → ErrorChain.unwrapCalls fuel h e = .ok es.length) := by
  obtain ⟨c, as, hc, hp⟩ := ErrorChain.chained_of_Errors hE
  have hl := hp.length_eq
  constructor
  · rcases es with _ | ⟨x, es3⟩
    · exact absurd rfl hne
    rcases as with _ | ⟨a, _ | ⟨b, rest⟩⟩
    · simp at hl
    · have hes3 : es3 = [] := by simpa using hl
      subst hes3
      refine ⟨none, h, ErrorChain.Unwrap_last hc hp, by simp, ?_⟩
      intro g hg
      cases hg
    · obtain ⟨hU, hp2⟩ := ErrorChain.Unwrap_more hc hp
      have hl2 := hp2.length_eq
      refine ⟨_, _, hU, ?_, ?_⟩
      · simp only [List.length_cons] at hl2
        simp only [List.length_cons, false_iff, reduceCtorEq]
        omega
      · intro g hg
        cases hg
        refine ⟨_, es3, rfl, ?_, by simp⟩
        have hc1 : ({ links := h.links, chains := h.chains ++ [⟨some b, c.tail⟩] } :
            Heap).chains[h.chains.length]? = some ⟨some b, c.tail⟩ :=
          List.getElem?_concat_length _ _
        exact ErrorChain.Errors_of_chained hc1 hp2
  · intro fuel hf
    have has : as ≠ [] := by
      intro hcon
      rw [hcon] at hl
      exact hne (by simpa using hl)
    rw [hl]
    exact ErrorChain.unwrapCalls_spec as es h e c hc hp has fuel (by omega)

/-- C9 at the scenario `[A, B, C]`: `Unwrap` returns a chain holding two errors,
and the walk ends after three calls. -/
theorem ErrorChain.unwrap_shortens_witness :
    (∃ r h2, ErrorChain.Unwrap abcHeap 0 = .ok (r, h2) ∧ (r = none ↔ 3 = 1) ∧
      (∀ g, r = some g → ∃ q es2, g = .errorChain q ∧ ErrorChain.Errors h2 q = .ok es2 ∧
        es2.length + 1 = 3)) ∧
    ErrorChain.unwrapCalls 3 abcHeap 0 = .ok 3 :=
  ⟨(ErrorChain.unwrap_shortens abcHeap 0
      [some (.errorString 1 "A"), some (.errorString 2 "B"), some (.errorString 3 "C")]
      (by decide) (by decide)).1,
    (ErrorChain.unwrap_shortens abcHeap 0
      [some (.errorString 1 "A"), some (.errorString 2 "B"), some (.errorString 3 "C")]
      (by decide) (by decide)).2 3 (by decide)⟩

/-- C10: the chain built by `Add(errors.New("some error"))` and then
`Add(fmt.Errorf("wrap it up %w", &myError{code: 12}))` matches `&myError{code: 12}`
under `errors.Is` and does not match `&myError{code: 13}`, with every fuel from
4 on. -/
theorem errors.Is_example_chain :
    ErrorChain.AddAll Heap.fresh 0 [some (.errorString 1 "some error"),
        some (.wrapError 2 "wrap it up 12" (.myError 3 12))] = .ok exampleHeap ∧
    (∀ k, errors.Is (k + 4) exampleHeap (some (.errorChain 0)) (some (.myError 4 12)) =
      .ok true) ∧
    (∀ k, errors.Is (k + 4) exampleHeap (some (.errorChain 0)) (some (.myError 5 13)) =
      .ok false) := by
  have h12 : errors.Is 4 exampleHeap (some (.errorChain 0)) (some (.myError 4 12)) = .ok true := by
    decide
  have h13 : errors.Is 4 exampleHeap (some (.errorChain 0)) (some (.myError 5 13)) = .ok false := by
    decide
  exact ⟨by decide, fun k => errors.Is_mono_le h12 (by omega),
    fun k => errors.Is_mono_le h13 (by omega)⟩

/-- C11: on the empty chain `Errors()` returns the non-nil slice of length 0,
`[]error{}`, and not the nil slice. -/
theorem ErrorChain.errors_of_empty_chain (h : Heap) (e : Nat)
    (hempty : h.chains[e]? = some ⟨none, none⟩) :
    ErrorChain.ErrorsSlice h e = .ok (some []) ∧
    ErrorChain.ErrorsSlice h e ≠ .ok none ∧
    ErrorChain.Errors h e = .ok [] ∧
    (∀ s, ErrorChain.ErrorsSlice h e = .ok (some s) → s.length = 0) := by
  have h1 : ErrorChain.ErrorsSlice h e = .ok (some []) := by
    simp only [ErrorChain.ErrorsSlice, Heap.chain, hempty]
    cases h.links.length <;> rfl
  have h2 : ErrorChain.Errors h e = .ok [] := by
    simp only [ErrorChain.Errors, Heap.chain, hempty]
    cases h.links.length <;> rfl
  refine ⟨h1, ?_, h2, ?_⟩
  · rw [h1]
    intro hcon
    cases hcon
  · intro s hs
    rw [h1] at hs
    cases hs
    rfl

/-- C11 at the heap after `ec := &ErrorChain{}`. -/
theorem ErrorChain.errors_of_empty_chain_witness :
    ErrorChain.ErrorsSlice Heap.fresh 0 = .ok (some []) ∧
    ErrorChain.ErrorsSlice Heap.fresh 0 ≠ .ok none ∧
    ErrorChain.Errors Heap.fresh 0 = .ok [] ∧
    (∀ s, ErrorChain.ErrorsSlice Heap.fresh 0 = .ok (some s) → s.length = 0) :=
  ErrorChain.errors_of_empty_chain Heap.fresh 0 (by decide)

/-- C12 as stated fails: after `c.Add(A); c.Add(B); s := c.Unwrap()` the link of
B is the head of s and the tail of both chains, and `s.Add(C)` changes
`c.Errors()` from `[A, B]` to `[A, B, C]`. -/
theorem ErrorChain.unwrap_shares_links_counterexample : ∃ h1 h2,
    Op.runAll Heap.empty [.new, .add 0 (some (.errorString 1 "A")),
      .add 0 (some (.errorString 2 "B")), .unwrap 0] = .ok h1 ∧
    h1.chains = [⟨some 0, some 1⟩, ⟨some 1, some 1⟩] ∧
    ErrorChain.Add h1 1 (some (.errorString 3 "C")) = .ok h2 ∧
    ErrorChain.Errors h1 0 = .ok [some (.errorString 1 "A"), some (.errorString 2 "B")] ∧
    ErrorChain.Errors h2 0 = .ok [some (.errorString 1 "A"), some (.errorString 2 "B"),
      some (.errorString 3 "C")] := by
  refine ⟨_, _, rfl, by decide, rfl, by decide, by decide⟩

/-- C12, amended: the chain that `Unwrap` returns on a chain with at least two
links (that satisfies the invariant) is built on the receiver's own links: it
holds the receiver's errors after the first, and an `Add` on either of the two
chains appends to the `Errors()` of both and leaves the tail of the other one
link short of the end.  No link is shared in a state reached by allocating
chains and calling `Add` alone: there an `Add` on one chain leaves the fields,
the `Errors()` and the invariant of every other chain as they are. -/
theorem ErrorChain.unwrap_shares_links :
    (∀ (h : Heap) (e : Nat) (es : List error) (x : error), h.invariantAt e →
      ErrorChain.Errors h e = .ok es → 2 ≤ es.length →
      ∃ q h1, ErrorChain.Unwrap h e = .ok (some (.errorChain q), h1) ∧
        ErrorChain.Errors h1 q = .ok es.tail ∧ ErrorChain.Errors h1 e = .ok es ∧
        (∃ h2, ErrorChain.Add h1 q x = .ok h2 ∧
          ErrorChain.Errors h2 q = .ok (es.tail ++ [x]) ∧
          ErrorChain.Errors h2 e = .ok (es ++ [x]) ∧
          ¬ h2.invariantAt e ∧ h2.invariantAt q) ∧
        (∃ h2, ErrorChain.Add h1 e x = .ok h2 ∧
          ErrorChain.Errors h2 e = .ok (es ++ [x]) ∧
          ErrorChain.Errors h2 q = .ok (es.tail ++ [x]) ∧
          ¬ h2.invariantAt q ∧ h2.invariantAt e)) ∧
    (∀ (ops : List Op) (h : Heap), (∀ op ∈ ops, op.builds = true) →
      Op.runAll Heap.empty ops = .ok h →
      ∀ (e0 e : Nat) (x : error) (c : ErrorChain) (h2 : Heap), e ≠ e0 →
        h.chains[e]? = some c → ErrorChain.Add h e0 x = .ok h2 →
        h2.chains[e]? = some c ∧ ErrorChain.Errors h2 e = ErrorChain.Errors h e ∧
          h2.invariantAt e) := by
  constructor
  · intro h e es x hinv hE hlen
    obtain ⟨c, as, es2, hc, hp, ht⟩ := Heap.invariantAt_iff.1 hinv
    have hE2 := ErrorChain.Errors_of_chained hc hp
    rw [hE] at hE2
    cases hE2
    have hl := hp.length_eq
    rcases as with _ | ⟨a, _ | ⟨b, rest⟩⟩
    · simp only [List.length_nil] at hl; omega
    · simp only [List.length_cons, List.length_nil] at hl; omega
    · rcases es with _ | ⟨x0, es3⟩
      · simp at hl
      · obtain ⟨h1, hU, hEq, hEe, hA1, hA2⟩ := ErrorChain.Add_after_Unwrap x hc hp ht
        exact ⟨h.chains.length, h1, hU, hEq, hEe, hA1, hA2⟩
  · intro ops h hb hrun e0 e x c h2 hne hc hadd
    have hs := Heap.separated_runAll ops Heap.empty h Heap.separated_empty hb hrun
    obtain ⟨hc2, hE2⟩ := Heap.separated_add_other hs hadd hne hc
    refine ⟨hc2, hE2, ?_⟩
    obtain ⟨as, es, hp, ht, _⟩ := Heap.separated_add hs hadd e c hc2
    exact Heap.invariantAt_iff.2 ⟨c, as, es, hc2, hp, ht⟩

/-- C12, amended, at the scenario `[A, B, C]`: the chain that `Unwrap`
returns holds `[B, C]`, and an `Add` of D on it makes the receiver hold
`[A, B, C, D]`. -/
theorem ErrorChain.unwrap_shares_links_witness :
    ∃ q h1, ErrorChain.Unwrap abcHeap 0 = .ok (some (.errorChain q), h1) ∧
      ErrorChain.Errors h1 q = .ok [some (.errorString 2 "B"), some (.errorString 3 "C")] ∧
      ∃ h2, ErrorChain.Add h1 q (some (.errorString 4 "D")) = .ok h2 ∧
        ErrorChain.Errors h2 0 = .ok [some (.errorString 1 "A"), some (.errorString 2 "B"),
          some (.errorString 3 "C"), some (.errorString 4 "D")] ∧
        ¬ h2.invariantAt 0 := by
  obtain ⟨q, h1, hU, hEq, _, ⟨h2, hadd, _, hEe, hninv, _⟩, _⟩ :=
    ErrorChain.unwrap_shares_links.1 abcHeap 0
      [some (.errorString 1 "A"), some (.errorString 2 "B"), some (.errorString 3 "C")]
      (some (.errorString 4 "D")) (by decide) (by decide) (by decide)
  exact ⟨q, h1, hU, hEq, h2, hadd, hEe, hninv⟩

/-- C13: the read operations write no field.  `Unwrap` and `Is` (run with the
`errors.Is` that returns its heap) leave a heap with the same links and with
every chain object that was there unchanged, so head, tail, `err` and `next`
are as before and `Errors()` of every chain returns the same sequence; all
they add is newly allocated chain objects.  Whenever `Is` returns an answer,
that run returns the same answer.  `Errors` and `Error` are functions of the
heap that return no heap: their source assigns to no field and allocates
nothing. -/
theorem ErrorChain.reads_keep_heap (h : Heap) (e : Nat) :
    (∀ r h2, ErrorChain.Unwrap h e = .ok (r, h2) → h.keptIn h2) ∧
    (∀ fuel target b h2,
      ErrorChain.IsRun (errors.IsRun fuel) h e target = .ok (b, h2) → h.keptIn h2) ∧
    (∀ fuel (t : GoError) b, h.errsValid → t.validBelow h.chains.length = true →
      ErrorChain.Is (errors.Is fuel) h e (some t) = .ok b →
      ∃ h2, ErrorChain.IsRun (errors.IsRun fuel) h e (some t) = .ok (b, h2)) ∧
    (∀ h2, h.keptIn h2 →
      (∀ a : Nat, h2.links[a]? = h.links[a]?) ∧
      (∀ q : Nat, q < h.chains.length → h2.chains[q]? = h.chains[q]?) ∧
      (∀ q, q < h.chains.length → ErrorChain.Errors h2 q = ErrorChain.Errors h q)) := by
  refine ⟨?_, ?_, ?_, ?_⟩
  · intro r h2 hU
    exact ErrorChain.Unwrap_keptIn hU
  · intro fuel target b h2 hr
    simp only [ErrorChain.IsRun] at hr
    cases hc : h.chain e with
    | error f => simp [hc] at hr
    | ok c =>
      simp only [hc] at hr
      cases hl : h.link c.head with
      | error f => simp [hl] at hr
      | ok l =>
        simp only [hl] at hr
        exact errors.IsRun_keptIn _ _ _ _ _ _ hr
  · intro fuel t b hvalid ht hb
    simp only [ErrorChain.Is, ErrorChain.IsRun] at hb ⊢
    cases hc : h.chain e with
    | error f => simp [hc] at hb
    | ok c =>
      simp only [hc] at hb ⊢
      cases hl : h.link c.head with
      | error f => simp [hl] at hb
      | ok l =>
        simp only [hl] at hb ⊢
        have hlv : error.validBelow h.chains.length l.err = true := by
          simp only [Heap.link] at hl
          cases hh : c.head with
          | none => simp [hh] at hl
          | some a =>
            simp only [hh] at hl
            cases hla : h.links[a]? with
            | none => simp [hla] at hl
            | some l2 =>
              simp only [hla, Except.ok.injEq] at hl
              subst hl
              exact hvalid l2 (List.getElem?_mem hla)
        exact errors.IsRun_of_Is fuel h l.err t b hvalid ht hlv hb
  · intro h2 hk
    refine ⟨fun a => by rw [hk.1], ?_, fun q hq => Heap.keptIn_Errors hk hq⟩
    intro q hq
    obtain ⟨c, hc⟩ : ∃ c, h.chains[q]? = some c := ⟨h.chains[q], List.getElem?_eq_getElem hq⟩
    rw [hc, Heap.keptIn_chain hk hc]

/-- C13 at a chain whose head error is a chain holding `[A, &testError{code: 7}]`:
`Is` answers true after one `Unwrap` inside `errors.Is`, and the heap it
leaves keeps every object. -/
theorem ErrorChain.reads_keep_heap_witness :
    ∃ h2, ErrorChain.IsRun (errors.IsRun 3) nestedHeap 0 (some (.testError 9 7)) =
        .ok (true, h2) ∧
      nestedHeap.keptIn h2 ∧ h2.chains.length = nestedHeap.chains.length + 1 :=
  ⟨_, rfl, (ErrorChain.reads_keep_heap nestedHeap 0).2.1 3 (some (.testError 9 7)) true _ rfl,
    by decide⟩

/-- C14: `Add(e)` allocates one link that holds e and has no next.  On an empty
chain that link becomes head and tail.  On a non-empty chain that satisfies the
invariant the head stays, the previous tail (whose next was nil) gets the new
link as its next, the new link becomes the tail, and no other link changes. -/
theorem ErrorChain.Add_new_link (h : Heap) (e : Nat) (c : ErrorChain) (x : error)
    (hc : h.chains[e]? = some c) :
    (c.head = none →
      ∃ h2, ErrorChain.Add h e x = .ok h2 ∧
        h2.links = h.links ++ [⟨x, none⟩] ∧
        h2.chains[e]? = some ⟨some h.links.length, some h.links.length⟩ ∧
        (∀ q, q ≠ e → h2.chains[q]? = h.chains[q]?)) ∧
    (c.head ≠ none → h.invariantAt e →
      ∃ h2 t lt, ErrorChain.Add h e x = .ok h2 ∧
        c.tail = some t ∧ h.links[t]? = some lt ∧ lt.next = none ∧
        h2.links.length = h.links.length + 1 ∧
        h2.links[h.links.length]? = some ⟨x, none⟩ ∧
        h2.links[t]? = some ⟨lt.err, some h.links.length⟩ ∧
        (∀ a, a < h.links.length → a ≠ t → h2.links[a]? = h.links[a]?) ∧
        h2.chains[e]? = some ⟨c.head, some h.links.length⟩ ∧
        (∀ q, q ≠ e → h2.chains[q]? = h.chains[q]?)) := by
  have he : e < h.chains.length := by
    by_contra hcon
    rw [List.getElem?_eq_none (by omega)] at hc
    cases hc
  constructor
  · intro hh
    refine ⟨_, ErrorChain.Add_empty x hc hh, rfl, ?_, ?_⟩
    · simp only
      rw [List.getElem?_set_self he]
    · intro q hq
      simp only
      rw [List.getElem?_set_ne (Ne.symm hq)]
  · intro hh hinv
    obtain ⟨c0, as, es, hc0, hp, ht⟩ := Heap.invariantAt_iff.1 hinv
    rw [hc] at hc0
    cases hc0
    have has : as ≠ [] := fun hcon => hh (hp.next_of_cons.1 hcon)
    obtain ⟨t, hlast⟩ : ∃ t, as.getLast? = some t := by
      cases hg : as.getLast? with
      | none => exact absurd (List.getLast?_eq_none_iff.1 hg) has
      | some t => exact ⟨t, rfl⟩
    obtain ⟨lt, hlt, hnone⟩ := hp.last_next t hlast
    have htl : t < h.links.length := by
      by_contra hcon
      rw [List.getElem?_eq_none (by omega)] at hlt
      cases hlt
    refine ⟨_, t, lt, ErrorChain.Add_nonempty x hc hh (ht.trans hlast) hlt, ht.trans hlast, hlt,
      hnone, by simp, ?_, ?_, ?_, ?_, ?_⟩
    · simp only
      rw [List.getElem?_set_ne (by omega)]
      exact List.getElem?_concat_length _ _
    · simp only
      rw [List.getElem?_set_self (by simp; omega)]
    · intro a ha hat
      simp only
      rw [List.getElem?_set_ne (Ne.symm hat), List.getElem?_append_left ha]
    · simp only
      rw [List.getElem?_set_self he]
    · intro q hq
      simp only
      rw [List.getElem?_set_ne (Ne.symm hq)]

/-- C14 at the empty chain, where head and tail become the new link, and at
the chain of _example/main.go, where the new link is attached to the tail. -/
theorem ErrorChain.Add_new_link_witness :
    (∃ h2, ErrorChain.Add Heap.fresh 0 (some (.errorString 1 "1")) = .ok h2 ∧
      h2.links = [⟨some (.errorString 1 "1"), none⟩] ∧
      h2.chains[0]? = some ⟨some 0, some 0⟩) ∧
    (∃ h2, ErrorChain.Add exampleHeap 0 (some (.errorString 7 "third")) = .ok h2 ∧
      h2.links[2]? = some ⟨some (.errorString 7 "third"), none⟩ ∧
      h2.chains[0]? = some ⟨some 0, some 2⟩) := by
  obtain ⟨h2, hadd, hl, hc, _⟩ := (ErrorChain.Add_new_link Heap.fresh 0 ⟨none, none⟩
    (some (.errorString 1 "1")) (by decide)).1 rfl
  obtain ⟨h3, t, lt, hadd3, _, _, _, _, hnew, _, _, hc3, _⟩ :=
    (ErrorChain.Add_new_link exampleHeap 0 ⟨some 0, some 1⟩
      (some (.errorString 7 "third")) (by decide)).2 (by decide) (by decide)
  exact ⟨⟨h2, hadd, hl, hc⟩, ⟨h3, hadd3, hnew, hc3⟩⟩

/-- C15: on a chain built from the empty chain by calls of `Add`, one more `Add`
leaves every link as it is except the previous tail, whose `next` was nil and
is set to the new link; so any number of further calls keeps the `err` of
every link and every `next` that is set. -/
theorem ErrorChain.Add_writes_next_once (h : Heap) (e : Nat) (es : List error) (x : error)
    (hempty : h.chains[e]? = some ⟨none, none⟩) :
    ∃ h1 c1, ErrorChain.AddAll h e es = .ok h1 ∧ h1.chains[e]? = some c1 ∧
      (∃ h2, ErrorChain.Add h1 e x = .ok h2 ∧
        ∀ (a : Nat) (l : link), h1.links[a]? = some l →
          h2.links[a]? = some l ∨
          (c1.tail = some a ∧ l.next = none ∧
            h2.links[a]? = some ⟨l.err, some h1.links.length⟩)) ∧
      (∀ xs : List error, ∃ h3, ErrorChain.AddAll h1 e xs = .ok h3 ∧
        ∀ (a : Nat) (l : link), h1.links[a]? = some l →
          ∃ l3 : link, h3.links[a]? = some l3 ∧ l3.err = l.err ∧
            (l.next ≠ none → l3.next = l.next)) := by
  obtain ⟨h1, c1, bs, hrun, hc1, hp1, ht1, _⟩ :=
    ErrorChain.AddAll_spec es h e ⟨none, none⟩ [] [] hempty Chained.nil rfl
  exact ⟨h1, c1, hrun, hc1, ErrorChain.Add_link_cases x hc1 hp1 ht1,
    fun xs => ErrorChain.AddAll_keeps_links xs h1 e c1 _ _ hc1 hp1 ht1⟩

/-- C15 at the chain built by two calls of `Add`. -/
theorem ErrorChain.Add_writes_next_once_witness :
    ∃ h1 c1, ErrorChain.AddAll Heap.fresh 0
        [some (.errorString 1 "1"), some (.errorString 2 "2")] = .ok h1 ∧
      h1.chains[0]? = some c1 ∧
      (∃ h2, ErrorChain.Add h1 0 (some (.errorString 3 "3")) = .ok h2 ∧
        ∀ (a : Nat) (l : link), h1.links[a]? = some l →
          h2.links[a]? = some l ∨
          (c1.tail = some a ∧ l.next = none ∧
            h2.links[a]? = some ⟨l.err, some h1.links.length⟩)) ∧
      (∀ xs : List error, ∃ h3, ErrorChain.AddAll h1 0 xs = .ok h3 ∧
        ∀ (a : Nat) (l : link), h1.links[a]? = some l →
          ∃ l3 : link, h3.links[a]? = some l3 ∧ l3.err = l.err ∧
            (l.next ≠ none → l3.next = l.next)) :=
  ErrorChain.Add_writes_next_once Heap.fresh 0 _ _ (by decide)

/-- C16: two chain objects with the same head give the same `Errors()`, the
same `Error()`, the same `Is(target)` and the same answer of `Unwrap()` (nil or
a chain), and the chains that their `Unwrap()` returns have the same
`Errors()`, whatever their tails are. -/
theorem ErrorChain.results_ignore_tail (h : Heap) (e1 e2 : Nat) (c1 c2 : ErrorChain)
    (hc1 : h.chains[e1]? = some c1) (hc2 : h.chains[e2]? = some c2)
    (hhead : c1.head = c2.head) :
    ErrorChain.Errors h e1 = ErrorChain.Errors h e2 ∧
    (∀ callError, ErrorChain.Error callError h e1 = ErrorChain.Error callError h e2) ∧
    (∀ errorsIs target,
      ErrorChain.Is errorsIs h e1 target = ErrorChain.Is errorsIs h e2 target) ∧
    (ErrorChain.Unwrap h e1).map Prod.fst = (ErrorChain.Unwrap h e2).map Prod.fst ∧
    (∀ q1 q2 h1 h2, ErrorChain.Unwrap h e1 = .ok (some (.errorChain q1), h1) →
      ErrorChain.Unwrap h e2 = .ok (some (.errorChain q2), h2) →
      ErrorChain.Errors h1 q1 = ErrorChain.Errors h2 q2) := by
  refine ⟨?_, ?_, ?_, ?_, ?_⟩
  · simp only [ErrorChain.Errors, Heap.chain, hc1, hc2, hhead]
  · intro callError
    simp only [ErrorChain.Error, Heap.chain, hc1, hc2, hhead]
  · intro errorsIs target
    simp only [ErrorChain.Is, Heap.chain, hc1, hc2, hhead]
  · simp only [ErrorChain.Unwrap, Heap.chain, hc1, hc2, hhead, Heap.allocChain]
    cases h.link c2.head with
    | error f => rfl
    | ok l =>
      simp only
      by_cases hn : l.next = none
      · simp [hn, Except.map]
      · simp [hn, Except.map]
  · intro q1 q2 h1 h2 hU1 hU2
    simp only [ErrorChain.Unwrap, Heap.chain, hc1, hc2, hhead, Heap.allocChain] at hU1 hU2
    cases hl : h.link c2.head with
    | error f => simp [hl] at hU1
    | ok l =>
      simp only [hl] at hU1 hU2
      by_cases hn : l.next = none
      · simp [hn] at hU1
      · simp only [hn, if_false, Except.ok.injEq, Prod.mk.injEq, Option.some.injEq,
          GoError.errorChain.injEq] at hU1 hU2
        obtain ⟨hq1, hh1⟩ := hU1
        obtain ⟨hq2, hh2⟩ := hU2
        subst hq1 hq2 hh1 hh2
        simp only [ErrorChain.Errors, Heap.chain, List.getElem?_concat_length]

/-- C16 at the fixture of `TestErrorChain_Errors`: the chain with the tail set
and the chain with the tail left nil. -/
theorem ErrorChain.results_ignore_tail_witness :
    ErrorChain.Errors fixtureHeap 0 = ErrorChain.Errors fixtureHeap 1 ∧
    ErrorChain.Errors fixtureHeap 1 = .ok [some (.errorString 1 "1"),
      some (.errorString 2 "2"), some (.errorString 3 "3")] :=
  ⟨(ErrorChain.results_ignore_tail fixtureHeap 0 1 ⟨some 0, some 2⟩ ⟨some 0, none⟩
    (by decide) (by decide) rfl).1, by decide⟩

/-- C17 as stated fails in four ways.  (1) An error of the chain is an empty
chain g: after `c.Add(g)` and `c.Add(&testError{code: 7})`, `errors.Is` of the
last error and `&testError{code: 7}` is true, and `errors.Is(c, target)`
dereferences the nil head of g and is true for no fuel.  (2) The first error d
of c holds a view on the tail link of c (`sharedTailHeap`) and
`errors.Is(c, target)` is true: after `c.Add(g)` with g empty the walk of d
reaches g before the walk of c reaches the matching error, and the match
faults.  (3) Both e and the target are nil: `errors.Is(nil, nil)` is true and
`errors.Is(c, nil)` is false.  (4) An `Add` was made on the chain that
`c.Unwrap()` returned (`grownViewHeap`), so that the invariant of c is broken
and `errors.Is(c, target)` is true by the error appended there: `c.Add(e)`
overwrites the `next` of the tail of c and the match is lost. -/
theorem errors.Is_after_Add_counterexample :
    (Op.runAll Heap.empty [.new, .new, .add 0 (some (.errorChain 1)),
        .add 0 (some (.testError 5 7))] = .ok emptyInsideHeap ∧
      errors.Is 1 emptyInsideHeap (some (.testError 5 7)) (some (.testError 9 7)) = .ok true ∧
      errors.Is 2 emptyInsideHeap (some (.errorChain 0)) (some (.testError 9 7)) =
        .error .nilDereference ∧
      ¬ ∃ fuel, errors.Is fuel emptyInsideHeap (some (.errorChain 0)) (some (.testError 9 7)) =
        .ok true) ∧
    (Op.runAll Heap.empty [.new, .new, .new, .add 0 (some (.errorChain 1)),
        .add 0 (some (.testError 5 7)), .add 0 (some (.errorString 6 "Z")), .unwrap 0,
        .unwrap 3, .add 1 (some (.errorChain 4))] = .ok sharedTailHeap ∧
      sharedTailHeap.invariantAt 0 ∧
      errors.Is 4 sharedTailHeap (some (.errorChain 0)) (some (.testError 9 7)) = .ok true ∧
      ∃ h2, ErrorChain.Add sharedTailHeap 0 (some (.errorChain 2)) = .ok h2 ∧
        errors.Is 5 h2 (some (.errorChain 0)) (some (.testError 9 7)) =
          .error .nilDereference ∧
        ¬ ∃ fuel, errors.Is fuel h2 (some (.errorChain 0)) (some (.testError 9 7)) = .ok true) ∧
    (∃ h1 h2, ErrorChain.AddAll Heap.fresh 0 [some (.errorString 1 "A")] = .ok h1 ∧
      ErrorChain.Add h1 0 none = .ok h2 ∧
      errors.Is 0 h2 none none = .ok true ∧
      ∀ fuel, errors.Is fuel h2 (some (.errorChain 0)) none = .ok false) ∧
    (Op.runAll Heap.empty [.new, .add 0 (some (.errorString 1 "A")),
        .add 0 (some (.errorString 2 "B")), .unwrap 0, .add 1 (some (.testError 3 7))] =
        .ok grownViewHeap ∧
      ¬ grownViewHeap.invariantAt 0 ∧
      errors.Is 4 grownViewHeap (some (.errorChain 0)) (some (.testError 9 7)) = .ok true ∧
      ∃ h2, ErrorChain.Add grownViewHeap 0 (some (.errorString 4 "E")) = .ok h2 ∧
        errors.Is 1 h2 (some (.errorString 4 "E")) (some (.testError 9 7)) = .ok false ∧
        ∀ fuel, 4 ≤ fuel →
          errors.Is fuel h2 (some (.errorChain 0)) (some (.testError 9 7)) = .ok false) := by
  refine ⟨⟨by decide, by decide, by decide, ?_⟩, ⟨by decide, by decide, by decide, ?_⟩, ?_,
    ⟨by decide, by decide, by decide, ?_⟩⟩
  · exact errors.Is_never_of_fault (by decide)
      (by decide : errors.Is 2 emptyInsideHeap (some (.errorChain 0)) (some (.testError 9 7)) =
        .error .nilDereference)
  · refine ⟨⟨[⟨some (.errorChain 1), some 1⟩, ⟨some (.testError 5 7), some 2⟩,
        ⟨some (.errorString 6 "Z"), some 4⟩, ⟨some (.errorChain 4), none⟩,
        ⟨some (.errorChain 2), none⟩],
      [⟨some 0, some 4⟩, ⟨some 3, some 3⟩, ⟨none, none⟩, ⟨some 1, some 2⟩, ⟨some 2, some 2⟩]⟩,
      by decide, by decide, ?_⟩
    exact errors.Is_never_of_fault (by decide)
      (by decide : errors.Is 5 _ (some (.errorChain 0)) (some (.testError 9 7)) =
        .error .nilDereference)
  · refine ⟨⟨[⟨some (.errorString 1 "A"), none⟩], [⟨some 0, some 0⟩]⟩,
      ⟨[⟨some (.errorString 1 "A"), some 1⟩, ⟨none, none⟩], [⟨some 0, some 1⟩]⟩,
      by decide, by decide, by decide, ?_⟩
    intro fuel
    cases fuel <;> rfl
  · refine ⟨⟨[⟨some (.errorString 1 "A"), some 1⟩, ⟨some (.errorString 2 "B"), some 3⟩,
        ⟨some (.testError 3 7), none⟩, ⟨some (.errorString 4 "E"), none⟩],
      [⟨some 0, some 3⟩, ⟨some 1, some 2⟩]⟩, by decide, by decide, ?_⟩
    intro fuel hfuel
    exact errors.Is_mono_le (by decide : errors.Is 4 _ (some (.errorChain 0))
      (some (.testError 9 7)) = .ok false) hfuel

/-- C17, amended: for a chain c that satisfies the chain invariant and holds at
least one error, an error e and a target t, nil included, in a heap whose chain
pointers are allocated: (1) if `errors.Is(c, t)` is true before `c.Add(e)` and
`errors.Is(e, t)` returns after it, then `errors.Is(c, t)` is true after it;
(2) after `c.Add(e)`, `errors.Is(c, t)` is true whenever `errors.Is(e, t)` is
true, e and t are not both nil, and `errors.Is(ei, t)` returns for every error
ei that c held before.  Every chain built from the empty chain by at least one
`Add` is such a chain: it satisfies the invariant and holds the errors added
(last part). -/
theorem errors.Is_kept_by_Add (h : Heap) (e : Nat) (es : List error) (x t : error)
    (hinv : h.invariantAt e) (hes : ErrorChain.Errors h e = .ok es) (hne : es ≠ [])
    (hvalid : h.errsValid)
    (hx : error.validBelow h.chains.length x = true)
    (ht : error.validBelow h.chains.length t = true) :
    (∃ h2, ErrorChain.Add h e x = .ok h2 ∧
      ((∃ fuel b, errors.Is fuel h2 x t = .ok b) →
        (∃ fuel, errors.Is fuel h (some (.errorChain e)) t = .ok true) →
        ∃ n, ∀ fuel, n ≤ fuel → errors.Is fuel h2 (some (.errorChain e)) t = .ok true) ∧
      ((∀ y ∈ es, ∃ fuel b, errors.Is fuel h2 y t = .ok b) → ¬ (x = none ∧ t = none) →
        (∃ fuel, errors.Is fuel h2 x t = .ok true) →
        ∃ n, ∀ fuel, n ≤ fuel → errors.Is fuel h2 (some (.errorChain e)) t = .ok true)) ∧
    (∀ (h0 : Heap) (xs : List error), h0.chains[e]? = some ⟨none, none⟩ → xs ≠ [] →
      ∃ h1, ErrorChain.AddAll h0 e xs = .ok h1 ∧ h1.invariantAt e ∧
        ErrorChain.Errors h1 e = .ok xs) := by
  refine ⟨?_, ?_⟩
  swap
  · intro h0 xs hempty _
    obtain ⟨h1, c1, bs, hrun, hc1, hp1, ht1, _⟩ :=
      ErrorChain.AddAll_spec xs h0 e ⟨none, none⟩ [] [] hempty Chained.nil rfl
    simp only [List.nil_append] at hp1 ht1
    exact ⟨h1, hrun, Heap.invariantAt_iff.2 ⟨c1, bs, xs, hc1, hp1, ht1⟩,
      ErrorChain.Errors_of_chained hc1 hp1⟩
  obtain ⟨c, as, es2, hc, hp, htl⟩ := Heap.invariantAt_iff.1 hinv
  have hes2 : es2 = es := by
    have := ErrorChain.Errors_of_chained hc hp
    rw [hes] at this
    cases this
    rfl
  subst hes2
  have has : as ≠ [] := by
    intro hcon
    have := hp.length_eq
    rw [hcon] at this
    exact hne (List.length_eq_zero.1 this)
  have hhead : c.head ≠ none := fun hcon => has (hp.next_of_cons.2 hcon)
  obtain ⟨h2, c2, hadd, hc2, hp2, _, hlen2, _, hother, hkeep, _⟩ := ErrorChain.Add_spec x hc hp htl
  obtain ⟨h3, hadd3, hcases⟩ := ErrorChain.Add_link_cases x hc hp htl
  rw [hadd] at hadd3
  cases hadd3
  obtain ⟨hv2, _⟩ := ErrorChain.Add_errsValid hvalid hx hadd
  have hnew := ErrorChain.Add_new_at hc hp htl hadd
  refine ⟨h2, hadd, ?_⟩
  have hid : ∀ tg : GoError, (GoError.errorChain e).same tg = true →
      ∃ n, ∀ fuel, n ≤ fuel →
        errors.Is fuel h2 (some (.errorChain e)) (some tg) = .ok true := by
    intro tg hself
    refine ⟨1, ?_⟩
    intro fuel hfuel
    obtain ⟨k, rfl⟩ : ∃ k, fuel = k + 1 := ⟨fuel - 1, by omega⟩
    rw [errors.Is_chain_step, if_pos hself]
  cases t with
  | none =>
    constructor
    · rintro _ ⟨fuel, hf⟩
      cases fuel <;> simp [errors.Is] at hf
    · rintro _ hnn ⟨fuel, hf⟩
      cases x with
      | none => exact absurd ⟨rfl, rfl⟩ hnn
      | some g => cases fuel <;> simp [errors.Is] at hf
  | some tg =>
    have htg : tg.validBelow h2.chains.length = true := by
      rw [hlen2]
      exact ht
    constructor
    · rintro ⟨fx, bx, hfx⟩ ⟨fuel, hf⟩
      obtain ⟨f2, b2, hb2, himp⟩ := errors.Is_sim_add hv2 htg (by rw [hlen2]; exact hx) hnew hfx
        fuel h h2 (some (.errorChain e)) true
        (by
          intro a l hl
          rcases hcases a l hl with h1 | ⟨_, h1, h3⟩
          · exact Or.inl h1
          · exact Or.inr ⟨h1, h3⟩)
        (by
          intro q d hq
          by_cases hqe : q = e
          · subst hqe
            rw [hc] at hq
            cases hq
            exact ⟨c2, hc2, hkeep hhead⟩
          · exact ⟨d, by rw [hother q hqe]; exact hq, rfl⟩)
        hlen2 rfl (fun _ _ => rfl) (le_refl _) hf
      have hb2t := himp rfl
      subst hb2t
      exact ⟨f2, fun fuel hfuel => errors.Is_mono_le hb2 hfuel⟩
    · rintro hterm _ ⟨fuel, hf⟩
      by_cases hself : (GoError.errorChain e).same tg = true
      · exact hid tg hself
      · have hsame : (GoError.errorChain e).same tg = false := by simpa using hself
        obtain ⟨n, b, hn, hiff⟩ := errors.Is_walk hv2 htg hp2 (by simp)
          (by
            intro y hy
            rcases List.mem_append.1 hy with hy | hy
            · exact hterm y hy
            · rw [List.mem_singleton.1 hy]
              exact ⟨fuel, true, hf⟩)
          h2 e c2 rfl (fun _ _ => rfl) (le_refl _) hc2 rfl hsame
        have hb : b = true := hiff.2 ⟨x, by simp, fuel, hf⟩
        subst hb
        exact ⟨n, hn⟩

/-- C17, amended, at the chain of _example/main.go: built by one `Add`, it
gets the wrapped `&myError{code: 12}` by the second and then matches
`&myError{code: 12}`; and it still matches after a third `Add`. -/
theorem errors.Is_kept_by_Add_witness :
    ErrorChain.AddAll Heap.fresh 0 [some (.errorString 1 "some error")] =
      .ok ⟨[⟨some (.errorString 1 "some error"), none⟩], [⟨some 0, some 0⟩]⟩ ∧
    (∃ h2, ErrorChain.Add ⟨[⟨some (.errorString 1 "some error"), none⟩], [⟨some 0, some 0⟩]⟩ 0
        (some (.wrapError 2 "wrap it up 12" (.myError 3 12))) = .ok h2 ∧
      ∃ n, ∀ fuel, n ≤ fuel →
        errors.Is fuel h2 (some (.errorChain 0)) (some (.myError 4 12)) = .ok true) ∧
    (∃ h2, ErrorChain.Add exampleHeap 0 (some (.errorString 5 "one more")) = .ok h2 ∧
      ∃ n, ∀ fuel, n ≤ fuel →
        errors.Is fuel h2 (some (.errorChain 0)) (some (.myError 4 12)) = .ok true) := by
  refine ⟨by decide, ?_, ?_⟩
  · obtain ⟨⟨h2, hadd, _, hnew⟩, _⟩ := errors.Is_kept_by_Add
      ⟨[⟨some (.errorString 1 "some error"), none⟩], [⟨some 0, some 0⟩]⟩ 0
      [some (.errorString 1 "some error")]
      (some (.wrapError 2 "wrap it up 12" (.myError 3 12))) (some (.myError 4 12))
      (by decide) (by decide) (by decide) (by decide) (by decide) (by decide)
    refine ⟨h2, hadd, hnew ?_ (by simp) ?_⟩
    · intro y hy
      rw [List.mem_singleton.1 hy]
      refine ⟨1, false, ?_⟩
      rw [errors.Is_plain_heap h2 Heap.fresh (some (.myError 4 12)) 1
        (.errorString 1 "some error") (by decide)]
      decide
    · refine ⟨2, ?_⟩
      rw [errors.Is_plain_heap h2 Heap.fresh (some (.myError 4 12)) 2
        (.wrapError 2 "wrap it up 12" (.myError 3 12)) (by decide)]
      decide
  · obtain ⟨⟨h2, hadd, hold, _⟩, _⟩ := errors.Is_kept_by_Add exampleHeap 0
      [some (.errorString 1 "some error"), some (.wrapError 2 "wrap it up 12" (.myError 3 12))]
      (some (.errorString 5 "one more")) (some (.myError 4 12))
      (by decide) (by decide) (by decide) (by decide) (by decide) (by decide)
    refine ⟨h2, hadd, hold ⟨1, false, ?_⟩ ⟨4, by decide⟩⟩
    rw [errors.Is_plain_heap h2 Heap.fresh (some (.myError 4 12)) 1
      (.errorString 5 "one more") (by decide)]
    decide
